import Mathlib

/-!
# tux-controller: TuxCore driver and PaletteCore photo pipeline

A shallow embedding of `src/module/tuxctl-ioctl.c` and `src/photo.c`.

Conventions.
* Bytes and words are natural numbers; a `char` is represented by its 8-bit
  pattern (the value that goes out on the serial line).
* C `int` values that may be subtracted from are integers.  Arithmetic is
  exact: the model agrees with the C code whenever no C `int` overflows.
* Constants that come from headers outside `src/` (`mtcp.h`, `modex.h`,
  `photo_headers.h`, ...) are parameters, collected in structures.
* Memory that the C code leaves uninitialised (the local `led_buffer`, the
  freshly allocated palette) is an explicit input of the model.
-/

namespace Tux

/-! ## TuxCore: `src/module/tuxctl-ioctl.c` -/

/-- Opcodes of `mtcp.h` used by the driver.  The four response opcodes label
the cases of one C `switch`, so they are pairwise distinct. -/
structure Mtcp where
  MTCP_ERROR : Nat
  MTCP_ACK : Nat
  MTCP_RESET : Nat
  MTCP_BIOC_EVENT : Nat
  MTCP_BIOC_ON : Nat
  MTCP_LED_SET : Nat
  MTCP_LED_USR : Nat
  case_labels_distinct :
    [MTCP_ERROR, MTCP_ACK, MTCP_RESET, MTCP_BIOC_EVENT].Nodup

/-- Sample opcode values, used for concrete evaluations (the behaviour of the
driver does not depend on them beyond the distinctness of the case labels). -/
def mtcp_h : Mtcp where
  MTCP_ERROR := 0x77
  MTCP_ACK := 0x40
  MTCP_RESET := 0x46
  MTCP_BIOC_EVENT := 0x41
  MTCP_BIOC_ON := 0xC3
  MTCP_LED_SET := 0xC6
  MTCP_LED_USR := 0xC8
  case_labels_distinct := by decide

/-- Value of `EINVAL` (`-EINVAL` is the invalid-argument result). -/
def EINVAL : Int := 22

/-- The file-scope variables `ack`, `buttoons`, `led_backup`, together with
the bytes handed to `tuxctl_ldisc_put` so far (`tx`, oldest first). -/
structure Session where
  ack : Int
  buttoons : Nat
  led_backup : Nat
  tx : List Nat

/-- State at module load: C zero-initialises the three globals. -/
def Session.initial : Session :=
  { ack := 0, buttoons := 0, led_backup := 0, tx := [] }

/-- Modelled from the spec: `tuxctl_ldisc_put` of `tuxctl-ld.c`, which is not
under `src/`.  A fire-and-forget write of the first `n` bytes of `buf` to the
transmit queue; the result is the number of bytes that were not accepted,
here always `0`. -/
def tuxctl_ldisc_put (s : Session) (buf : List Nat) (n : Nat) : Session × Int :=
  ({ s with tx := s.tx ++ buf.take n }, 0)

/-- `tux_init` (lines 143-155). -/
def tux_init (k : Mtcp) (s : Session) : Session × Int :=
  if s.ack ≠ 0 then
    (s, -EINVAL)
  else
    let s1 := { s with ack := 1 }
    let s2 := { s1 with buttoons := 0xFF }
    let buffer := [k.MTCP_BIOC_ON, k.MTCP_LED_USR]
    let s3 := (tuxctl_ldisc_put s2 buffer 2).1
    ({ s3 with ack := 0 }, 0)

/-- `display_hex` (lines 217-277).  The case labels are the C literals
`0x0` .. `0x9` and `0x10` .. `0x15`. -/
def display_hex (hex_val dec_point : Nat) : Nat :=
  let led_set : Option Nat :=
    if hex_val = 0x0 then some 0xE7
    else if hex_val = 0x1 then some 0x06
    else if hex_val = 0x2 then some 0xCB
    else if hex_val = 0x3 then some 0x8F
    else if hex_val = 0x4 then some 0x2E
    else if hex_val = 0x5 then some 0xAD
    else if hex_val = 0x6 then some 0xED
    else if hex_val = 0x7 then some 0x86
    else if hex_val = 0x8 then some 0xEF
    else if hex_val = 0x9 then some 0xAF
    else if hex_val = 0x10 then some 0xEE
    else if hex_val = 0x11 then some 0x6D
    else if hex_val = 0x12 then some 0xE1
    else if hex_val = 0x13 then some 0x4F
    else if hex_val = 0x14 then some 0xE9
    else if hex_val = 0x15 then some 0xE8
    else none
  match led_set with
  | none => 0xAF
  | some v => if dec_point = 1 then v ||| 0x10 else v

/-- The array `my_hex` of `tux_set_led` (lines 190-193). -/
def my_hex (arg : Nat) (i : Nat) : Nat :=
  if i = 0 then arg &&& 0x000F
  else if i = 1 then (arg &&& 0x00F0) >>> 4
  else if i = 2 then (arg &&& 0x0F00) >>> 8
  else (arg &&& 0xF000) >>> 12

/-- The `for` loop of `tux_set_led` (lines 195-203): `n` iterations remain,
`i` is the loop index, `led` and `dec` the shifted masks.  `bit_mask_led`
stays `0x01`; `bit_mask_hex` is shifted but never read and is left out. -/
def led_loop (arg : Nat) : Nat → Nat → Nat → Nat → List Nat → List Nat
  | 0, _, _, _, led_buffer => led_buffer
  | n + 1, i, led, dec, led_buffer =>
    let bit_mask_led := 0x01
    let led_buffer1 :=
      if led &&& bit_mask_led = bit_mask_led then
        let my_dp := dec &&& bit_mask_led
        led_buffer.set (i + 2) (display_hex (my_hex arg i) my_dp)
      else led_buffer
    led_loop arg n (i + 1) (led >>> 1) (dec >>> 1) led_buffer1

/-- The six bytes `led_buffer` that `tux_set_led` builds for `arg`
(lines 179-203).  `junk i` is the byte found in the uninitialised
`led_buffer[i]` on entry. -/
def led_packet (k : Mtcp) (arg : Nat) (junk : Nat → Nat) : List Nat :=
  let led_buffer := (List.range 6).map junk
  let led_buffer := led_buffer.set 0 k.MTCP_LED_SET
  let led := (arg >>> 16) &&& 0x0F
  let led_buffer := led_buffer.set 1 0xF
  let dec := (arg >>> 24) &&& 0x0F
  led_loop arg 4 0 led dec led_buffer

/-- `tux_set_led` (lines 165-207). -/
def tux_set_led (k : Mtcp) (s : Session) (arg : Nat) (junk : Nat → Nat) :
    Session × Int :=
  if s.ack ≠ 0 then
    (s, 0)
  else
    let s1 := { s with ack := 1 }
    let s2 := { s1 with led_backup := arg }
    tuxctl_ldisc_put s2 (led_packet k arg junk) 6

/-- `tux_buttons` (lines 287-293).  The second component is what
`copy_to_user` stores through the user pointer `arg`: the first four bytes of
`buttoons`, or nothing when the pointer is null. -/
def tux_buttons (s : Session) (arg : Nat) : Int × Option Nat :=
  if arg = 0 then (-EINVAL, none)
  else (0, some (s.buttoons % 2 ^ 32))

/-- `tuxctl_handle_packet` (lines 49-89) on the packet `a b c`.  `junk` is the
uninitialised `led_buffer` of the nested `tux_set_led` call. -/
def tuxctl_handle_packet (k : Mtcp) (s : Session) (a b c : Nat)
    (junk : Nat → Nat) : Session :=
  if a = k.MTCP_ERROR then s
  else if a = k.MTCP_ACK then { s with ack := 0 }
  else if a = k.MTCP_RESET then
    let s1 := (tux_init k s).1
    (tux_set_led k s1 s1.led_backup junk).1
  else if a = k.MTCP_BIOC_EVENT then
    { s with buttoons :=
        (0x0F &&& b) ||| ((0x01 &&& c) <<< 4) ||| ((0x04 &&& c) <<< 3) |||
          ((0x02 &&& c) <<< 5) ||| ((0x08 &&& c) <<< 4) }
  else s

/-- Request codes of `tuxctl-ioctl.h` that label the cases of the `switch` in
`tuxctl_ioctl`; as case labels they are pairwise distinct. -/
structure Ioctl where
  TUX_INIT : Nat
  TUX_BUTTONS : Nat
  TUX_SET_LED : Nat
  TUX_LED_ACK : Nat
  TUX_LED_REQUEST : Nat
  TUX_READ_LED : Nat
  case_labels_distinct :
    [TUX_INIT, TUX_BUTTONS, TUX_SET_LED, TUX_LED_ACK, TUX_LED_REQUEST, TUX_READ_LED].Nodup

/-- Sample request codes, used for concrete evaluations. -/
def ioctl_h : Ioctl where
  TUX_INIT := 0x13
  TUX_BUTTONS := 0x12
  TUX_SET_LED := 0x10
  TUX_LED_ACK := 0x15
  TUX_LED_REQUEST := 0x14
  TUX_READ_LED := 0x11
  case_labels_distinct := by decide

/-- `tuxctl_ioctl` (lines 113-139): the session afterwards, the value
returned, and what was stored through the user pointer, if anything. -/
def tuxctl_ioctl (k : Mtcp) (io : Ioctl) (s : Session) (cmd arg : Nat)
    (junk : Nat → Nat) : Session × Int × Option Nat :=
  if cmd = io.TUX_INIT then ((tux_init k s).1, (tux_init k s).2, none)
  else if cmd = io.TUX_BUTTONS then (s, (tux_buttons s arg).1, (tux_buttons s arg).2)
  else if cmd = io.TUX_SET_LED then
    ((tux_set_led k s arg junk).1, (tux_set_led k s arg junk).2, none)
  else if cmd = io.TUX_LED_ACK then (s, 0, none)
  else if cmd = io.TUX_LED_REQUEST then (s, 0, none)
  else if cmd = io.TUX_READ_LED then (s, 0, none)
  else (s, -EINVAL, none)

/-- The 16-entry segment table of the LED display as the comments of
`display_hex` name it (`//0` .. `//F`, lines 221-266). -/
def segment_table : List Nat :=
  [0xE7, 0x06, 0xCB, 0x8F, 0x2E, 0xAD, 0xED, 0x86, 0xEF, 0xAF, 0xEE, 0x6D, 0xE1, 0x4F, 0xE9, 0xE8]

/-- One operation on the driver: a user request or an inbound packet. -/
inductive Op where
  | init
  | set_leds (arg : Nat) (junk : Nat → Nat)
  | packet_in (a b c : Nat) (junk : Nat → Nat)

/-- Effect of one operation on the session. -/
def step (k : Mtcp) (s : Session) : Op → Session
  | Op.init => (tux_init k s).1
  | Op.set_leds arg junk => (tux_set_led k s arg junk).1
  | Op.packet_in a b c junk => tuxctl_handle_packet k s a b c junk

/-- Effect of a sequence of operations, first to last. -/
def run (k : Mtcp) (s : Session) (ops : List Op) : Session :=
  ops.foldl (step k) s

end Tux

namespace Photo

/-! ## PaletteCore and frame compositor: `src/photo.c` -/

/-- Constants of `modex.h`, `photo.h` and `photo_headers.h` used by
`photo.c`. -/
structure Consts where
  SCROLL_X_DIM : Nat
  SCROLL_Y_DIM : Nat
  OBJ_CLR_TRANSP : Nat
  MAX_PHOTO_WIDTH : Nat
  MAX_PHOTO_HEIGHT : Nat

/-- Sample values of the constants, used for concrete evaluations. -/
def consts_h : Consts where
  SCROLL_X_DIM := 320
  SCROLL_Y_DIM := 182
  OBJ_CLR_TRANSP := 0x40
  MAX_PHOTO_WIDTH := 1024
  MAX_PHOTO_HEIGHT := 1024

/-- The header `photo_header_t`: two `uint16_t` fields. -/
structure photo_header_t where
  width : Nat
  height : Nat
deriving DecidableEq

/-- The struct `photo_t` (lines 58-62). -/
structure photo_t where
  hdr : photo_header_t
  palette : List (Nat × Nat × Nat)
  img : List Nat
deriving DecidableEq

/-- The struct `image_t` (lines 73-76). -/
structure image_t where
  hdr : photo_header_t
  img : List Nat
deriving DecidableEq

/-- An object of the room as `photo.c` sees it through `obj_get_x`,
`obj_get_y` and `obj_image`. -/
structure object_t where
  x : Int
  y : Int
  image : image_t
deriving DecidableEq

/-- A room as `photo.c` sees it: `room_photo` and the objects in the order of
`room_contents_iterate` / `obj_next`. -/
structure room_t where
  photo : photo_t
  contents : List object_t
deriving DecidableEq

/-- The read `p[i]` of a pixel buffer `p` with a C `int` index.  Inside the
buffer it is the stored byte; `outside i` is the byte that memory holds at
offset `i` from the start of the buffer when `i` is not an index of it. -/
def read_mem (p : List Nat) (outside : Int → Nat) (i : Int) : Nat :=
  if 0 ≤ i ∧ i < p.length then p.getD i.toNat 0 else outside i

/-- The copy loop of `fill_horiz_buffer` (lines 156-163).  The first argument
bounds the number of iterations; `idx` grows by one each time, so
`SCROLL_X_DIM - idx` iterations always suffice. -/
def horiz_copy (k : Consts) (outside : Int → Nat) (img : image_t) (yoff : Int) :
    Nat → Int → Int → List Nat → List Nat
  | 0, _, _, buf => buf
  | n + 1, idx, imgx, buf =>
    if (k.SCROLL_X_DIM : Int) > idx ∧ (img.hdr.width : Int) > imgx then
      let pixel := read_mem img.img outside (yoff + imgx)
      let buf1 := if k.OBJ_CLR_TRANSP ≠ pixel then buf.set idx.toNat pixel else buf
      horiz_copy k outside img yoff n (idx + 1) (imgx + 1) buf1
    else buf

/-- One turn of the object loop of `fill_horiz_buffer` (lines 130-163). -/
def horiz_object (k : Consts) (outside : Int → Nat) (x y : Int) (buf : List Nat)
    (obj : object_t) : List Nat :=
  let obj_x := obj.x
  let obj_y := obj.y
  let img := obj.image
  if y < obj_y ∨ y ≥ obj_y + img.hdr.height ∨
      x + k.SCROLL_X_DIM ≤ obj_x ∨ x ≥ obj_x + img.hdr.width then
    buf
  else
    let yoff := (y - obj_y) * img.hdr.width
    let idx : Int := if x ≤ obj_x then obj_x - x else 0
    let imgx : Int := if x ≤ obj_x then 0 else x - obj_x
    horiz_copy k outside img yoff (k.SCROLL_X_DIM - idx).toNat idx imgx buf

/-- `fill_horiz_buffer` (lines 105-165) for the current room `cur_room`;
the result is the filled `buf`. -/
def fill_horiz_buffer (k : Consts) (cur_room : room_t) (outside : Int → Nat)
    (x y : Int) : List Nat :=
  let view := cur_room.photo
  let buf := (List.range k.SCROLL_X_DIM).map fun (idx : Nat) =>
    if 0 ≤ x + idx ∧ (view.hdr.width : Int) > x + idx then
      read_mem view.img outside (view.hdr.width * y + x + idx)
    else 0
  cur_room.contents.foldl (horiz_object k outside x y) buf

/-- The copy loop of `fill_vert_buffer` (lines 234-241), bounded like
`horiz_copy`. -/
def vert_copy (k : Consts) (outside : Int → Nat) (img : image_t) (xoff : Int) :
    Nat → Int → Int → List Nat → List Nat
  | 0, _, _, buf => buf
  | n + 1, idx, imgy, buf =>
    if (k.SCROLL_Y_DIM : Int) > idx ∧ (img.hdr.height : Int) > imgy then
      let pixel := read_mem img.img outside (xoff + img.hdr.width * imgy)
      let buf1 := if k.OBJ_CLR_TRANSP ≠ pixel then buf.set idx.toNat pixel else buf
      vert_copy k outside img xoff n (idx + 1) (imgy + 1) buf1
    else buf

/-- One turn of the object loop of `fill_vert_buffer` (lines 208-241). -/
def vert_object (k : Consts) (outside : Int → Nat) (x y : Int) (buf : List Nat)
    (obj : object_t) : List Nat :=
  let obj_x := obj.x
  let obj_y := obj.y
  let img := obj.image
  if x < obj_x ∨ x ≥ obj_x + img.hdr.width ∨
      y + k.SCROLL_Y_DIM ≤ obj_y ∨ y ≥ obj_y + img.hdr.height then
    buf
  else
    let xoff := x - obj_x
    let idx : Int := if y ≤ obj_y then obj_y - y else 0
    let imgy : Int := if y ≤ obj_y then 0 else y - obj_y
    vert_copy k outside img xoff (k.SCROLL_Y_DIM - idx).toNat idx imgy buf

/-- `fill_vert_buffer` (lines 183-243) for the current room `cur_room`;
the result is the filled `buf`. -/
def fill_vert_buffer (k : Consts) (cur_room : room_t) (outside : Int → Nat)
    (x y : Int) : List Nat :=
  let view := cur_room.photo
  let buf := (List.range k.SCROLL_Y_DIM).map fun (idx : Nat) =>
    if 0 ≤ y + idx ∧ (view.hdr.height : Int) > y + idx then
      read_mem view.img outside (view.hdr.width * (y + idx) + x)
    else 0
  cur_room.contents.foldl (vert_object k outside x y) buf


/-- What the spec lets an object contribute to position `idx` of the
horizontal scanline at `(x, y)`: the image byte at
`(y - obj_y) * ow + (x + idx - obj_x)` when the object covers the position and
the byte is not `OBJ_CLR_TRANSP`; nothing otherwise. -/
def horiz_pixel (k : Consts) (obj : object_t) (x y : Int) (idx : Nat) : Option Nat :=
  if obj.x ≤ x + idx ∧ x + idx < obj.x + obj.image.hdr.width ∧
      obj.y ≤ y ∧ y < obj.y + obj.image.hdr.height then
    match obj.image.img[((y - obj.y) * obj.image.hdr.width + (x + idx - obj.x)).toNat]? with
    | some b => if b ≠ k.OBJ_CLR_TRANSP then some b else none
    | none => none
  else none

/-- What the spec lets an object contribute to position `idx` of the vertical
scanline at `(x, y)`: the image byte at `(y + idx - obj_y) * ow + (x - obj_x)`
when the object covers the position and the byte is not `OBJ_CLR_TRANSP`. -/
def vert_pixel (k : Consts) (obj : object_t) (x y : Int) (idx : Nat) : Option Nat :=
  if obj.x ≤ x ∧ x < obj.x + obj.image.hdr.width ∧
      obj.y ≤ y + idx ∧ y + idx < obj.y + obj.image.hdr.height then
    match obj.image.img[((y + idx - obj.y) * obj.image.hdr.width + (x - obj.x)).toNat]? with
    | some b => if b ≠ k.OBJ_CLR_TRANSP then some b else none
    | none => none
  else none

/-- The accesses of the copy loop of `fill_horiz_buffer` (lines 156-163), one
pair per turn: the index `idx` into `buf` and the index `yoff + imgx` into the
object image.  Same recursion as `horiz_copy`. -/
def horiz_copy_accesses (k : Consts) (img : image_t) (yoff : Int) :
    Nat → Int → Int → List (Int × Int)
  | 0, _, _ => []
  | n + 1, idx, imgx =>
    if (k.SCROLL_X_DIM : Int) > idx ∧ (img.hdr.width : Int) > imgx then
      (idx, yoff + imgx) :: horiz_copy_accesses k img yoff n (idx + 1) (imgx + 1)
    else []

/-- The accesses of one turn of the object loop of `fill_horiz_buffer`
(lines 130-163); same case split as `horiz_object`. -/
def horiz_object_accesses (k : Consts) (x y : Int) (obj : object_t) : List (Int × Int) :=
  let obj_x := obj.x
  let obj_y := obj.y
  let img := obj.image
  if y < obj_y ∨ y ≥ obj_y + img.hdr.height ∨
      x + k.SCROLL_X_DIM ≤ obj_x ∨ x ≥ obj_x + img.hdr.width then
    []
  else
    let yoff := (y - obj_y) * img.hdr.width
    let idx : Int := if x ≤ obj_x then obj_x - x else 0
    let imgx : Int := if x ≤ obj_x then 0 else x - obj_x
    horiz_copy_accesses k img yoff (k.SCROLL_X_DIM - idx).toNat idx imgx

/-- A 1 x 1 object image with the single byte `b`, placed at `(0, 0)`. -/
def dot_object (b : Nat) : object_t :=
  { x := 0, y := 0, image := { hdr := { width := 1, height := 1 }, img := [b] } }

/-- A 1 x 1 photo with the single byte 5. -/
def dot_photo : photo_t :=
  { hdr := { width := 1, height := 1 }, palette := [], img := [5] }

/-- The struct `octree_arr_t` (lines 400-406). -/
structure octree_arr_t where
  red : Int
  green : Int
  blue : Int
  counter : Int
  index : Int
deriving DecidableEq

/-- A bin as the two initialisation loops leave it (lines 466-481). -/
def octree_zero : octree_arr_t :=
  { red := 0, green := 0, blue := 0, counter := 0, index := 0 }

/-- The comparison function `compare` (lines 643-654). -/
def compare (a b : octree_arr_t) : Int :=
  if a.counter > b.counter then -1
  else if a.counter = b.counter then 0
  else 1

/-- Contract of the C library's `qsort` called with `compare`: the result is
a rearrangement of the array in which no element is followed, anywhere
further on, by one that `compare` puts strictly before it.  The order among
elements that compare equal is left open. -/
def IsQsort (qsort : List octree_arr_t → List octree_arr_t) : Prop :=
  ∀ l, (qsort l).Perm l ∧ (qsort l).Pairwise (fun a b => compare a b ≤ 0)

/-- One `qsort` that meets the contract: insertion sort with `compare`. -/
def qsort_insertion (l : List octree_arr_t) : List octree_arr_t :=
  l.insertionSort (fun a b => compare a b ≤ 0)

/-- `fread` of one `uint16_t` from the stream of 16-bit words that remain in
the file: the value read and the rest of the stream, or nothing at the end of
the file. -/
def fread16 : List Nat → Option (Nat × List Nat)
  | [] => none
  | w :: rest => some (w % 65536, rest)

/-- The column loop shared by both passes (`for (x = 0; width > x; x++)`,
lines 493-552 and 567-604): `n` columns remain, `x` is the column index; a
failed `fread` ends the whole function. -/
def loop_cols {σ : Type} (body : Nat → Nat → σ → σ) :
    Nat → Nat → List Nat → σ → Option (List Nat × σ)
  | 0, _, inp, s => some (inp, s)
  | n + 1, x, inp, s =>
    match fread16 inp with
    | none => none
    | some (pixel, rest) => loop_cols body n (x + 1) rest (body x pixel s)

/-- The row loop shared by both passes (`for (y = height; y-- > 0; )`, lines
490-553 and 564-605): the argument counts down, the body runs with `y` one
less than it. -/
def loop_rows {σ : Type} (width : Nat) (body : Nat → Nat → Nat → σ → σ) :
    Nat → List Nat → σ → Option (List Nat × σ)
  | 0, inp, s => some (inp, s)
  | y + 1, inp, s =>
    match loop_cols (body y) width 0 inp s with
    | none => none
    | some (inp1, s1) => loop_rows width body y inp1 s1

/-- Red channel as pass 1 extracts it (line 528). -/
def red1 (pixel : Nat) : Nat := (pixel >>> 11) &&& 0x1F

/-- Red channel as pass 2 extracts it (line 579). -/
def red2 (pixel : Nat) : Nat := (pixel >>> 11) &&& 0x3F

/-- Green channel (lines 529, 580). -/
def green_of (pixel : Nat) : Nat := (pixel >>> 5) &&& 0x3F

/-- Blue channel (lines 530, 581). -/
def blue_of (pixel : Nat) : Nat := pixel &&& 0x1F

/-- The coarse index `two_index` (lines 534, 585). -/
def two_index_of (red green blue : Nat) : Nat :=
  ((red >>> 3) <<< 4) ||| ((green >>> 4) <<< 2) ||| (blue >>> 3)

/-- The fine index `four_index` (lines 535, 586). -/
def four_index_of (red green blue : Nat) : Nat :=
  ((red >>> 1) <<< 8) ||| ((green >>> 2) <<< 4) ||| (blue >>> 1)

/-- The five updates of one bin in pass 1 (lines 539-543, 547-551). -/
def accumulate (bins : List octree_arr_t) (i red green blue : Nat) :
    List octree_arr_t :=
  let b := bins.getD i octree_zero
  bins.set i
    { red := b.red + red, green := b.green + green, blue := b.blue + blue,
      index := i, counter := b.counter + 1 }

/-- Body of pass 1 for one pixel (lines 523-551); the state is
`(level_two, level_four)`. -/
def pass1_body (_y _x pixel : Nat) (s : List octree_arr_t × List octree_arr_t) :
    List octree_arr_t × List octree_arr_t :=
  let red := red1 pixel
  let green := green_of pixel
  let blue := blue_of pixel
  let two_index := two_index_of red green blue
  let four_index := four_index_of red green blue
  (accumulate s.1 two_index red green blue, accumulate s.2 four_index red green blue)

/-- The search loop `for (i = 0; i < 128; i++)` of pass 2 (lines 590-600):
`n` turns remain; the result is the `i` at which the loop breaks, if it
does. -/
def search (level_four : List octree_arr_t) (four_index : Nat) : Nat → Nat → Option Nat
  | 0, _ => none
  | n + 1, i =>
    if (level_four.getD i octree_zero).index = four_index then some i
    else search level_four four_index n (i + 1)

/-- The subtraction from a coarse bin (lines 592-595). -/
def subtract (bins : List octree_arr_t) (i red green blue : Nat) : List octree_arr_t :=
  let b := bins.getD i octree_zero
  bins.set i
    { b with red := b.red - red, green := b.green - green, blue := b.blue - blue,
             counter := b.counter - 1 }

/-- Body of pass 2 for one pixel (lines 568-603); `level_four` is the sorted
array, the state is `(level_two, p->img)`.  Stores to `p->img` keep the low
eight bits. -/
def pass2_body (width : Nat) (level_four : List octree_arr_t) (y x pixel : Nat)
    (s : List octree_arr_t × List Nat) : List octree_arr_t × List Nat :=
  let red := red2 pixel
  let green := green_of pixel
  let blue := blue_of pixel
  let two_index := two_index_of red green blue
  let four_index := four_index_of red green blue
  let img := s.2.set (width * y + x) ((two_index + 192) % 256)
  match search level_four four_index 128 0 with
  | some i =>
    (subtract s.1 two_index red green blue, img.set (width * y + x) ((i + 64) % 256))
  | none =>
    (s.1, img.set (width * y + x) ((two_index + 192) % 256))

/-- Conversion of an `int` to `uint8_t`. -/
def to_uint8 (v : Int) : Nat := (v % 256).toNat

/-- One turn of a palette loop (lines 608-612, 617-621): bin `b` fills
palette slot `slot` when its counter is not zero. -/
def palette_entry (palette : List (Nat × Nat × Nat)) (slot : Nat) (b : octree_arr_t) :
    List (Nat × Nat × Nat) :=
  if b.counter ≠ 0 then
    palette.set slot
      (to_uint8 (Int.tdiv b.red b.counter * 2), to_uint8 (Int.tdiv b.green b.counter),
        to_uint8 (Int.tdiv b.blue b.counter * 2))
  else palette

/-- The two palette loops (lines 607-622). -/
def fill_palette (level_two level_four : List octree_arr_t)
    (palette : List (Nat × Nat × Nat)) : List (Nat × Nat × Nat) :=
  let palette1 := (List.range 128).foldl
    (fun pal i => palette_entry pal i (level_four.getD i octree_zero)) palette
  (List.range 64).foldl
    (fun pal i => palette_entry pal (i + 128) (level_two.getD i octree_zero)) palette1

/-- What one call of `read_photo` finds outside the program. -/
structure Sys where
  /-- Content of the file as 16-bit little-endian words, header first;
  `none` when `fopen` fails. -/
  file : Option (List Nat)
  /-- Whether `malloc` of the photo structure succeeds. -/
  malloc_photo : Bool
  /-- Whether `malloc` of the pixel buffer succeeds. -/
  malloc_img : Bool
  /-- Content of the palette in the fresh structure. -/
  palette_junk : Nat → Nat × Nat × Nat
  /-- Content of the fresh pixel buffer. -/
  img_junk : Nat → Nat

/-- Things `read_photo` acquires. -/
inductive Res where
  | file | photo | img | level_four | level_two
deriving DecidableEq

/-- Result of `read_photo`: the returned photo (`none` for `NULL`) and what is
still allocated or open when the function returns. -/
structure Outcome where
  ret : Option photo_t
  live : List Res

/-- The value `fread` delivers for the `n`-th pixel of the stream `body`. -/
def pixel_at (body : List Nat) (n : Nat) : Nat := body.getD n 0 % 65536

/-- The fine index that pass 1 computes for a pixel (lines 528-535). -/
def fine_index (pixel : Nat) : Nat :=
  four_index_of (red1 pixel) (green_of pixel) (blue_of pixel)

/-- The coarse index that pass 1 computes for a pixel (lines 528-534). -/
def coarse_index (pixel : Nat) : Nat :=
  two_index_of (red1 pixel) (green_of pixel) (blue_of pixel)

/-- The byte that the body of pass 2 leaves in `p->img` for a pixel: its last
store to the pixel's position (lines 588-603). -/
def emit (level_four : List octree_arr_t) (pixel : Nat) : Nat :=
  let red := red2 pixel
  let green := green_of pixel
  let blue := blue_of pixel
  match search level_four (four_index_of red green blue) 128 0 with
  | some i => (i + 64) % 256
  | none => (two_index_of red green blue + 192) % 256

/-- Bin `g` of the fine array has accumulated at least one pixel: it carries
its own position as `index` and a positive `counter`. -/
def Populated (level_four : List octree_arr_t) (g : Nat) : Prop :=
  (level_four.getD g octree_zero).index = g ∧ 0 < (level_four.getD g octree_zero).counter

/-- Shape of the fine array during and after pass 1: 4096 bins, each either
untouched since initialisation or populated. -/
def FineBinsOk (level_four : List octree_arr_t) : Prop :=
  level_four.length = 4096 ∧
    ∀ g, level_four.getD g octree_zero = octree_zero ∨ Populated level_four g

/-- Sum of `val` over those of the first `m` pixels of the stream `body` that
`sel` selects (with `val` constant 1: their number). -/
def tally (body : List Nat) (sel : Nat → Bool) (val : Nat → Int) : Nat → Int
  | 0 => 0
  | m + 1 =>
    tally body sel val m + (if sel (pixel_at body m) then val (pixel_at body m) else 0)

/-- The bins `bins`, keyed by `key`, hold the sums of red, green and blue and
the number of the first `m` pixels of `body`, bin by bin. -/
def BinsTally (bins : List octree_arr_t) (body : List Nat) (key : Nat → Nat) (m : Nat) :
    Prop :=
  ∀ g,
    (bins.getD g octree_zero).red = tally body (fun p => key p == g) (fun p => red1 p) m ∧
    (bins.getD g octree_zero).green =
      tally body (fun p => key p == g) (fun p => green_of p) m ∧
    (bins.getD g octree_zero).blue = tally body (fun p => key p == g) (fun p => blue_of p) m ∧
    (bins.getD g octree_zero).counter = tally body (fun p => key p == g) (fun _ => 1) m

/-- Whether pass 2 maps a pixel to a fine slot: the search loop over the
first 128 entries of the sorted array breaks. -/
def fine_mapped (level_four : List octree_arr_t) (pixel : Nat) : Bool :=
  (search level_four (fine_index pixel) 128 0).isSome

/-- The coarse bins `bins` hold, bin by bin, the sums and the number of all
`n` pixels of `body` minus those of the fine-mapped ones among the first `m`. -/
def Residual (bins : List octree_arr_t) (body : List Nat) (level_four : List octree_arr_t)
    (n m : Nat) : Prop :=
  ∀ c,
    (bins.getD c octree_zero).red =
      tally body (fun p => coarse_index p == c) (fun p => red1 p) n -
        tally body (fun p => coarse_index p == c && fine_mapped level_four p)
          (fun p => red1 p) m ∧
    (bins.getD c octree_zero).green =
      tally body (fun p => coarse_index p == c) (fun p => green_of p) n -
        tally body (fun p => coarse_index p == c && fine_mapped level_four p)
          (fun p => green_of p) m ∧
    (bins.getD c octree_zero).blue =
      tally body (fun p => coarse_index p == c) (fun p => blue_of p) n -
        tally body (fun p => coarse_index p == c && fine_mapped level_four p)
          (fun p => blue_of p) m ∧
    (bins.getD c octree_zero).counter =
      tally body (fun p => coarse_index p == c) (fun _ => 1) n -
        tally body (fun p => coarse_index p == c && fine_mapped level_four p)
          (fun _ => 1) m

/-- The palette triple that a palette loop stores for a bin with a non-zero
counter (lines 609-611, 618-620). -/
def palette_triple (b : octree_arr_t) : Nat × Nat × Nat :=
  (to_uint8 (Int.tdiv b.red b.counter * 2), to_uint8 (Int.tdiv b.green b.counter),
    to_uint8 (Int.tdiv b.blue b.counter * 2))

/-- The scan order of both passes, spelled out: starting from `s`, the
pixels of the stream `body` are taken in file order, and the pixel read
`n`-th (file row `n / W`, column `n % W`) is handed to the body of the loop
with `y = H - 1 - n / W` and `x = n % W`. -/
def scan_fold {σ : Type} (W H : Nat) (body : List Nat) (f : Nat → Nat → Nat → σ → σ)
    (s : σ) : σ :=
  (List.range (H * W)).foldl
    (fun t n => f (H - 1 - n / W) (n % W) (pixel_at body n) t) s

/-- The state of a pass after its first `m` pixels, in the scan order of
`scan_fold` (which is the case `m = H * W`). -/
def scan_upto {σ : Type} (W H : Nat) (body : List Nat) (f : Nat → Nat → Nat → σ → σ)
    (s : σ) (m : Nat) : σ :=
  (List.range m).foldl
    (fun t n => f (H - 1 - n / W) (n % W) (pixel_at body n) t) s

/-- Pass 1 (lines 460-553) over the pixel stream `body`: the bins
`(level_two, level_four)` after the last pixel, or `none` on a short read. -/
def pass1 (width height : Nat) (body : List Nat) :
    Option (List Nat × List octree_arr_t × List octree_arr_t) :=
  loop_rows width pass1_body height body
    (List.replicate 64 octree_zero, List.replicate 4096 octree_zero)

/-- `read_photo` (lines 423-632).  The two scratch `malloc` calls are not
checked by the code and are taken to succeed. -/
def read_photo (k : Consts) (qsort : List octree_arr_t → List octree_arr_t)
    (sys : Sys) : Outcome :=
  match sys.file with
  | none => { ret := none, live := [] }
  | some words =>
    if sys.malloc_photo = false then { ret := none, live := [] }
    else
      match words with
      | w :: h :: body =>
        let width := w % 65536
        let height := h % 65536
        if k.MAX_PHOTO_WIDTH < width ∨ k.MAX_PHOTO_HEIGHT < height then
          { ret := none, live := [] }
        else if sys.malloc_img = false then { ret := none, live := [] }
        else
          match pass1 width height body with
          | none => { ret := none, live := [Res.level_four, Res.level_two] }
          | some (_, level_two, level_four) =>
            let level_four := qsort level_four
            let img := (List.range (width * height)).map sys.img_junk
            match loop_rows width (pass2_body width level_four) height body
                (level_two, img) with
            | none => { ret := none, live := [Res.level_four, Res.level_two] }
            | some (_, level_two, img) =>
              let palette := fill_palette level_two level_four
                ((List.range 192).map sys.palette_junk)
              { ret := some { hdr := { width := width, height := height },
                              palette := palette, img := img },
                live := [Res.photo, Res.img] }
      | _ => { ret := none, live := [] }

/-- A uniform photo file: header 2 x 1, then twice the pixel `0x1234`; both
allocations succeed. -/
def sys_uniform : Sys :=
  { file := some [2, 1, 0x1234, 0x1234], malloc_photo := true, malloc_img := true,
    palette_junk := fun _ => (0, 0, 0), img_junk := fun _ => 0 }

/-- A truncated photo file: header 2 x 1 but a single pixel; both checked
allocations succeed. -/
def sys_short : Sys :=
  { file := some [2, 1, 0xFFFF], malloc_photo := true, malloc_img := true,
    palette_junk := fun _ => (0, 0, 0), img_junk := fun _ => 0 }

/-- A photo file of two rows: header 2 x 2, then the file rows `0x0000`,
`0xFFFF` and `0xFFFF`, `0xFFFF`; both allocations succeed. -/
def sys_two_rows : Sys :=
  { file := some [2, 2, 0x0000, 0xFFFF, 0xFFFF, 0xFFFF], malloc_photo := true,
    malloc_img := true, palette_junk := fun _ => (0, 0, 0), img_junk := fun _ => 0 }

/-- A two-pixel photo file: header 2 x 1, then the pixels `0xFFFF` and
`0x0000`; both allocations succeed. -/
def sys_two_pixels : Sys :=
  { file := some [2, 1, 0xFFFF, 0x0000], malloc_photo := true, malloc_img := true,
    palette_junk := fun _ => (0, 0, 0), img_junk := fun _ => 0 }

end Photo

/-! ## TuxCore: theorems -/

namespace Tux

theorem snapshot_lt (b c : Nat) :
    (0x0F &&& b) ||| ((0x01 &&& c) <<< 4) ||| ((0x04 &&& c) <<< 3) |||
      ((0x02 &&& c) <<< 5) ||| ((0x08 &&& c) <<< 4) < 2 ^ 8 := by
  have h1 : 0x0F &&& b ≤ 0x0F := Nat.and_le_left
  have h2 : 0x01 &&& c ≤ 0x01 := Nat.and_le_left
  have h3 : 0x04 &&& c ≤ 0x04 := Nat.and_le_left
  have h4 : 0x02 &&& c ≤ 0x02 := Nat.and_le_left
  have h5 : 0x08 &&& c ≤ 0x08 := Nat.and_le_left
  refine Nat.or_lt_two_pow (Nat.or_lt_two_pow (Nat.or_lt_two_pow (Nat.or_lt_two_pow ?_ ?_) ?_) ?_) ?_ <;>
    (try simp only [Nat.shiftLeft_eq]) <;> omega

/-- C1: in any session state, after `tuxctl_handle_packet` has handled a
`MTCP_BIOC_EVENT` packet with data bytes `b` and `c`, `tux_buttons` with a
non-null user pointer returns 0 and delivers exactly
`(b & 0x0F) | ((c & 0x01) << 4) | ((c & 0x04) << 3) | ((c & 0x02) << 5) |
((c & 0x08) << 4)`. -/
theorem read_buttons_after_bioc_event (k : Mtcp) (s : Session) (b c : Nat)
    (junk : Nat → Nat) (arg : Nat) (harg : arg ≠ 0) :
    tux_buttons (tuxctl_handle_packet k s k.MTCP_BIOC_EVENT b c junk) arg =
      ((0 : Int), some ((b &&& 0x0F) ||| ((c &&& 0x01) <<< 4) ||| ((c &&& 0x04) <<< 3) |||
        ((c &&& 0x02) <<< 5) ||| ((c &&& 0x08) <<< 4))) := by
  have hd := k.case_labels_distinct
  simp only [List.nodup_cons, List.mem_cons, List.mem_singleton, not_or, List.not_mem_nil,
    not_false_eq_true, and_true, List.nodup_nil] at hd
  obtain ⟨⟨h1, h2, h3⟩, ⟨h4, h5⟩, h6⟩ := hd
  have e1 : k.MTCP_BIOC_EVENT ≠ k.MTCP_ERROR := fun h => h3 h.symm
  have e2 : k.MTCP_BIOC_EVENT ≠ k.MTCP_ACK := fun h => h5 h.symm
  have e3 : k.MTCP_BIOC_EVENT ≠ k.MTCP_RESET := fun h => h6 h.symm
  have hlt := snapshot_lt b c
  have hlt' : (0x0F &&& b) ||| ((0x01 &&& c) <<< 4) ||| ((0x04 &&& c) <<< 3) |||
      ((0x02 &&& c) <<< 5) ||| ((0x08 &&& c) <<< 4) < 2 ^ 32 :=
    lt_trans hlt (by norm_num)
  simp only [tuxctl_handle_packet, tux_buttons, if_neg e1, if_neg e2, if_neg e3, if_true,
    if_neg harg, Nat.mod_eq_of_lt hlt']
  simp only [Nat.and_comm]

/-- C1 at `b = 0x0F`, `c = 0x0F`: the word delivered is `0xFF`. -/
theorem read_buttons_after_bioc_event_witness :
    (1 : Nat) ≠ 0 ∧
    tux_buttons (tuxctl_handle_packet mtcp_h Session.initial mtcp_h.MTCP_BIOC_EVENT
        0x0F 0x0F (fun _ => 0)) 1 = ((0 : Int), some 0xFF) :=
  ⟨by decide, read_buttons_after_bioc_event mtcp_h Session.initial 0x0F 0x0F (fun _ => 0) 1
    (by decide)⟩


theorem led_loop_length (arg : Nat) :
    ∀ (n i led dec : Nat) (buf : List Nat), (led_loop arg n i led dec buf).length = buf.length := by
  intro n
  induction n with
  | zero => intro i led dec buf; rfl
  | succ n ih =>
    intro i led dec buf
    simp only [led_loop]
    rw [ih]
    split <;> simp

theorem led_packet_length (k : Mtcp) (arg : Nat) (junk : Nat → Nat) :
    (led_packet k arg junk).length = 6 := by
  simp [led_packet, led_loop_length]

theorem tux_set_led_led_backup (k : Mtcp) (s : Session) (arg : Nat) (junk : Nat → Nat) :
    (tux_set_led k s arg junk).1.led_backup = if s.ack = 0 then arg else s.led_backup := by
  by_cases h : s.ack = 0 <;> simp [tux_set_led, tuxctl_ldisc_put, h]

theorem tux_init_led_backup (k : Mtcp) (s : Session) :
    (tux_init k s).1.led_backup = s.led_backup := by
  by_cases h : s.ack = 0 <;> simp [tux_init, tuxctl_ldisc_put, h]

theorem handle_packet_led_backup (k : Mtcp) (s : Session) (a b c : Nat) (junk : Nat → Nat) :
    (tuxctl_handle_packet k s a b c junk).led_backup = s.led_backup := by
  unfold tuxctl_handle_packet
  split_ifs
  · rfl
  · rfl
  · simp only [tux_set_led_led_backup, tux_init_led_backup, ite_self]
  · rfl
  · rfl

theorem run_append (k : Mtcp) (s : Session) (xs ys : List Op) :
    run k s (xs ++ ys) = run k (run k s xs) ys := by
  simp [run, List.foldl_append]

theorem run_cons (k : Mtcp) (s : Session) (op : Op) (ys : List Op) :
    run k s (op :: ys) = run k (step k s op) ys := rfl

/-- While every later `set_leds` call finds the busy flag set, the shadow
does not move. -/
theorem run_led_backup_of_busy (k : Mtcp) :
    ∀ (post : List Op) (s : Session),
      (∀ n W' j', post[n]? = some (Op.set_leds W' j') → (run k s (post.take n)).ack ≠ 0) →
      (run k s post).led_backup = s.led_backup := by
  intro post
  induction post with
  | nil => intro s _; rfl
  | cons op rest ih =>
    intro s h
    rw [run_cons]
    have hstep : (step k s op).led_backup = s.led_backup := by
      cases op with
      | init => exact tux_init_led_backup k s
      | set_leds W' j' =>
        have h0 := h 0 W' j' (by simp)
        simp only [List.take_zero, run, List.foldl_nil] at h0
        simp only [step, tux_set_led_led_backup, if_neg h0]
      | packet_in a b c j => exact handle_packet_led_backup k s a b c j
    rw [ih (step k s op), hstep]
    intro n W' j' hn
    have := h (n + 1) W' j' (by simpa using hn)
    simpa [run_cons] using this

theorem reset_idle_tx (k : Mtcp) (s : Session) (b c : Nat) (jr : Nat → Nat) (h : s.ack = 0) :
    (tuxctl_handle_packet k s k.MTCP_RESET b c jr).tx =
      s.tx ++ [k.MTCP_BIOC_ON, k.MTCP_LED_USR] ++ led_packet k s.led_backup jr := by
  have hd := k.case_labels_distinct
  simp only [List.nodup_cons, List.mem_cons, List.mem_singleton, not_or, List.not_mem_nil,
    not_false_eq_true, and_true, List.nodup_nil] at hd
  obtain ⟨⟨h1, h2, h3⟩, ⟨h4, h5⟩, h6⟩ := hd
  have e1 : k.MTCP_RESET ≠ k.MTCP_ERROR := fun h => h2 h.symm
  have e2 : k.MTCP_RESET ≠ k.MTCP_ACK := fun h => h4 h.symm
  have hl := led_packet_length k s.led_backup jr
  simp [tuxctl_handle_packet, e1, e2, tux_init, tux_set_led, tuxctl_ldisc_put, h,
    List.take_of_length_le (le_of_eq hl)]


/-- C2, evaluated at the failing input: `tux_set_led` on the idle initial
session with the word `0x0001000A` (digit 0 enabled, nibble 0 is `0xA`)
transmits the segment byte `0xAF` for digit 0, where the segment table has
`0xEE`.  `display_hex` answers `0xAF` for each of the nibbles `0xA` .. `0xF`,
with or without decimal point, because its case labels are `0x10` .. `0x15`. -/
theorem set_leds_hex_digit_A_sends_0xAF :
    (tux_set_led mtcp_h Session.initial 0x0001000A (fun _ => 0)).1.tx =
        [0xC6, 0x0F, 0xAF, 0, 0, 0] ∧
      [10, 11, 12, 13, 14, 15].map (fun n => display_hex n 0) =
        [0xAF, 0xAF, 0xAF, 0xAF, 0xAF, 0xAF] ∧
      [10, 11, 12, 13, 14, 15].map (fun n => display_hex n 1) =
        [0xAF, 0xAF, 0xAF, 0xAF, 0xAF, 0xAF] := by
  decide

/-- C5 fails as stated: after `init` and `set_leds(1)` the busy flag is set,
and a following `set_leds(2)` leaves the LED shadow at 1. -/
theorem set_leds_busy_drops_word :
    (tux_set_led mtcp_h
        (run mtcp_h Session.initial [Op.init, Op.set_leds 1 (fun _ => 0)]) 2
        (fun _ => 0)).1.led_backup = 1 ∧
      (tux_set_led mtcp_h
        (run mtcp_h Session.initial [Op.init, Op.set_leds 1 (fun _ => 0)]) 2
        (fun _ => 0)).1.led_backup ≠ 2 ∧
      (run mtcp_h Session.initial [Op.init, Op.set_leds 1 (fun _ => 0)]).ack = 1 := by
  decide

/-- C5, amended: when the busy flag is clear at the call, the LED shadow
equals `word` immediately after `tux_set_led` with `word`.  When the busy flag
is set, the call returns 0 at once: the session, the LED shadow and the bytes
transmitted included, is left as it was. -/
theorem set_leds_records_when_idle (k : Mtcp) (s : Session) (word : Nat)
    (junk : Nat → Nat) :
    (s.ack = 0 → (tux_set_led k s word junk).1.led_backup = word) ∧
    (s.ack ≠ 0 → tux_set_led k s word junk = (s, 0)) := by
  constructor
  · intro h
    rw [tux_set_led_led_backup, if_pos h]
  · intro h
    simp only [tux_set_led, h, ne_eq, not_false_eq_true, if_true]

/-- C5, amended, at the state before `init` with the word 5, and at a busy
session whose LED shadow is 1 with the word 2. -/
theorem set_leds_records_when_idle_witness :
    (Session.initial.ack = 0 ∧
      (tux_set_led mtcp_h Session.initial 5 (fun _ => 0)).1.led_backup = 5) ∧
    (({ ack := 1, buttoons := 0xFF, led_backup := 1, tx := [0xC3] } : Session).ack ≠ 0 ∧
      tux_set_led mtcp_h { ack := 1, buttoons := 0xFF, led_backup := 1, tx := [0xC3] } 2
          (fun _ => 0) =
        ({ ack := 1, buttoons := 0xFF, led_backup := 1, tx := [0xC3] }, 0)) :=
  ⟨⟨rfl, (set_leds_records_when_idle mtcp_h Session.initial 5 (fun _ => 0)).1 rfl⟩,
   ⟨by decide,
    (set_leds_records_when_idle mtcp_h
      { ack := 1, buttoons := 0xFF, led_backup := 1, tx := [0xC3] } 2 (fun _ => 0)).2
      (by decide)⟩⟩

/-- C6 fails as stated: after `init`, `set_leds(0xF0001)`, `set_leds(0xF0002)`
while busy and an ACK packet, the session is idle and a RESET packet
transmits `BIOC_ON`, `LED_USR` and the LED packet of `0xF0001` (segment byte
`0x06` for digit 0), not the LED packet of `0xF0002` (segment byte `0xCB`). -/
theorem reset_repaints_stale_word :
    (tuxctl_handle_packet mtcp_h
        (run mtcp_h Session.initial
          [Op.init, Op.set_leds 0xF0001 (fun _ => 0), Op.set_leds 0xF0002 (fun _ => 0),
            Op.packet_in mtcp_h.MTCP_ACK 0 0 (fun _ => 0)])
        mtcp_h.MTCP_RESET 0 0 (fun _ => 0)).tx =
      (run mtcp_h Session.initial
          [Op.init, Op.set_leds 0xF0001 (fun _ => 0), Op.set_leds 0xF0002 (fun _ => 0),
            Op.packet_in mtcp_h.MTCP_ACK 0 0 (fun _ => 0)]).tx ++
        [0xC3, 0xC8, 0xC6, 0x0F, 0x06, 0xE7, 0xE7, 0xE7] ∧
      led_packet mtcp_h 0xF0002 (fun _ => 0) = [0xC6, 0x0F, 0xCB, 0xE7, 0xE7, 0xE7] ∧
      (tuxctl_handle_packet mtcp_h
        (run mtcp_h Session.initial
          [Op.init, Op.set_leds 0xF0001 (fun _ => 0), Op.set_leds 0xF0002 (fun _ => 0),
            Op.packet_in mtcp_h.MTCP_ACK 0 0 (fun _ => 0)])
        mtcp_h.MTCP_RESET 0 0 (fun _ => 0)).tx ≠
      (run mtcp_h Session.initial
          [Op.init, Op.set_leds 0xF0001 (fun _ => 0), Op.set_leds 0xF0002 (fun _ => 0),
            Op.packet_in mtcp_h.MTCP_ACK 0 0 (fun _ => 0)]).tx ++
        [mtcp_h.MTCP_BIOC_ON, mtcp_h.MTCP_LED_USR] ++ led_packet mtcp_h 0xF0002 (fun _ => 0) ∧
      (run mtcp_h Session.initial
          [Op.init, Op.set_leds 0xF0001 (fun _ => 0), Op.set_leds 0xF0002 (fun _ => 0),
            Op.packet_in mtcp_h.MTCP_ACK 0 0 (fun _ => 0)]).ack = 0 := by
  decide

/-- C6, amended: take any sequence of `init` / `set_leds` / `packet_in`
operations, from any session state, that contains a call `set_leds(W)` made
while the busy flag was clear, after which every further `set_leds` call was
made while the busy flag was set, and at whose end the session is idle.  A
RESET packet handled then transmits `BIOC_ON`, `LED_USR` and the six-byte LED
packet that `tux_set_led` builds for `W`. -/
theorem reset_repaints_last_recorded (k : Mtcp) (s0 : Session) (pre post : List Op)
    (W : Nat) (j jr : Nat → Nat) (b c : Nat)
    (hcall : (run k s0 pre).ack = 0)
    (hlater : ∀ n W' j', post[n]? = some (Op.set_leds W' j') →
      (run k s0 (pre ++ Op.set_leds W j :: post.take n)).ack ≠ 0)
    (hidle : (run k s0 (pre ++ Op.set_leds W j :: post)).ack = 0) :
    (tuxctl_handle_packet k (run k s0 (pre ++ Op.set_leds W j :: post))
        k.MTCP_RESET b c jr).tx =
      (run k s0 (pre ++ Op.set_leds W j :: post)).tx ++
        [k.MTCP_BIOC_ON, k.MTCP_LED_USR] ++ led_packet k W jr := by
  have hshadow : (run k s0 (pre ++ Op.set_leds W j :: post)).led_backup = W := by
    rw [run_append, run_cons, run_led_backup_of_busy]
    · simp only [step, tux_set_led_led_backup, if_pos hcall]
    · intro n W' j' hn
      have := hlater n W' j' hn
      rwa [run_append, run_cons] at this
  rw [reset_idle_tx k _ b c jr hidle, hshadow]

/-- C6, amended, at `init`, `set_leds(0xF0001)`, `set_leds(0xF0002)`, ACK. -/
theorem reset_repaints_last_recorded_witness :
    (tuxctl_handle_packet mtcp_h
        (run mtcp_h Session.initial
          ([Op.init] ++ Op.set_leds 0xF0001 (fun _ => 0) ::
            [Op.set_leds 0xF0002 (fun _ => 0), Op.packet_in mtcp_h.MTCP_ACK 0 0 (fun _ => 0)]))
        mtcp_h.MTCP_RESET 0 0 (fun _ => 0)).tx =
      (run mtcp_h Session.initial
          ([Op.init] ++ Op.set_leds 0xF0001 (fun _ => 0) ::
            [Op.set_leds 0xF0002 (fun _ => 0), Op.packet_in mtcp_h.MTCP_ACK 0 0 (fun _ => 0)])).tx ++
        [mtcp_h.MTCP_BIOC_ON, mtcp_h.MTCP_LED_USR] ++ led_packet mtcp_h 0xF0001 (fun _ => 0) :=
  reset_repaints_last_recorded mtcp_h Session.initial [Op.init]
    [Op.set_leds 0xF0002 (fun _ => 0), Op.packet_in mtcp_h.MTCP_ACK 0 0 (fun _ => 0)]
    0xF0001 (fun _ => 0) (fun _ => 0) 0 0 (by decide)
    (by
      intro n W' j' hn
      match n, hn with
      | 0, _ => decide
      | 1, hn => simp [mtcp_h] at hn
      | n + 2, hn => simp at hn)
    (by decide)

/-- C7, evaluated at the failing input: after `init` and `set_leds(0xF0123)`
on the initial session (eight bytes transmitted so far), a RESET packet
handled before any ACK transmits nothing and leaves the busy flag set. -/
theorem reset_before_ack_sends_nothing :
    (tuxctl_handle_packet mtcp_h
        (run mtcp_h Session.initial [Op.init, Op.set_leds 0xF0123 (fun _ => 0)])
        mtcp_h.MTCP_RESET 0 0 (fun _ => 0)).tx =
      (run mtcp_h Session.initial [Op.init, Op.set_leds 0xF0123 (fun _ => 0)]).tx ∧
    (run mtcp_h Session.initial [Op.init, Op.set_leds 0xF0123 (fun _ => 0)]).tx =
      [0xC3, 0xC8, 0xC6, 0x0F, 0x8F, 0xCB, 0x06, 0xE7] ∧
    (tuxctl_handle_packet mtcp_h
        (run mtcp_h Session.initial [Op.init, Op.set_leds 0xF0123 (fun _ => 0)])
        mtcp_h.MTCP_RESET 0 0 (fun _ => 0)).ack = 1 := by
  decide

/-- C10: `tux_init` called with the busy flag clear returns 0, transmits
exactly the two bytes `MTCP_BIOC_ON`, `MTCP_LED_USR` in that order, leaves the
busy flag clear, sets the button snapshot to `0xFF` and leaves the LED shadow
unchanged. -/
theorem tux_init_idle (k : Mtcp) (s : Session) (h : s.ack = 0) :
    tux_init k s =
      ({ ack := 0, buttoons := 0xFF, led_backup := s.led_backup,
         tx := s.tx ++ [k.MTCP_BIOC_ON, k.MTCP_LED_USR] }, 0) := by
  simp [tux_init, tuxctl_ldisc_put, h]

/-- C10 at the initial session. -/
theorem tux_init_idle_witness :
    Session.initial.ack = 0 ∧
    tux_init mtcp_h Session.initial =
      ({ ack := 0, buttoons := 0xFF, led_backup := 0, tx := [0xC3, 0xC8] }, 0) :=
  ⟨rfl, tux_init_idle mtcp_h Session.initial rfl⟩

end Tux

/-! ## PaletteCore: theorems -/

namespace Photo

theorem and_31 (x : Nat) : x &&& 0x1F = x % 32 := Nat.and_pow_two_sub_one_eq_mod x 5
theorem and_63 (x : Nat) : x &&& 0x3F = x % 64 := Nat.and_pow_two_sub_one_eq_mod x 6

theorem red1_lt (p : Nat) : red1 p < 32 := by
  simp only [red1, and_31]; omega

theorem green_lt (p : Nat) : green_of p < 64 := by
  simp only [green_of, and_63]; omega

theorem blue_lt (p : Nat) : blue_of p < 32 := by
  simp only [blue_of, and_31]; omega

theorem red2_eq_red1 (p : Nat) (hp : p < 65536) : red2 p = red1 p := by
  simp only [red1, red2, and_31, and_63, Nat.shiftRight_eq_div_pow]
  omega

theorem two_index_eq (r g b : Nat) (hg : g < 64) (hb : b < 32) :
    two_index_of r g b = (r / 8) * 16 + (g / 16) * 4 + b / 8 := by
  unfold two_index_of
  simp only [Nat.shiftRight_eq_div_pow, Nat.shiftLeft_eq]
  have h1 : r / 2 ^ 3 * 2 ^ 4 ||| g / 2 ^ 4 * 2 ^ 2 = 2 ^ 2 * (r / 8 * 4 + g / 16) := by
    have := Nat.mul_add_lt_is_or (i := 4) (b := g / 2 ^ 4 * 2 ^ 2) (by omega) (r / 2 ^ 3)
    rw [Nat.mul_comm (2 ^ 4)] at this
    rw [← this]; omega
  rw [h1, ← Nat.mul_add_lt_is_or (by omega)]
  omega

theorem four_index_eq (r g b : Nat) (hg : g < 64) (hb : b < 32) :
    four_index_of r g b = (r / 2) * 256 + (g / 4) * 16 + b / 2 := by
  unfold four_index_of
  simp only [Nat.shiftRight_eq_div_pow, Nat.shiftLeft_eq]
  have h1 : r / 2 ^ 1 * 2 ^ 8 ||| g / 2 ^ 2 * 2 ^ 4 = 2 ^ 4 * (r / 2 * 16 + g / 4) := by
    have := Nat.mul_add_lt_is_or (i := 8) (b := g / 2 ^ 2 * 2 ^ 4) (by omega) (r / 2 ^ 1)
    rw [Nat.mul_comm (2 ^ 8)] at this
    rw [← this]; omega
  rw [h1, ← Nat.mul_add_lt_is_or (by omega)]
  omega

theorem two_index_lt (r g b : Nat) (hr : r < 32) (hg : g < 64) (hb : b < 32) :
    two_index_of r g b < 64 := by
  rw [two_index_eq r g b hg hb]; omega

theorem four_index_lt (r g b : Nat) (hr : r < 32) (hg : g < 64) (hb : b < 32) :
    four_index_of r g b < 4096 := by
  rw [four_index_eq r g b hg hb]; omega

theorem read_mem_inside (p : List Nat) (outside : Int → Nat) (i : Int)
    (h0 : 0 ≤ i) (h1 : i < p.length) : some (read_mem p outside i) = p[i.toNat]? := by
  have hlt : i.toNat < p.length := by omega
  simp only [read_mem, h0, h1, and_self, if_true, List.getD_eq_getElem?_getD,
    List.getElem?_eq_getElem hlt, Option.getD_some]

theorem row_index_bounds (W H : Nat) (y t : Int) (hy0 : 0 ≤ y) (hyH : y < H)
    (ht0 : 0 ≤ t) (htW : t < W) :
    0 ≤ (W : Int) * y + t ∧ (W : Int) * y + t < ((W * H : Nat) : Int) := by
  have h1 : 0 ≤ (W : Int) * y := Int.mul_nonneg (Int.ofNat_nonneg W) hy0
  have h2 : (W : Int) * (y + 1) ≤ (W : Int) * H :=
    Int.mul_le_mul_of_nonneg_left (by omega) (Int.ofNat_nonneg W)
  have h3 : (W : Int) * (y + 1) = (W : Int) * y + W := by ring
  push_cast
  constructor <;> omega

theorem fread16_drop (inp0 : List Nat) (m : Nat) (h : m < inp0.length) :
    fread16 (inp0.drop m) = some (pixel_at inp0 m, inp0.drop (m + 1)) := by
  rw [List.drop_eq_getElem_cons h]
  simp [fread16, pixel_at, List.getD_eq_getElem?_getD, List.getElem?_eq_getElem h]

theorem fread16_drop_none (inp0 : List Nat) (m : Nat) (h : inp0.length ≤ m) :
    fread16 (inp0.drop m) = none := by
  rw [List.drop_eq_nil_of_le h]; rfl

/-- The column loop consumes `n` pixels of the stream and carries an
invariant indexed by the number of pixels consumed. -/
theorem loop_cols_inv {σ : Type} (body : Nat → Nat → σ → σ) (inp0 : List Nat)
    (I : Nat → σ → Prop) :
    ∀ (n x m : Nat) (s : σ),
      m + n ≤ inp0.length →
      (∀ j, j < n → ∀ t, I (m + j) t → I (m + j + 1) (body (x + j) (pixel_at inp0 (m + j)) t)) →
      I m s →
      ∃ s1, loop_cols body n x (inp0.drop m) s = some (inp0.drop (m + n), s1) ∧ I (m + n) s1 := by
  intro n
  induction n with
  | zero => intro x m s _ _ hI; exact ⟨s, rfl, hI⟩
  | succ n ih =>
    intro x m s hlen hstep hI
    have hm : m < inp0.length := by omega
    simp only [loop_cols, fread16_drop inp0 m hm]
    have h0 := hstep 0 (Nat.succ_pos n) s hI
    simp only [Nat.add_zero] at h0
    obtain ⟨s1, hs1, hI1⟩ := ih (x + 1) (m + 1) (body x (pixel_at inp0 m) s) (by omega)
      (by
        intro j hj t ht
        have := hstep (j + 1) (by omega) t (by rwa [show m + (j + 1) = m + 1 + j by omega])
        rwa [show m + (j + 1) = m + 1 + j by omega, show x + (j + 1) = x + 1 + j by omega] at this)
      h0
    exact ⟨s1, by rw [hs1, show m + 1 + n = m + (n + 1) by omega],
      by rwa [show m + 1 + n = m + (n + 1) by omega] at hI1⟩

theorem loop_cols_short {σ : Type} (body : Nat → Nat → σ → σ) (inp0 : List Nat) :
    ∀ (n x m : Nat) (s : σ), m ≤ inp0.length → inp0.length < m + n →
      loop_cols body n x (inp0.drop m) s = none := by
  intro n
  induction n with
  | zero => intro x m s h0 h; simp only [Nat.add_zero] at h; omega
  | succ n ih =>
    intro x m s h0 h
    by_cases hm : m < inp0.length
    · simp only [loop_cols, fread16_drop inp0 m hm]
      exact ih (x + 1) (m + 1) _ (by omega) (by omega)
    · simp only [loop_cols, fread16_drop_none inp0 m (by omega)]

/-- The row loop over a `width` by `height` photo consumes `height * width`
pixels; the pixel consumed `r * width + c`-th is handed to the body with
`y = height - 1 - r` and `x = c`. -/
theorem loop_rows_inv {σ : Type} (W H : Nat) (body : Nat → Nat → Nat → σ → σ)
    (inp0 : List Nat) (I : Nat → σ → Prop)
    (hlen : H * W ≤ inp0.length)
    (hstep : ∀ r c, r < H → c < W → ∀ t, I (r * W + c) t →
      I (r * W + c + 1) (body (H - 1 - r) c (pixel_at inp0 (r * W + c)) t)) :
    ∀ (Y : Nat) (s : σ), Y ≤ H → I ((H - Y) * W) s →
      ∃ s1, loop_rows W body Y (inp0.drop ((H - Y) * W)) s = some (inp0.drop (H * W), s1) ∧
        I (H * W) s1 := by
  intro Y
  induction Y with
  | zero => intro s _ hI; exact ⟨s, rfl, hI⟩
  | succ y ih =>
    intro s hY hI
    have hr : H - (y + 1) < H := by omega
    have hle : (H - (y + 1)) * W + W ≤ H * W := by
      have : (H - (y + 1) + 1) * W ≤ H * W := Nat.mul_le_mul_right W (by omega)
      rwa [Nat.add_mul, Nat.one_mul] at this
    obtain ⟨s1, hs1, hI1⟩ := loop_cols_inv (body y) inp0 I W 0 ((H - (y + 1)) * W) s
      (by omega)
      (by
        intro j hj t ht
        have := hstep (H - (y + 1)) j hr hj t ht
        simpa [show H - 1 - (H - (y + 1)) = y by omega] using this)
      hI
    have e : (H - (y + 1)) * W + W = (H - y) * W := by
      have : H - y = H - (y + 1) + 1 := by omega
      rw [this, Nat.add_mul, Nat.one_mul]
    rw [e] at hs1 hI1
    simp only [loop_rows, hs1]
    exact ih s1 (by omega) hI1

theorem loop_rows_short {σ : Type} (W : Nat) (body : Nat → Nat → Nat → σ → σ)
    (inp0 : List Nat) :
    ∀ (Y m : Nat) (s : σ), m ≤ inp0.length → inp0.length < m + Y * W →
      loop_rows W body Y (inp0.drop m) s = none := by
  intro Y
  induction Y with
  | zero => intro m s h0 h; simp only [Nat.zero_mul, Nat.add_zero] at h; omega
  | succ y ih =>
    intro m s h0 h
    rw [Nat.add_mul, Nat.one_mul] at h
    by_cases hm : m + W ≤ inp0.length
    · obtain ⟨s1, hs1, -⟩ := loop_cols_inv (body y) inp0 (fun _ _ => True) W 0 m s hm
        (fun _ _ _ _ => trivial) trivial
      simp only [loop_rows, hs1]
      exact ih (m + W) s1 hm (by omega)
    · simp only [loop_rows, loop_cols_short (body y) inp0 W 0 m s h0 (by omega)]


theorem getD_set (l : List octree_arr_t) (i j : Nat) (a : octree_arr_t) :
    (l.set i a).getD j octree_zero =
      if i = j ∧ i < l.length then a else l.getD j octree_zero := by
  simp only [List.getD_eq_getElem?_getD, List.getElem?_set]
  by_cases hij : i = j
  · subst hij
    by_cases hi : i < l.length
    · simp [hi]
    · simp [hi, List.getElem?_eq_none (Nat.le_of_not_lt hi)]
  · simp [hij]

theorem accumulate_getD (l : List octree_arr_t) (i r g b j : Nat) :
    (accumulate l i r g b).getD j octree_zero =
      if i = j ∧ i < l.length then
        { red := (l.getD i octree_zero).red + r, green := (l.getD i octree_zero).green + g,
          blue := (l.getD i octree_zero).blue + b, index := i,
          counter := (l.getD i octree_zero).counter + 1 }
      else l.getD j octree_zero := by
  simp only [accumulate, getD_set]

theorem accumulate_length (l : List octree_arr_t) (i r g b : Nat) :
    (accumulate l i r g b).length = l.length := by
  simp [accumulate]

theorem fineBinsOk_counter_nonneg (l : List octree_arr_t) (h : FineBinsOk l) (g : Nat) :
    0 ≤ (l.getD g octree_zero).counter := by
  rcases h.2 g with h0 | h1
  · rw [h0]; decide
  · exact le_of_lt h1.2

theorem accumulate_populated_self (l : List octree_arr_t) (h : FineBinsOk l)
    (f r g b : Nat) (hf : f < 4096) : Populated (accumulate l f r g b) f := by
  have hl : f < l.length := by rw [h.1]; exact hf
  have hc := fineBinsOk_counter_nonneg l h f
  simp only [Populated, accumulate_getD, hl, and_self, if_true]
  exact ⟨trivial, by omega⟩

theorem accumulate_populated_mono (l : List octree_arr_t) (h : FineBinsOk l)
    (f r g b q : Nat) (hf : f < 4096) (hq : Populated l q) :
    Populated (accumulate l f r g b) q := by
  by_cases hfq : f = q
  · subst hfq; exact accumulate_populated_self l h f r g b hf
  · simp only [Populated, accumulate_getD, hfq, false_and, if_false]
    exact hq

theorem accumulate_fineBinsOk (l : List octree_arr_t) (h : FineBinsOk l)
    (f r g b : Nat) (hf : f < 4096) : FineBinsOk (accumulate l f r g b) := by
  refine ⟨by rw [accumulate_length]; exact h.1, fun q => ?_⟩
  by_cases hfq : f = q
  · subst hfq; exact Or.inr (accumulate_populated_self l h f r g b hf)
  · rcases h.2 q with h0 | h1
    · left
      simp only [accumulate_getD, hfq, false_and, if_false]
      exact h0
    · exact Or.inr (accumulate_populated_mono l h f r g b q hf h1)

theorem fine_index_lt (p : Nat) : fine_index p < 4096 :=
  four_index_lt _ _ _ (red1_lt p) (green_lt p) (blue_lt p)

theorem coarse_index_lt (p : Nat) : coarse_index p < 64 :=
  two_index_lt _ _ _ (red1_lt p) (green_lt p) (blue_lt p)

theorem pixel_at_lt (body : List Nat) (n : Nat) : pixel_at body n < 65536 :=
  Nat.mod_lt _ (by decide)

theorem fineBinsOk_replicate : FineBinsOk (List.replicate 4096 octree_zero) := by
  refine ⟨List.length_replicate _ _, fun g => Or.inl ?_⟩
  simp only [List.getD_eq_getElem?_getD, List.getElem?_replicate]
  split <;> rfl

/-- Pass 1 succeeds on a stream that holds the whole photo; afterwards the
fine array is well shaped and the bin of every pixel read is populated. -/
theorem pass1_spec (W H : Nat) (body : List Nat) (hlen : H * W ≤ body.length) :
    ∃ l2 l4, pass1 W H body = some (body.drop (H * W), l2, l4) ∧ FineBinsOk l4 ∧
      ∀ j, j < H * W → Populated l4 (fine_index (pixel_at body j)) := by
  obtain ⟨s1, hs1, hI⟩ := loop_rows_inv W H pass1_body body
    (fun m s => FineBinsOk s.2 ∧ ∀ j, j < m → Populated s.2 (fine_index (pixel_at body j)))
    hlen
    (by
      intro r c _ _ t ht
      refine ⟨accumulate_fineBinsOk _ ht.1 _ _ _ _ (fine_index_lt _), fun j hj => ?_⟩
      by_cases hjm : j < r * W + c
      · exact accumulate_populated_mono _ ht.1 _ _ _ _ _ (fine_index_lt _) (ht.2 j hjm)
      · have : j = r * W + c := by omega
        subst this
        exact accumulate_populated_self _ ht.1 _ _ _ _ (fine_index_lt _))
    H (List.replicate 64 octree_zero, List.replicate 4096 octree_zero) (le_refl H)
    ⟨fineBinsOk_replicate, fun j hj => by simp only [Nat.sub_self, Nat.zero_mul] at hj; omega⟩
  simp only [Nat.sub_self, Nat.zero_mul, List.drop_zero] at hs1
  exact ⟨s1.1, s1.2, hs1, hI.1, hI.2⟩


theorem search_some (l : List octree_arr_t) (f : Nat) :
    ∀ (n i j : Nat), search l f n i = some j →
      i ≤ j ∧ j < i + n ∧ (l.getD j octree_zero).index = f ∧
        ∀ t, i ≤ t → t < j → (l.getD t octree_zero).index ≠ f := by
  intro n
  induction n with
  | zero => intro i j h; simp [search] at h
  | succ n ih =>
    intro i j h
    simp only [search] at h
    split_ifs at h with hi
    · have : i = j := by simpa using h
      subst this
      exact ⟨le_refl _, by omega, hi, fun t h1 h2 => by omega⟩
    · obtain ⟨h1, h2, h3, h4⟩ := ih (i + 1) j h
      refine ⟨by omega, by omega, h3, fun t ht1 ht2 => ?_⟩
      by_cases hti : t = i
      · subst hti; exact hi
      · exact h4 t (by omega) ht2

theorem search_none (l : List octree_arr_t) (f : Nat) :
    ∀ (n i : Nat), search l f n i = none →
      ∀ t, i ≤ t → t < i + n → (l.getD t octree_zero).index ≠ f := by
  intro n
  induction n with
  | zero => intro i _ t h1 h2; omega
  | succ n ih =>
    intro i h t ht1 ht2
    simp only [search] at h
    split_ifs at h with hi
    by_cases hti : t = i
    · subst hti; exact hi
    · exact ih (i + 1) h t (by omega) (by omega)

theorem pass2_body_img (W : Nat) (l4 : List octree_arr_t) (y x pixel : Nat)
    (s : List octree_arr_t × List Nat) :
    (pass2_body W l4 y x pixel s).2 = s.2.set (W * y + x) (emit l4 pixel) := by
  simp only [pass2_body, emit]
  split <;> simp [List.set_set]

/-- Every byte that pass 2 stores is a fine slot plus 64 or a coarse slot plus
192. -/
theorem emit_range (l4 : List octree_arr_t) (pixel : Nat) (hp : pixel < 65536) :
    (∃ i, i < 128 ∧ emit l4 pixel = i + 64) ∨ emit l4 pixel = coarse_index pixel + 192 := by
  simp only [emit, red2_eq_red1 pixel hp]
  split
  · rename_i i hi
    obtain ⟨-, h2, -, -⟩ := search_some _ _ _ _ _ hi
    exact Or.inl ⟨i, by omega, Nat.mod_eq_of_lt (by omega)⟩
  · have hlt := coarse_index_lt pixel
    exact Or.inr (Nat.mod_eq_of_lt (by unfold coarse_index at hlt; omega))


theorem pos_inj (W a c a' c' : Nat) (hc : c < W) (hc' : c' < W)
    (h : W * a + c = W * a' + c') : a = a' ∧ c = c' := by
  have hW : 0 < W := by omega
  have h1 : (W * a + c) / W = a := by
    rw [Nat.mul_add_div hW, Nat.div_eq_of_lt hc, Nat.add_zero]
  have h2 : (W * a' + c') / W = a' := by
    rw [Nat.mul_add_div hW, Nat.div_eq_of_lt hc', Nat.add_zero]
  have ha : a = a' := by rw [← h1, ← h2, h]
  subst ha
  exact ⟨rfl, by omega⟩

theorem pos_lt (W H r c : Nat) (hr : r < H) (hc : c < W) : W * (H - 1 - r) + c < W * H := by
  have h1 : W * (H - 1 - r + 1) ≤ W * H := Nat.mul_le_mul_left W (by omega)
  rw [Nat.mul_add, Nat.mul_one] at h1
  omega

/-- Pass 2 succeeds on a stream that holds the whole photo and leaves, at the
position of every pixel, the byte `emit` computes for it: the pixel read
`r * W + c`-th lands at `W * (H - 1 - r) + c`. -/
theorem pass2_spec (W H : Nat) (l4 : List octree_arr_t) (body : List Nat)
    (hlen : H * W ≤ body.length) (l2 : List octree_arr_t) (img0 : List Nat)
    (himg : img0.length = W * H) :
    ∃ l2' img, loop_rows W (pass2_body W l4) H body (l2, img0) =
        some (body.drop (H * W), l2', img) ∧ img.length = W * H ∧
      ∀ r c, r < H → c < W →
        img[W * (H - 1 - r) + c]? = some (emit l4 (pixel_at body (r * W + c))) := by
  obtain ⟨s1, hs1, hI⟩ := loop_rows_inv W H (pass2_body W l4) body
    (fun m s => s.2.length = W * H ∧ ∀ r c, r < H → c < W → r * W + c < m →
      s.2[W * (H - 1 - r) + c]? = some (emit l4 (pixel_at body (r * W + c))))
    hlen
    (by
      intro r0 c0 hr0 hc0 t ht
      rw [pass2_body_img]
      refine ⟨by rw [List.length_set]; exact ht.1, fun r c hr hc hm => ?_⟩
      by_cases hpos : W * (H - 1 - r0) + c0 = W * (H - 1 - r) + c
      · obtain ⟨ha, hcc⟩ := pos_inj W _ _ _ _ hc0 hc hpos
        have hrr : r0 = r := by omega
        subst hrr; subst hcc
        have hl : W * (H - 1 - r0) + c0 < t.2.length := by
          rw [ht.1]; exact pos_lt W H r0 c0 hr0 hc0
        simp [List.getElem?_set, hl]
      · have hne : r * W + c ≠ r0 * W + c0 := by
          intro he
          rw [Nat.mul_comm r W, Nat.mul_comm r0 W] at he
          obtain ⟨ha, hcc⟩ := pos_inj W _ _ _ _ hc hc0 he
          apply hpos; rw [ha, hcc]
        simp only [List.getElem?_set, hpos, if_false]
        exact ht.2 r c hr hc (by omega))
    H (l2, img0) (le_refl H)
    ⟨himg, fun r c _ _ h => by simp only [Nat.sub_self, Nat.zero_mul] at h; omega⟩
  simp only [Nat.sub_self, Nat.zero_mul, List.drop_zero] at hs1
  exact ⟨s1.1, s1.2, hs1, hI.1, fun r c hr hc => hI.2 r c hr hc (by
    have : (r + 1) * W ≤ H * W := Nat.mul_le_mul_right W (by omega)
    rw [Nat.add_mul, Nat.one_mul] at this
    omega)⟩

/-- Acceptance: a file whose header is within bounds and whose body holds the
whole photo is turned into a photo, built from the result of pass 1, the
sorted fine array and the image of pass 2. -/
theorem read_photo_accepts (k : Consts) (qsort : List octree_arr_t → List octree_arr_t)
    (sys : Sys) (W H : Nat) (body : List Nat)
    (hfile : sys.file = some (W :: H :: body))
    (hmp : sys.malloc_photo = true) (hmi : sys.malloc_img = true)
    (hW16 : W < 65536) (hH16 : H < 65536)
    (hW : W ≤ k.MAX_PHOTO_WIDTH) (hH : H ≤ k.MAX_PHOTO_HEIGHT)
    (hlen : H * W ≤ body.length) :
    ∃ l2 l4 p, pass1 W H body = some (body.drop (H * W), l2, l4) ∧ FineBinsOk l4 ∧
      (∀ j, j < H * W → Populated l4 (fine_index (pixel_at body j))) ∧
      (read_photo k qsort sys).ret = some p ∧ p.img.length = W * H ∧
      ∀ r c, r < H → c < W →
        p.img[W * (H - 1 - r) + c]? = some (emit (qsort l4) (pixel_at body (r * W + c))) := by
  obtain ⟨l2, l4, h1, hok, hpop⟩ := pass1_spec W H body hlen
  obtain ⟨l2', img, h2, hl, himg⟩ := pass2_spec W H (qsort l4) body hlen l2
    ((List.range (W * H)).map sys.img_junk) (by simp)
  refine ⟨l2, l4,
    { hdr := { width := W, height := H },
      palette := fill_palette l2' (qsort l4) ((List.range 192).map sys.palette_junk),
      img := img }, h1, hok, hpop, ?_⟩
  have e1 : W % 65536 = W := Nat.mod_eq_of_lt hW16
  have e2 : H % 65536 = H := Nat.mod_eq_of_lt hH16
  have hb : ¬ (k.MAX_PHOTO_WIDTH < W ∨ k.MAX_PHOTO_HEIGHT < H) := by omega
  simp only [read_photo, hfile, hmp, hmi, e1, e2, hb, if_false, h1, h2, Bool.true_eq_false]
  exact ⟨trivial, hl, himg⟩


theorem populated_of_counter_pos (l4 : List octree_arr_t) (hok : FineBinsOk l4) (g : Nat)
    (h : 0 < (l4.getD g octree_zero).counter) : Populated l4 g := by
  rcases hok.2 g with h0 | h1
  · rw [h0] at h; exact absurd h (by decide)
  · exact h1

/-- Two different positions of the fine array never hold the same bin when
that bin is populated. -/
theorem fine_bins_pairwise (l4 : List octree_arr_t) (hok : FineBinsOk l4) :
    l4.Pairwise (fun a b => (0 < a.counter ∨ 0 < b.counter) → a ≠ b) := by
  rw [List.pairwise_iff_getElem]
  intro i j hi hj hij hpos heq
  have ei : l4.getD i octree_zero = l4[i] := by
    simp [List.getD_eq_getElem?_getD, List.getElem?_eq_getElem hi]
  have ej : l4.getD j octree_zero = l4[j] := by
    simp [List.getD_eq_getElem?_getD, List.getElem?_eq_getElem hj]
  have hboth : 0 < l4[i].counter ∧ 0 < l4[j].counter := by
    rcases hpos with h | h
    · exact ⟨h, by rw [← heq]; exact h⟩
    · exact ⟨by rw [heq]; exact h, h⟩
  have pi := populated_of_counter_pos l4 hok i (by rw [ei]; exact hboth.1)
  have pj := populated_of_counter_pos l4 hok j (by rw [ej]; exact hboth.2)
  have h1 := pi.1
  have h2 := pj.1
  rw [ei] at h1
  rw [ej, ← heq, h1] at h2
  have : i = j := by exact_mod_cast h2
  omega

theorem sorted_rank_unique (l4 sorted : List octree_arr_t) (hok : FineBinsOk l4)
    (hperm : sorted.Perm l4) (B : octree_arr_t) (hB : 0 < B.counter) (i j : Nat)
    (hi : sorted[i]? = some B) (hj : sorted[j]? = some B) : i = j := by
  have hpw : sorted.Pairwise (fun a b => (0 < a.counter ∨ 0 < b.counter) → a ≠ b) :=
    (hperm.pairwise_iff (fun {x y} h hxy e => h (Or.symm hxy) e.symm)).2
      (fine_bins_pairwise l4 hok)
  rw [List.pairwise_iff_getElem] at hpw
  obtain ⟨hil, hie⟩ := List.getElem?_eq_some.1 hi
  obtain ⟨hjl, hje⟩ := List.getElem?_eq_some.1 hj
  rcases Nat.lt_trichotomy i j with h | h | h
  · exact absurd (hie.trans hje.symm) (hpw i j hil hjl h (Or.inl (by rw [hie]; exact hB)))
  · exact h
  · exact absurd (hje.trans hie.symm) (hpw j i hjl hil h (Or.inl (by rw [hje]; exact hB)))

theorem sorted_index_match (l4 sorted : List octree_arr_t) (hok : FineBinsOk l4)
    (hperm : sorted.Perm l4) (E : octree_arr_t) (hE : E ∈ sorted) (f : Nat)
    (hidx : E.index = f) (hpos : 0 < E.counter) : E = l4.getD f octree_zero := by
  have hmem : E ∈ l4 := hperm.subset hE
  obtain ⟨g, hg, hge⟩ := List.getElem_of_mem hmem
  have eg : l4.getD g octree_zero = E := by
    simp [List.getD_eq_getElem?_getD, List.getElem?_eq_getElem hg, hge]
  have pg := populated_of_counter_pos l4 hok g (by rw [eg]; exact hpos)
  have h1 := pg.1
  rw [eg, hidx] at h1
  have : f = g := by exact_mod_cast h1
  rw [this, eg]

theorem compare_le_zero (a b : octree_arr_t) (h : compare a b ≤ 0) : b.counter ≤ a.counter := by
  unfold compare at h
  split_ifs at h with h1 h2
  · omega
  · omega
  · omega

theorem emit_eq (sorted : List octree_arr_t) (px : Nat) (hpx : px < 65536) :
    emit sorted px =
      match search sorted (fine_index px) 128 0 with
      | some i => (i + 64) % 256
      | none => (coarse_index px + 192) % 256 := by
  simp only [emit, red2_eq_red1 px hpx, fine_index, coarse_index]

theorem getD_of_getElem_some (l : List octree_arr_t) (i : Nat) (B : octree_arr_t)
    (h : l[i]? = some B) : l.getD i octree_zero = B := by
  simp [List.getD_eq_getElem?_getD, h]

/-- The byte of a pixel is decided by the rank of its own fine bin in the
sorted array. -/
theorem emit_of_rank (l4 sorted : List octree_arr_t) (hok : FineBinsOk l4)
    (hperm : sorted.Perm l4) (hsorted : sorted.Pairwise (fun a b => compare a b ≤ 0))
    (px : Nat) (hpx : px < 65536) (hpop : Populated l4 (fine_index px)) (i : Nat)
    (hi : sorted[i]? = some (l4.getD (fine_index px) octree_zero)) :
    (i < 128 → emit sorted px = i + 64) ∧
      (128 ≤ i → emit sorted px = coarse_index px + 192) := by
  have hiD := getD_of_getElem_some sorted i _ hi
  obtain ⟨hil, hie⟩ := List.getElem?_eq_some.1 hi
  -- any earlier match is the bin itself
  have hearlier : ∀ j, j < i → (sorted.getD j octree_zero).index = fine_index px → False := by
    intro j hji hj
    have hjl : j < sorted.length := by omega
    have ej : sorted.getD j octree_zero = sorted[j] := by
      simp [List.getD_eq_getElem?_getD, List.getElem?_eq_getElem hjl]
    rw [List.pairwise_iff_getElem] at hsorted
    have hc := compare_le_zero _ _ (hsorted j i hjl hil hji)
    rw [hie] at hc
    have hposj : 0 < sorted[j].counter := lt_of_lt_of_le hpop.2 hc
    have hE := sorted_index_match l4 sorted hok hperm sorted[j] (List.getElem_mem _) (fine_index px)
      (by rw [← ej]; exact hj) hposj
    have := sorted_rank_unique l4 sorted hok hperm _ hpop.2 j i
      (by rw [List.getElem?_eq_getElem hjl, hE]) hi
    omega
  rw [emit_eq sorted px hpx]
  cases hs : search sorted (fine_index px) 128 0 with
  | none =>
    have hn := search_none _ _ _ _ hs
    constructor
    · intro h128
      exact absurd (by rw [hiD]; exact hpop.1) (hn i (Nat.zero_le _) (by omega))
    · intro _
      have := coarse_index_lt px
      exact Nat.mod_eq_of_lt (by omega)
  | some j =>
    obtain ⟨-, hj128, hjidx, hjmin⟩ := search_some _ _ _ _ _ hs
    have hji : j = i := by
      rcases Nat.lt_trichotomy j i with h | h | h
      · exact absurd hjidx (fun e => hearlier j h e)
      · exact h
      · exact absurd (by rw [hiD]; exact hpop.1) (hjmin i (Nat.zero_le _) h)
    subst hji
    constructor
    · intro _; exact Nat.mod_eq_of_lt (by omega)
    · intro h; omega

theorem compare_total (a b : octree_arr_t) : compare a b ≤ 0 ∨ compare b a ≤ 0 := by
  simp only [compare]
  rcases lt_trichotomy a.counter b.counter with h | h | h
  · right; split_ifs <;> omega
  · left; split_ifs <;> omega
  · left; split_ifs <;> omega

theorem compare_trans (a b c : octree_arr_t) (hab : compare a b ≤ 0) (hbc : compare b c ≤ 0) :
    compare a c ≤ 0 := by
  have h1 := compare_le_zero a b hab
  have h2 := compare_le_zero b c hbc
  simp only [compare]
  split_ifs <;> omega

/-- Insertion sort with `compare` meets the contract of `qsort`. -/
theorem qsort_insertion_isQsort : IsQsort qsort_insertion :=
  fun l => ⟨List.perm_insertionSort _ l,
    @List.sorted_insertionSort _ (fun a b => compare a b ≤ 0) _ ⟨compare_total⟩
      ⟨compare_trans⟩ l⟩

/-- C3: a photo file that `read_photo` accepts (the file opens, both checked
allocations succeed, the header is within `MAX_PHOTO_WIDTH` x
`MAX_PHOTO_HEIGHT` and the body holds all `W * H` pixels) yields a photo whose
every pixel byte lies in `[64, 256)`: it is `i + 64` with `i < 128` (a fine
slot) or `c + 192` with `c < 64` (a coarse slot).  Hence at most 128 distinct
fine bytes and at most 64 distinct coarse bytes occur. -/
theorem read_photo_bytes_in_range (k : Consts) (qsort : List octree_arr_t → List octree_arr_t)
    (sys : Sys) (W H : Nat) (body : List Nat)
    (hfile : sys.file = some (W :: H :: body))
    (hmp : sys.malloc_photo = true) (hmi : sys.malloc_img = true)
    (hW16 : W < 65536) (hH16 : H < 65536)
    (hW : W ≤ k.MAX_PHOTO_WIDTH) (hH : H ≤ k.MAX_PHOTO_HEIGHT)
    (hlen : H * W ≤ body.length) :
    ∃ p, (read_photo k qsort sys).ret = some p ∧ p.img.length = W * H ∧
      (∀ b ∈ p.img, 64 ≤ b ∧ b < 256 ∧
        ((∃ i, i < 128 ∧ b = i + 64) ∨ (∃ c, c < 64 ∧ b = c + 192))) ∧
      (p.img.toFinset.filter (fun b => b < 192)).card ≤ 128 ∧
      (p.img.toFinset.filter (fun b => 192 ≤ b)).card ≤ 64 := by
  obtain ⟨l2, l4, p, -, -, -, hret, hl, himg⟩ :=
    read_photo_accepts k qsort sys W H body hfile hmp hmi hW16 hH16 hW hH hlen
  have hall : ∀ b ∈ p.img, (∃ i, i < 128 ∧ b = i + 64) ∨ (∃ c, c < 64 ∧ b = c + 192) := by
    intro b hb
    obtain ⟨j, hj, hjb⟩ := List.getElem_of_mem hb
    rw [hl] at hj
    have hWpos : 0 < W := by
      rcases Nat.eq_zero_or_pos W with h0 | h0
      · rw [h0, Nat.zero_mul] at hj; omega
      · exact h0
    have hdiv : j / W < H := Nat.div_lt_of_lt_mul hj
    have hmod : j % W < W := Nat.mod_lt _ hWpos
    have hdm : W * (j / W) + j % W = j := Nat.div_add_mod j W
    generalize j / W = q at hdiv hdm
    generalize j % W = m at hmod hdm
    have hsub : H - 1 - (H - 1 - q) = q := by omega
    have h := himg (H - 1 - q) m (by omega) hmod
    rw [hsub, hdm, List.getElem?_eq_getElem (by rw [hl]; exact hj), hjb] at h
    have hb' : b = emit (qsort l4) (pixel_at body ((H - 1 - q) * W + m)) :=
      Option.some.inj h
    rcases emit_range (qsort l4) _ (pixel_at_lt body ((H - 1 - q) * W + m)) with
      ⟨i, hi, he⟩ | he
    · exact Or.inl ⟨i, hi, by rw [hb', he]⟩
    · exact Or.inr ⟨_, coarse_index_lt _, by rw [hb', he]⟩
  refine ⟨p, hret, hl, fun b hb => ?_, ?_, ?_⟩
  · rcases hall b hb with ⟨i, hi, he⟩ | ⟨c, hc, he⟩
    · exact ⟨by omega, by omega, Or.inl ⟨i, hi, he⟩⟩
    · exact ⟨by omega, by omega, Or.inr ⟨c, hc, he⟩⟩
  · have hsub : p.img.toFinset.filter (fun b => b < 192) ⊆ Finset.Ico 64 192 := by
      intro b hb
      simp only [Finset.mem_filter, List.mem_toFinset] at hb
      rcases hall b hb.1 with ⟨i, hi, he⟩ | ⟨c, hc, he⟩ <;>
        simp only [Finset.mem_Ico] <;> omega
    calc (p.img.toFinset.filter (fun b => b < 192)).card
        ≤ (Finset.Ico 64 192).card := Finset.card_le_card hsub
      _ = 128 := by simp
  · have hsub : p.img.toFinset.filter (fun b => 192 ≤ b) ⊆ Finset.Ico 192 256 := by
      intro b hb
      simp only [Finset.mem_filter, List.mem_toFinset] at hb
      rcases hall b hb.1 with ⟨i, hi, he⟩ | ⟨c, hc, he⟩ <;>
        simp only [Finset.mem_Ico] <;> omega
    calc (p.img.toFinset.filter (fun b => 192 ≤ b)).card
        ≤ (Finset.Ico 192 256).card := Finset.card_le_card hsub
      _ = 64 := by simp

/-- C3 at the two-pixel photo file. -/
theorem read_photo_bytes_in_range_witness :
    ∃ p, (read_photo consts_h qsort_insertion sys_two_pixels).ret = some p ∧
      p.img.length = 2 * 1 ∧
      (∀ b ∈ p.img, 64 ≤ b ∧ b < 256 ∧
        ((∃ i, i < 128 ∧ b = i + 64) ∨ (∃ c, c < 64 ∧ b = c + 192))) ∧
      (p.img.toFinset.filter (fun b => b < 192)).card ≤ 128 ∧
      (p.img.toFinset.filter (fun b => 192 ≤ b)).card ≤ 64 :=
  read_photo_bytes_in_range consts_h qsort_insertion sys_two_pixels 2 1 [0xFFFF, 0x0000]
    rfl rfl rfl (by decide) (by decide) (by decide) (by decide) (by decide)

end Photo

/-! ## TuxCore: requests while busy, disabled digits, `tux_buttons` -/

namespace Tux

/-- C11: `tux_init` called while the busy flag is set returns `-EINVAL`,
transmits nothing and leaves the busy flag, the button snapshot and the LED
shadow as they were: the session is unchanged. -/
theorem tux_init_busy (k : Mtcp) (s : Session) (h : s.ack ≠ 0) :
    tux_init k s = (s, -EINVAL) := by
  simp [tux_init, h]

/-- C11 at the session reached by `init`, `set_leds(0xF0123)`, which is busy. -/
theorem tux_init_busy_witness :
    (run mtcp_h Session.initial [Op.init, Op.set_leds 0xF0123 (fun _ => 0)]).ack ≠ 0 ∧
    tux_init mtcp_h (run mtcp_h Session.initial [Op.init, Op.set_leds 0xF0123 (fun _ => 0)]) =
      (run mtcp_h Session.initial [Op.init, Op.set_leds 0xF0123 (fun _ => 0)], -EINVAL) :=
  ⟨by decide, tux_init_busy mtcp_h _ (by decide)⟩

/-- C12, evaluated at the failing input: `tux_set_led` on the idle initial
session with the word `0x00040300` (only digit 2 enabled, showing 3) and a
`led_buffer` that holds `0x55` on entry transmits `0x55` for the disabled
digits 0, 1 and 3, not 0: the loop stores nothing for a digit whose enable bit
is clear. -/
theorem set_leds_disabled_digit_sends_stack_byte :
    (tux_set_led mtcp_h Session.initial 0x00040300 (fun _ => 0x55)).1.tx =
      [0xC6, 0x0F, 0x55, 0x55, 0x8F, 0x55] := by
  decide

/-- C19, evaluated: on the idle initial session the word `0x000F0123`
transmits `LED_SET, 0x0F, 0x8F, 0xCB, 0x06, 0xE7` as claimed, but the word
`0x000F0ABC` (all four digits enabled, nibbles `C`, `B`, `A`, `0` from the
right) transmits `0xAF, 0xAF, 0xAF, 0xE7` where the segment table has
`0xE1, 0x6D, 0xEE, 0xE7`. -/
theorem set_leds_all_digits_hex_letters :
    (tux_set_led mtcp_h Session.initial 0x000F0123 (fun _ => 0)).1.tx =
        [0xC6, 0x0F, 0x8F, 0xCB, 0x06, 0xE7] ∧
      (tux_set_led mtcp_h Session.initial 0x000F0ABC (fun _ => 0)).1.tx =
        [0xC6, 0x0F, 0xAF, 0xAF, 0xAF, 0xE7] ∧
      [0xC, 0xB, 0xA, 0x0].map (fun n => segment_table.getD n 0) =
        [0xE1, 0x6D, 0xEE, 0xE7] := by
  decide

/-- C20: `tux_buttons` returns `-EINVAL` exactly when the user pointer is
null; with a non-null pointer it returns 0 and delivers the button snapshot
(an `unsigned long` of 32 bits).  As a request through `tuxctl_ioctl` it
leaves the session (busy flag, snapshot, LED shadow, bytes transmitted) as it
was, whatever the pointer. -/
theorem tux_buttons_null_iff (k : Mtcp) (io : Ioctl) (s : Session) (arg : Nat)
    (junk : Nat → Nat) (hb : s.buttoons < 2 ^ 32) :
    ((tux_buttons s arg).1 = -EINVAL ↔ arg = 0) ∧
      (arg ≠ 0 → tux_buttons s arg = (0, some s.buttoons)) ∧
      (tuxctl_ioctl k io s io.TUX_BUTTONS arg junk).1 = s ∧
      (tuxctl_ioctl k io s io.TUX_BUTTONS arg junk).2 = tux_buttons s arg := by
  have hd := io.case_labels_distinct
  simp only [List.nodup_cons, List.mem_cons, List.mem_singleton, not_or, List.not_mem_nil,
    not_false_eq_true, and_true, List.nodup_nil] at hd
  have e1 : io.TUX_BUTTONS ≠ io.TUX_INIT := fun h => hd.1.1 h.symm
  refine ⟨?_, ?_, ?_, ?_⟩
  · by_cases h : arg = 0
    · simp [tux_buttons, h]
    · simp [tux_buttons, h, EINVAL]
  · intro h
    simp only [tux_buttons, if_neg h, Nat.mod_eq_of_lt hb]
  · simp [tuxctl_ioctl, e1]
  · simp [tuxctl_ioctl, e1]

/-- C20 at the initial session, with the null pointer and with a non-null
one. -/
theorem tux_buttons_null_iff_witness :
    Session.initial.buttoons < 2 ^ 32 ∧
    tux_buttons Session.initial 0 = (-EINVAL, none) ∧
    (((tux_buttons Session.initial 1).1 = -EINVAL ↔ (1 : Nat) = 0) ∧
      ((1 : Nat) ≠ 0 → tux_buttons Session.initial 1 = (0, some Session.initial.buttoons)) ∧
      (tuxctl_ioctl mtcp_h ioctl_h Session.initial ioctl_h.TUX_BUTTONS 1 (fun _ => 0)).1 =
        Session.initial ∧
      (tuxctl_ioctl mtcp_h ioctl_h Session.initial ioctl_h.TUX_BUTTONS 1 (fun _ => 0)).2 =
        tux_buttons Session.initial 1) :=
  ⟨by decide, by decide,
    tux_buttons_null_iff mtcp_h ioctl_h Session.initial 1 (fun _ => 0) (by decide)⟩

end Tux

/-! ## Compositor objects, palette slots, scan order, ranking -/

namespace Photo

theorem horiz_copy_length (k : Consts) (outside : Int → Nat) (img : image_t) (yoff : Int) :
    ∀ (n : Nat) (idx imgx : Int) (buf : List Nat),
      (horiz_copy k outside img yoff n idx imgx buf).length = buf.length := by
  intro n
  induction n with
  | zero => intro idx imgx buf; rfl
  | succ n ih =>
    intro idx imgx buf
    simp only [horiz_copy]
    split_ifs <;> simp [ih]

/-- Position `j` of the buffer after the copy loop: the byte read for it when
the loop passes over `j` and the byte is not transparent, the old content
otherwise. -/
theorem horiz_copy_get (k : Consts) (outside : Int → Nat) (img : image_t) (yoff : Int)
    (j : Nat) (hj : j < k.SCROLL_X_DIM) :
    ∀ (n : Nat) (idx imgx : Int) (buf : List Nat),
      0 ≤ idx → (k.SCROLL_X_DIM - idx).toNat ≤ n → buf.length = k.SCROLL_X_DIM →
      (horiz_copy k outside img yoff n idx imgx buf)[j]? =
        if idx ≤ j ∧ imgx + (j - idx) < img.hdr.width ∧
            k.OBJ_CLR_TRANSP ≠ read_mem img.img outside (yoff + (imgx + (j - idx))) then
          some (read_mem img.img outside (yoff + (imgx + (j - idx))))
        else buf[j]? := by
  intro n
  induction n with
  | zero =>
    intro idx imgx buf h0 hn hl
    have : ¬ idx ≤ (j : Int) := by omega
    simp [horiz_copy, this]
  | succ n ih =>
    intro idx imgx buf h0 hn hl
    simp only [horiz_copy]
    by_cases hc : (k.SCROLL_X_DIM : Int) > idx ∧ (img.hdr.width : Int) > imgx
    · rw [if_pos hc]
      rw [ih (idx + 1) (imgx + 1) _ (by omega) (by omega)
        (by split_ifs <;> simp [hl])]
      have e : imgx + 1 + ((j : Int) - (idx + 1)) = imgx + (j - idx) := by ring
      rw [e]
      by_cases hji : (j : Int) = idx
      · have h1 : ¬ idx + 1 ≤ (j : Int) := by omega
        have h2 : idx ≤ (j : Int) := by omega
        have h3 : imgx + ((j : Int) - idx) = imgx := by omega
        have h4 : idx.toNat = j := by omega
        simp only [h1, false_and, if_false, h2, true_and, h3, hc.2, h4]
        by_cases ht : k.OBJ_CLR_TRANSP ≠ read_mem img.img outside (yoff + imgx)
        · simp [ht, List.getElem?_set, hl, hj]
        · simp [ht]
      · have hset : ∀ v, (buf.set idx.toNat v)[j]? = buf[j]? := by
          intro v
          rw [List.getElem?_set_ne]
          omega
        have hb : (if k.OBJ_CLR_TRANSP ≠ read_mem img.img outside (yoff + imgx) then
            buf.set idx.toNat (read_mem img.img outside (yoff + imgx)) else buf)[j]? = buf[j]? := by
          split_ifs
          · exact hset _
          · rfl
        rw [hb]
        have h5 : (idx + 1 ≤ (j : Int)) ↔ idx ≤ (j : Int) := by omega
        simp only [h5]
    · rw [if_neg hc]
      have : ¬ (idx ≤ (j : Int) ∧ imgx + ((j : Int) - idx) < img.hdr.width) := by
        intro ⟨h1, h2⟩
        apply hc
        constructor <;> omega
      have h' : ¬ (idx ≤ (j : Int) ∧ imgx + ((j : Int) - idx) < img.hdr.width ∧
          k.OBJ_CLR_TRANSP ≠ read_mem img.img outside (yoff + (imgx + (j - idx)))) :=
        fun h => this ⟨h.1, h.2.1⟩
      rw [if_neg h']


theorem image_index_bounds (W H : Nat) (dy t : Int) (hy0 : 0 ≤ dy) (hyH : dy < H)
    (ht0 : 0 ≤ t) (htW : t < W) :
    0 ≤ dy * W + t ∧ dy * W + t < ((W * H : Nat) : Int) := by
  have := row_index_bounds W H dy t hy0 hyH ht0 htW
  rwa [Int.mul_comm] at this

/-- One turn of the object loop does to position `j` what `horiz_pixel`
says. -/
theorem horiz_object_get (k : Consts) (outside : Int → Nat) (x y : Int) (buf : List Nat)
    (obj : object_t) (j : Nat) (hj : j < k.SCROLL_X_DIM) (hl : buf.length = k.SCROLL_X_DIM)
    (hwf : obj.image.img.length = obj.image.hdr.width * obj.image.hdr.height) :
    (horiz_object k outside x y buf obj)[j]? =
      match horiz_pixel k obj x y j with
      | some v => some v
      | none => buf[j]? := by
  unfold horiz_object horiz_pixel
  by_cases hskip : y < obj.y ∨ y ≥ obj.y + obj.image.hdr.height ∨
      x + k.SCROLL_X_DIM ≤ obj.x ∨ x ≥ obj.x + obj.image.hdr.width
  · have hcov : ¬ (obj.x ≤ x + j ∧ x + j < obj.x + obj.image.hdr.width ∧
        obj.y ≤ y ∧ y < obj.y + obj.image.hdr.height) := by
      intro ⟨h1, h2, h3, h4⟩
      rcases hskip with h | h | h | h <;> omega
    simp only [hskip, if_true, hcov, if_false]
  · simp only [hskip, if_false]
    have hy0 : 0 ≤ y - obj.y := by omega
    have hyH : y - obj.y < obj.image.hdr.height := by omega
    rw [horiz_copy_get k outside obj.image _ j hj _ _ _ buf (by split_ifs <;> omega)
      (le_refl _) hl]
    by_cases hcov : obj.x ≤ x + j ∧ x + j < obj.x + obj.image.hdr.width
    · have hcov4 : obj.x ≤ x + j ∧ x + j < obj.x + obj.image.hdr.width ∧
          obj.y ≤ y ∧ y < obj.y + obj.image.hdr.height := ⟨hcov.1, hcov.2, by omega, by omega⟩
      have hidx : (if x ≤ obj.x then obj.x - x else 0) ≤ (j : Int) := by split_ifs <;> omega
      have himg : (if x ≤ obj.x then (0 : Int) else x - obj.x) +
          ((j : Int) - (if x ≤ obj.x then obj.x - x else 0)) = x + j - obj.x := by
        split_ifs <;> omega
      have hb := image_index_bounds obj.image.hdr.width obj.image.hdr.height (y - obj.y)
        (x + j - obj.x) hy0 hyH (by omega) (by omega)
      rw [← hwf] at hb
      have hread := read_mem_inside obj.image.img outside _ hb.1 hb.2
      simp only [hidx, himg, hcov4, and_self, if_true, true_and]
      rw [← hread]
      have hlt : x + j - obj.x < obj.image.hdr.width := by omega
      simp only [hlt, true_and]
      by_cases ht : k.OBJ_CLR_TRANSP ≠
          read_mem obj.image.img outside ((y - obj.y) * obj.image.hdr.width + (x + j - obj.x))
      · simp [ht, Ne.symm ht]
      · have ht' : read_mem obj.image.img outside
            ((y - obj.y) * obj.image.hdr.width + (x + j - obj.x)) = k.OBJ_CLR_TRANSP := by
          simpa [eq_comm] using ht
        simp [ht']
    · have hcov4 : ¬ (obj.x ≤ x + j ∧ x + j < obj.x + obj.image.hdr.width ∧
          obj.y ≤ y ∧ y < obj.y + obj.image.hdr.height) := fun h => hcov ⟨h.1, h.2.1⟩
      have hno : ¬ ((if x ≤ obj.x then obj.x - x else 0) ≤ (j : Int) ∧
          (if x ≤ obj.x then (0 : Int) else x - obj.x) +
            ((j : Int) - (if x ≤ obj.x then obj.x - x else 0)) < obj.image.hdr.width ∧
          k.OBJ_CLR_TRANSP ≠ read_mem obj.image.img outside
            ((y - obj.y) * obj.image.hdr.width +
              ((if x ≤ obj.x then (0 : Int) else x - obj.x) +
                ((j : Int) - (if x ≤ obj.x then obj.x - x else 0))))) := by
        rintro ⟨h1, h2, -⟩
        apply hcov
        split_ifs at h1 h2 <;> constructor <;> omega
      rw [if_neg hno, if_neg hcov4]

theorem horiz_object_length (k : Consts) (outside : Int → Nat) (x y : Int) (buf : List Nat)
    (obj : object_t) : (horiz_object k outside x y buf obj).length = buf.length := by
  simp only [horiz_object]
  split_ifs <;> simp [horiz_copy_length]


theorem vert_copy_length (k : Consts) (outside : Int → Nat) (img : image_t) (xoff : Int) :
    ∀ (n : Nat) (idx imgy : Int) (buf : List Nat),
      (vert_copy k outside img xoff n idx imgy buf).length = buf.length := by
  intro n
  induction n with
  | zero => intro idx imgy buf; rfl
  | succ n ih =>
    intro idx imgy buf
    simp only [vert_copy]
    split_ifs <;> simp [ih]

/-- Position `j` of the buffer after the vertical copy loop. -/
theorem vert_copy_get (k : Consts) (outside : Int → Nat) (img : image_t) (xoff : Int)
    (j : Nat) (hj : j < k.SCROLL_Y_DIM) :
    ∀ (n : Nat) (idx imgy : Int) (buf : List Nat),
      0 ≤ idx → (k.SCROLL_Y_DIM - idx).toNat ≤ n → buf.length = k.SCROLL_Y_DIM →
      (vert_copy k outside img xoff n idx imgy buf)[j]? =
        if idx ≤ j ∧ imgy + (j - idx) < img.hdr.height ∧
            k.OBJ_CLR_TRANSP ≠
              read_mem img.img outside (xoff + img.hdr.width * (imgy + (j - idx))) then
          some (read_mem img.img outside (xoff + img.hdr.width * (imgy + (j - idx))))
        else buf[j]? := by
  intro n
  induction n with
  | zero =>
    intro idx imgy buf h0 hn hl
    have : ¬ idx ≤ (j : Int) := by omega
    simp [vert_copy, this]
  | succ n ih =>
    intro idx imgy buf h0 hn hl
    simp only [vert_copy]
    by_cases hc : (k.SCROLL_Y_DIM : Int) > idx ∧ (img.hdr.height : Int) > imgy
    · rw [if_pos hc]
      rw [ih (idx + 1) (imgy + 1) _ (by omega) (by omega)
        (by split_ifs <;> simp [hl])]
      have e : imgy + 1 + ((j : Int) - (idx + 1)) = imgy + (j - idx) := by ring
      rw [e]
      by_cases hji : (j : Int) = idx
      · have h1 : ¬ idx + 1 ≤ (j : Int) := by omega
        have h2 : idx ≤ (j : Int) := by omega
        have h3 : imgy + ((j : Int) - idx) = imgy := by omega
        have h4 : idx.toNat = j := by omega
        simp only [h1, false_and, if_false, h2, true_and, h3, hc.2, h4]
        by_cases ht : k.OBJ_CLR_TRANSP ≠ read_mem img.img outside (xoff + img.hdr.width * imgy)
        · simp [ht, List.getElem?_set, hl, hj]
        · simp [ht]
      · have hset : ∀ v, (buf.set idx.toNat v)[j]? = buf[j]? := by
          intro v
          rw [List.getElem?_set_ne]
          omega
        have hb : (if k.OBJ_CLR_TRANSP ≠
              read_mem img.img outside (xoff + img.hdr.width * imgy) then
            buf.set idx.toNat (read_mem img.img outside (xoff + img.hdr.width * imgy))
            else buf)[j]? = buf[j]? := by
          split_ifs
          · exact hset _
          · rfl
        rw [hb]
        have h5 : (idx + 1 ≤ (j : Int)) ↔ idx ≤ (j : Int) := by omega
        simp only [h5]
    · rw [if_neg hc]
      have h' : ¬ (idx ≤ (j : Int) ∧ imgy + ((j : Int) - idx) < img.hdr.height ∧
          k.OBJ_CLR_TRANSP ≠
            read_mem img.img outside (xoff + img.hdr.width * (imgy + (j - idx)))) := by
        rintro ⟨h1, h2, -⟩
        apply hc
        constructor <;> omega
      rw [if_neg h']

/-- One turn of the object loop of `fill_vert_buffer` does to position `j`
what `vert_pixel` says. -/
theorem vert_object_get (k : Consts) (outside : Int → Nat) (x y : Int) (buf : List Nat)
    (obj : object_t) (j : Nat) (hj : j < k.SCROLL_Y_DIM) (hl : buf.length = k.SCROLL_Y_DIM)
    (hwf : obj.image.img.length = obj.image.hdr.width * obj.image.hdr.height) :
    (vert_object k outside x y buf obj)[j]? =
      match vert_pixel k obj x y j with
      | some v => some v
      | none => buf[j]? := by
  unfold vert_object vert_pixel
  by_cases hskip : x < obj.x ∨ x ≥ obj.x + obj.image.hdr.width ∨
      y + k.SCROLL_Y_DIM ≤ obj.y ∨ y ≥ obj.y + obj.image.hdr.height
  · have hcov : ¬ (obj.x ≤ x ∧ x < obj.x + obj.image.hdr.width ∧
        obj.y ≤ y + j ∧ y + j < obj.y + obj.image.hdr.height) := by
      intro ⟨h1, h2, h3, h4⟩
      rcases hskip with h | h | h | h <;> omega
    simp only [hskip, if_true, hcov, if_false]
  · simp only [hskip, if_false]
    have hx0 : 0 ≤ x - obj.x := by omega
    have hxW : x - obj.x < obj.image.hdr.width := by omega
    rw [vert_copy_get k outside obj.image _ j hj _ _ _ buf (by split_ifs <;> omega)
      (le_refl _) hl]
    by_cases hcov : obj.y ≤ y + j ∧ y + j < obj.y + obj.image.hdr.height
    · have hcov4 : obj.x ≤ x ∧ x < obj.x + obj.image.hdr.width ∧
          obj.y ≤ y + j ∧ y + j < obj.y + obj.image.hdr.height :=
        ⟨by omega, by omega, hcov.1, hcov.2⟩
      have hidx : (if y ≤ obj.y then obj.y - y else 0) ≤ (j : Int) := by split_ifs <;> omega
      have himg : (if y ≤ obj.y then (0 : Int) else y - obj.y) +
          ((j : Int) - (if y ≤ obj.y then obj.y - y else 0)) = y + j - obj.y := by
        split_ifs <;> omega
      have hb := image_index_bounds obj.image.hdr.width obj.image.hdr.height (y + j - obj.y)
        (x - obj.x) (by omega) (by omega) hx0 hxW
      rw [← hwf] at hb
      have hread := read_mem_inside obj.image.img outside _ hb.1 hb.2
      have eidx : x - obj.x + (obj.image.hdr.width : Int) * (y + j - obj.y) =
          (y + j - obj.y) * obj.image.hdr.width + (x - obj.x) := by ring
      simp only [hidx, himg, hcov4, and_self, if_true, true_and, eidx]
      rw [← hread]
      have hlt : y + j - obj.y < obj.image.hdr.height := by omega
      simp only [hlt, true_and]
      by_cases ht : k.OBJ_CLR_TRANSP ≠
          read_mem obj.image.img outside ((y + j - obj.y) * obj.image.hdr.width + (x - obj.x))
      · simp [ht, Ne.symm ht]
      · have ht' : read_mem obj.image.img outside
            ((y + j - obj.y) * obj.image.hdr.width + (x - obj.x)) = k.OBJ_CLR_TRANSP := by
          simpa [eq_comm] using ht
        simp [ht']
    · have hcov4 : ¬ (obj.x ≤ x ∧ x < obj.x + obj.image.hdr.width ∧
          obj.y ≤ y + j ∧ y + j < obj.y + obj.image.hdr.height) :=
        fun h => hcov ⟨h.2.2.1, h.2.2.2⟩
      have hno : ¬ ((if y ≤ obj.y then obj.y - y else 0) ≤ (j : Int) ∧
          (if y ≤ obj.y then (0 : Int) else y - obj.y) +
            ((j : Int) - (if y ≤ obj.y then obj.y - y else 0)) < obj.image.hdr.height ∧
          k.OBJ_CLR_TRANSP ≠ read_mem obj.image.img outside
            (x - obj.x + obj.image.hdr.width *
              ((if y ≤ obj.y then (0 : Int) else y - obj.y) +
                ((j : Int) - (if y ≤ obj.y then obj.y - y else 0))))) := by
        rintro ⟨h1, h2, -⟩
        apply hcov
        split_ifs at h1 h2 <;> constructor <;> omega
      rw [if_neg hno, if_neg hcov4]

theorem vert_object_length (k : Consts) (outside : Int → Nat) (x y : Int) (buf : List Nat)
    (obj : object_t) : (vert_object k outside x y buf obj).length = buf.length := by
  simp only [vert_object]
  split_ifs <;> simp [vert_copy_length]


/-- A fold of paint steps over a list of objects: when the last object that
paints position `j` paints `v`, position `j` holds `v` at the end. -/
theorem foldl_paint_last {α : Type} (L j : Nat) (step : List Nat → α → List Nat)
    (paint : α → Option Nat) (ok : α → Prop)
    (hstep : ∀ buf o, ok o → buf.length = L →
      (step buf o).length = L ∧
        (step buf o)[j]? = match paint o with
          | some v => some v
          | none => buf[j]?) :
    ∀ (objs : List α) (buf : List Nat), (∀ o ∈ objs, ok o) → buf.length = L →
      ((objs.foldl step buf).length = L) ∧
      ((∀ o ∈ objs, paint o = none) → (objs.foldl step buf)[j]? = buf[j]?) ∧
      (∀ pre o2 post v, objs = pre ++ o2 :: post → paint o2 = some v →
        (∀ o ∈ post, paint o = none) → (objs.foldl step buf)[j]? = some v) := by
  intro objs
  induction objs with
  | nil =>
    intro buf _ hl
    refine ⟨hl, fun _ => rfl, fun pre o2 post v h => ?_⟩
    exact absurd h (by simp)
  | cons o rest ih =>
    intro buf hok hl
    obtain ⟨hl1, hget1⟩ := hstep buf o (hok o (List.mem_cons_self _ _)) hl
    obtain ⟨ihl, ihnone, ihlast⟩ := ih (step buf o)
      (fun o' ho' => hok o' (List.mem_cons_of_mem _ ho')) hl1
    refine ⟨ihl, fun hnone => ?_, fun pre o2 post v hsplit hv hpost => ?_⟩
    · rw [List.foldl_cons, ihnone (fun o' ho' => hnone o' (List.mem_cons_of_mem _ ho')), hget1,
        hnone o (List.mem_cons_self _ _)]
    · rw [List.foldl_cons]
      cases pre with
      | nil =>
        simp only [List.nil_append, List.cons.injEq] at hsplit
        obtain ⟨ho, hr⟩ := hsplit
        subst ho; subst hr
        rw [ihnone hpost, hget1, hv]
      | cons p pre' =>
        simp only [List.cons_append, List.cons.injEq] at hsplit
        exact ihlast pre' o2 post v hsplit.2 hv hpost

theorem fill_horiz_base_length (k : Consts) (view : photo_t) (outside : Int → Nat)
    (x y : Int) :
    (fill_horiz_buffer k { photo := view, contents := [] } outside x y).length =
      k.SCROLL_X_DIM := by
  simp [fill_horiz_buffer]

theorem fill_vert_base_length (k : Consts) (view : photo_t) (outside : Int → Nat)
    (x y : Int) :
    (fill_vert_buffer k { photo := view, contents := [] } outside x y).length =
      k.SCROLL_Y_DIM := by
  simp [fill_vert_buffer]

theorem fill_horiz_eq_foldl (k : Consts) (view : photo_t) (objs : List object_t)
    (outside : Int → Nat) (x y : Int) :
    fill_horiz_buffer k { photo := view, contents := objs } outside x y =
      objs.foldl (horiz_object k outside x y)
        (fill_horiz_buffer k { photo := view, contents := [] } outside x y) := rfl

theorem fill_vert_eq_foldl (k : Consts) (view : photo_t) (objs : List object_t)
    (outside : Int → Nat) (x y : Int) :
    fill_vert_buffer k { photo := view, contents := objs } outside x y =
      objs.foldl (vert_object k outside x y)
        (fill_vert_buffer k { photo := view, contents := [] } outside x y) := rfl

/-- The horizontal fill of a room: position `idx` shows the last object of
the list that contributes to it, and the base fill when none does. -/
theorem fill_horiz_objects (k : Consts) (view : photo_t) (objs : List object_t)
    (outside : Int → Nat) (x y : Int) (idx : Nat) (hidx : idx < k.SCROLL_X_DIM)
    (hwf : ∀ o ∈ objs, o.image.img.length = o.image.hdr.width * o.image.hdr.height) :
    ((∀ o ∈ objs, horiz_pixel k o x y idx = none) →
      (fill_horiz_buffer k { photo := view, contents := objs } outside x y)[idx]? =
        (fill_horiz_buffer k { photo := view, contents := [] } outside x y)[idx]?) ∧
    (∀ pre o2 post v, objs = pre ++ o2 :: post → horiz_pixel k o2 x y idx = some v →
      (∀ o ∈ post, horiz_pixel k o x y idx = none) →
      (fill_horiz_buffer k { photo := view, contents := objs } outside x y)[idx]? = some v) := by
  rw [fill_horiz_eq_foldl]
  exact (foldl_paint_last k.SCROLL_X_DIM idx (horiz_object k outside x y)
    (fun o => horiz_pixel k o x y idx)
    (fun o => o.image.img.length = o.image.hdr.width * o.image.hdr.height)
    (fun buf o ho hl => ⟨by rw [horiz_object_length]; exact hl,
      horiz_object_get k outside x y buf o idx hidx hl ho⟩)
    objs _ hwf (fill_horiz_base_length k view outside x y)).2

/-- The vertical fill of a room: position `idx` shows the last object of the
list that contributes to it, and the base fill when none does. -/
theorem fill_vert_objects (k : Consts) (view : photo_t) (objs : List object_t)
    (outside : Int → Nat) (x y : Int) (idx : Nat) (hidx : idx < k.SCROLL_Y_DIM)
    (hwf : ∀ o ∈ objs, o.image.img.length = o.image.hdr.width * o.image.hdr.height) :
    ((∀ o ∈ objs, vert_pixel k o x y idx = none) →
      (fill_vert_buffer k { photo := view, contents := objs } outside x y)[idx]? =
        (fill_vert_buffer k { photo := view, contents := [] } outside x y)[idx]?) ∧
    (∀ pre o2 post v, objs = pre ++ o2 :: post → vert_pixel k o2 x y idx = some v →
      (∀ o ∈ post, vert_pixel k o x y idx = none) →
      (fill_vert_buffer k { photo := view, contents := objs } outside x y)[idx]? = some v) := by
  rw [fill_vert_eq_foldl]
  exact (foldl_paint_last k.SCROLL_Y_DIM idx (vert_object k outside x y)
    (fun o => vert_pixel k o x y idx)
    (fun o => o.image.img.length = o.image.hdr.width * o.image.hdr.height)
    (fun buf o ho hl => ⟨by rw [vert_object_length]; exact hl,
      vert_object_get k outside x y buf o idx hidx hl ho⟩)
    objs _ hwf (fill_vert_base_length k view outside x y)).2

theorem horiz_copy_accesses_spec (k : Consts) (img : image_t) (yoff : Int) :
    ∀ (n : Nat) (idx imgx : Int), ∀ a ∈ horiz_copy_accesses k img yoff n idx imgx,
      idx ≤ a.1 ∧ a.1 < k.SCROLL_X_DIM ∧ imgx + (a.1 - idx) < img.hdr.width ∧
        a.2 = yoff + (imgx + (a.1 - idx)) := by
  intro n
  induction n with
  | zero => intro idx imgx a ha; simp [horiz_copy_accesses] at ha
  | succ n ih =>
    intro idx imgx a ha
    simp only [horiz_copy_accesses] at ha
    split_ifs at ha with hc
    · rcases List.mem_cons.1 ha with h | h
      · subst h
        exact ⟨le_refl _, hc.1, by simp only [sub_self, add_zero]; exact hc.2, by simp⟩
      · obtain ⟨h1, h2, h3, h4⟩ := ih (idx + 1) (imgx + 1) a h
        exact ⟨by omega, h2, by omega, by rw [h4]; ring⟩
    · simp at ha


/-- Later objects win, also over a pair: in a room whose object list is three
1 x 1 objects at `(0, 0)` with the opaque bytes 1, 2, 3, all three cover
position 0 of the scanline at `(0, 0)` and are opaque there, and
`fill_horiz_buffer` and `fill_vert_buffer` leave 3, the byte of the last
object, in `buf[0]`. -/
theorem painters_order_third_object :
    horiz_pixel consts_h (dot_object 1) 0 0 0 = some 1 ∧
    horiz_pixel consts_h (dot_object 2) 0 0 0 = some 2 ∧
    (fill_horiz_buffer consts_h
      { photo := dot_photo, contents := [dot_object 1, dot_object 2, dot_object 3] }
      (fun _ => 0) 0 0)[0]? = some 3 ∧
    (fill_horiz_buffer consts_h
      { photo := dot_photo, contents := [dot_object 1, dot_object 2, dot_object 3] }
      (fun _ => 0) 0 0)[0]? ≠ some 2 ∧
    vert_pixel consts_h (dot_object 1) 0 0 0 = some 1 ∧
    vert_pixel consts_h (dot_object 2) 0 0 0 = some 2 ∧
    (fill_vert_buffer consts_h
      { photo := dot_photo, contents := [dot_object 1, dot_object 2, dot_object 3] }
      (fun _ => 0) 0 0)[0]? = some 3 ∧
    (fill_vert_buffer consts_h
      { photo := dot_photo, contents := [dot_object 1, dot_object 2, dot_object 3] }
      (fun _ => 0) 0 0)[0]? ≠ some 2 := by
  have hh : (fill_horiz_buffer consts_h
      { photo := dot_photo, contents := [dot_object 1, dot_object 2, dot_object 3] }
      (fun _ => 0) 0 0)[0]? = some 3 :=
    (fill_horiz_objects consts_h dot_photo _ (fun _ => 0) 0 0 0 (by decide)
      (by decide)).2 [dot_object 1, dot_object 2] (dot_object 3) [] 3 rfl (by decide)
      (by simp)
  have hv : (fill_vert_buffer consts_h
      { photo := dot_photo, contents := [dot_object 1, dot_object 2, dot_object 3] }
      (fun _ => 0) 0 0)[0]? = some 3 :=
    (fill_vert_objects consts_h dot_photo _ (fun _ => 0) 0 0 0 (by decide)
      (by decide)).2 [dot_object 1, dot_object 2] (dot_object 3) [] 3 rfl (by decide)
      (by simp)
  exact ⟨by decide, by decide, hh, by rw [hh]; decide, by decide, by decide, hv,
    by rw [hv]; decide⟩

/-- C17: painter's order, later objects win.  In a room whose object list
contains O1 before O2 (images holding `ow * oh` bytes), at every scanline
position `idx` that both objects cover with an opaque pixel, O2 being the
last object of the list that is opaque there, `fill_horiz_buffer` and
`fill_vert_buffer` leave O2's pixel in `buf[idx]`. -/
theorem painters_order_last_cover (k : Consts) (view : photo_t)
    (pre mid post : List object_t) (O1 O2 : object_t) (outside : Int → Nat) (x y : Int)
    (hwf : ∀ o ∈ pre ++ O1 :: mid ++ O2 :: post,
      o.image.img.length = o.image.hdr.width * o.image.hdr.height) :
    (∀ idx v1 v2, idx < k.SCROLL_X_DIM →
      horiz_pixel k O1 x y idx = some v1 → horiz_pixel k O2 x y idx = some v2 →
      (∀ o ∈ post, horiz_pixel k o x y idx = none) →
      (fill_horiz_buffer k { photo := view, contents := pre ++ O1 :: mid ++ O2 :: post }
        outside x y)[idx]? = some v2) ∧
    (∀ idx v1 v2, idx < k.SCROLL_Y_DIM →
      vert_pixel k O1 x y idx = some v1 → vert_pixel k O2 x y idx = some v2 →
      (∀ o ∈ post, vert_pixel k o x y idx = none) →
      (fill_vert_buffer k { photo := view, contents := pre ++ O1 :: mid ++ O2 :: post }
        outside x y)[idx]? = some v2) := by
  constructor
  · intro idx v1 v2 hidx _ h2 hpost
    exact (fill_horiz_objects k view _ outside x y idx hidx hwf).2 (pre ++ O1 :: mid) O2 post v2
      rfl h2 hpost
  · intro idx v1 v2 hidx _ h2 hpost
    exact (fill_vert_objects k view _ outside x y idx hidx hwf).2 (pre ++ O1 :: mid) O2 post v2
      rfl h2 hpost

/-- C17 at the room with the two 1 x 1 objects of bytes 1 and 2. -/
theorem painters_order_last_cover_witness :
    (fill_horiz_buffer consts_h
      { photo := dot_photo, contents := [] ++ dot_object 1 :: [] ++ dot_object 2 :: [] }
      (fun _ => 0) 0 0)[0]? = some 2 ∧
    (fill_vert_buffer consts_h
      { photo := dot_photo, contents := [] ++ dot_object 1 :: [] ++ dot_object 2 :: [] }
      (fun _ => 0) 0 0)[0]? = some 2 :=
  ⟨(painters_order_last_cover consts_h dot_photo [] [] [] (dot_object 1) (dot_object 2)
      (fun _ => 0) 0 0 (by decide)).1 0 1 2 (by decide) (by decide) (by decide) (by simp),
   (painters_order_last_cover consts_h dot_photo [] [] [] (dot_object 1) (dot_object 2)
      (fun _ => 0) 0 0 (by decide)).2 0 1 2 (by decide) (by decide) (by decide) (by simp)⟩

/-- C18: for a room with exactly one object at `(obj_x, obj_y)` whose image
holds `ow * oh` bytes, and every `idx` below `SCROLL_X_DIM`: if
`obj_x <= x + idx < obj_x + ow`, `obj_y <= y < obj_y + oh` and the image byte
at `(y - obj_y) * ow + (x + idx - obj_x)` is not `OBJ_CLR_TRANSP`, then
`buf[idx]` is that byte; otherwise `buf[idx]` is the base fill value.  Every
turn of the copy loop uses a buffer index in `[0, SCROLL_X_DIM)` and an image
index in `[0, ow * oh)`. -/
theorem fill_horiz_one_object (k : Consts) (view : photo_t) (obj : object_t)
    (outside : Int → Nat) (x y : Int) (idx : Nat) (hidx : idx < k.SCROLL_X_DIM)
    (hwf : obj.image.img.length = obj.image.hdr.width * obj.image.hdr.height) :
    (fill_horiz_buffer k { photo := view, contents := [obj] } outside x y)[idx]? =
      (if obj.x ≤ x + idx ∧ x + idx < obj.x + obj.image.hdr.width ∧
          obj.y ≤ y ∧ y < obj.y + obj.image.hdr.height ∧
          (∃ b, obj.image.img[((y - obj.y) * obj.image.hdr.width +
            (x + idx - obj.x)).toNat]? = some b ∧ b ≠ k.OBJ_CLR_TRANSP) then
        obj.image.img[((y - obj.y) * obj.image.hdr.width + (x + idx - obj.x)).toNat]?
      else (fill_horiz_buffer k { photo := view, contents := [] } outside x y)[idx]?) ∧
    (∀ a ∈ horiz_object_accesses k x y obj,
      0 ≤ a.1 ∧ a.1 < k.SCROLL_X_DIM ∧
        0 ≤ a.2 ∧ a.2 < ((obj.image.hdr.width * obj.image.hdr.height : Nat) : Int)) := by
  constructor
  · have hobj := fill_horiz_objects k view [obj] outside x y idx hidx
      (by intro o ho; rw [List.mem_singleton.1 ho]; exact hwf)
    cases hp : horiz_pixel k obj x y idx with
    | none =>
      rw [hobj.1 (by intro o ho; rw [List.mem_singleton.1 ho]; exact hp)]
      rw [if_neg]
      rintro ⟨h1, h2, h3, h4, b, hb, hbt⟩
      simp only [horiz_pixel, h1, h2, h3, h4, and_self, if_true, hb, hbt, ne_eq,
        not_false_eq_true] at hp
      exact Option.noConfusion hp
    | some v =>
      rw [hobj.2 [] obj [] v rfl hp (by simp)]
      unfold horiz_pixel at hp
      split_ifs at hp with hc
      split at hp
      · rename_i b hb
        split_ifs at hp with hbt
        have hv : b = v := Option.some.inj hp
        subst hv
        rw [if_pos ⟨hc.1, hc.2.1, hc.2.2.1, hc.2.2.2, b, hb, hbt⟩, hb]
      · exact absurd hp (by simp)
  · intro a ha
    simp only [horiz_object_accesses] at ha
    by_cases hskip : y < obj.y ∨ y ≥ obj.y + obj.image.hdr.height ∨
        x + k.SCROLL_X_DIM ≤ obj.x ∨ x ≥ obj.x + obj.image.hdr.width
    · rw [if_pos hskip] at ha
      simp at ha
    · rw [if_neg hskip] at ha
      obtain ⟨h1, h2, h3, h4⟩ := horiz_copy_accesses_spec k obj.image _ _ _ _ a ha
      have hx : (if x ≤ obj.x then (0 : Int) else x - obj.x) ≥ 0 := by split_ifs <;> omega
      have hi : (if x ≤ obj.x then obj.x - x else (0 : Int)) ≥ 0 := by split_ifs <;> omega
      have hb := image_index_bounds obj.image.hdr.width obj.image.hdr.height (y - obj.y)
        ((if x ≤ obj.x then (0 : Int) else x - obj.x) +
          (a.1 - (if x ≤ obj.x then obj.x - x else 0))) (by omega) (by omega) (by omega) h3
      rw [h4]
      exact ⟨by omega, h2, hb.1, hb.2⟩

/-- C18 at a 2 x 1 object `[OBJ_CLR_TRANSP, 7]` placed at `(1, 0)` over the
1 x 1 photo, scanline at `(0, 0)`, position 2: the opaque byte 7 shows. -/
theorem fill_horiz_one_object_witness :
    (fill_horiz_buffer consts_h
      { photo := dot_photo,
        contents := [{ x := 1, y := 0,
                       image := { hdr := { width := 2, height := 1 }, img := [0x40, 7] } }] }
      (fun _ => 0) 0 0)[(2 : Nat)]? = some 7 ∧
    (∀ a ∈ horiz_object_accesses consts_h 0 0
        { x := 1, y := 0, image := { hdr := { width := 2, height := 1 }, img := [0x40, 7] } },
      0 ≤ a.1 ∧ a.1 < 320 ∧ 0 ≤ a.2 ∧ a.2 < 2) :=
  fill_horiz_one_object consts_h dot_photo
    { x := 1, y := 0, image := { hdr := { width := 2, height := 1 }, img := [0x40, 7] } }
    (fun _ => 0) 0 0 2 (by decide) (by decide)


theorem tally_succ (body : List Nat) (sel : Nat → Bool) (val : Nat → Int) (m : Nat) :
    tally body sel val (m + 1) =
      tally body sel val m + (if sel (pixel_at body m) then val (pixel_at body m) else 0) := rfl

theorem tally_nonneg (body : List Nat) (sel : Nat → Bool) (val : Nat → Int)
    (hval : ∀ p, 0 ≤ val p) : ∀ m, 0 ≤ tally body sel val m := by
  intro m
  induction m with
  | zero => exact le_refl _
  | succ m ih =>
    rw [tally_succ]
    split_ifs
    · have := hval (pixel_at body m); omega
    · omega

theorem tally_mono (body : List Nat) (sel : Nat → Bool) (val : Nat → Int)
    (hval : ∀ p, 0 ≤ val p) (m n : Nat) (h : m ≤ n) :
    tally body sel val m ≤ tally body sel val n := by
  induction n with
  | zero =>
    have : m = 0 := by omega
    rw [this]
  | succ n ih =>
    rcases Nat.eq_or_lt_of_le h with h1 | h1
    · rw [h1]
    · have := ih (by omega)
      rw [tally_succ]
      split_ifs
      · have := hval (pixel_at body n); omega
      · omega

/-- A selected pixel among the first `m` makes the count at least 1. -/
theorem tally_count_pos (body : List Nat) (sel : Nat → Bool) (m j : Nat) (hj : j < m)
    (hs : sel (pixel_at body j) = true) : 1 ≤ tally body sel (fun _ => 1) m := by
  have h1 : tally body sel (fun _ => 1) (j + 1) ≤ tally body sel (fun _ => 1) m :=
    tally_mono body sel _ (fun _ => (by decide : (0 : Int) ≤ 1)) _ _ hj
  have h2 := tally_nonneg body sel (fun _ => (1 : Int)) (fun _ => (by decide : (0 : Int) ≤ 1)) j
  rw [tally_succ, if_pos hs] at h1
  omega

/-- Splitting a tally by a second test. -/
theorem tally_split (body : List Nat) (sel q : Nat → Bool) (val : Nat → Int) :
    ∀ m, tally body sel val m =
      tally body (fun p => sel p && q p) val m + tally body (fun p => sel p && !q p) val m := by
  intro m
  induction m with
  | zero => rfl
  | succ m ih =>
    simp only [tally_succ, ih]
    cases sel (pixel_at body m) <;> cases q (pixel_at body m) <;> simp <;> omega

/-- A tally over pixels that are all selected out is zero. -/
theorem tally_eq_zero (body : List Nat) (sel : Nat → Bool) (val : Nat → Int) (m : Nat)
    (h : ∀ j, j < m → sel (pixel_at body j) = false) : tally body sel val m = 0 := by
  induction m with
  | zero => rfl
  | succ m ih =>
    rw [tally_succ, ih (fun j hj => h j (by omega)), h m (by omega)]
    simp

/-- A tally over pixels that are all selected and all equal. -/
theorem tally_uniform (body : List Nat) (sel : Nat → Bool) (val : Nat → Int) (C : Nat)
    (m : Nat) (h : ∀ j, j < m → pixel_at body j = C) (hs : sel C = true) :
    tally body sel val m = m * val C := by
  induction m with
  | zero => simp [tally]
  | succ m ih =>
    rw [tally_succ, ih (fun j hj => h j (by omega)), h m (by omega), if_pos hs]
    push_cast
    ring

theorem accumulate_tally (bins : List octree_arr_t) (body : List Nat) (key : Nat → Nat)
    (m : Nat) (hlen : key (pixel_at body m) < bins.length) (h : BinsTally bins body key m) :
    BinsTally
      (accumulate bins (key (pixel_at body m)) (red1 (pixel_at body m))
        (green_of (pixel_at body m)) (blue_of (pixel_at body m))) body key (m + 1) := by
  intro g
  obtain ⟨h1, h2, h3, h4⟩ := h g
  simp only [accumulate_getD, tally_succ]
  by_cases hg : key (pixel_at body m) = g
  · subst hg
    simp only [hlen, and_self, if_true, beq_self_eq_true, h1, h2, h3, h4]
  · have hb : (key (pixel_at body m) == g) = false := by simpa using hg
    simp only [hg, false_and, if_false, hb, Bool.false_eq_true, add_zero, h1, h2, h3, h4]
    exact ⟨trivial, trivial, trivial, trivial⟩

theorem binsTally_replicate (n : Nat) (body : List Nat) (key : Nat → Nat) :
    BinsTally (List.replicate n octree_zero) body key 0 := by
  intro g
  have : (List.replicate n octree_zero).getD g octree_zero = octree_zero := by
    simp only [List.getD_eq_getElem?_getD, List.getElem?_replicate]
    split <;> rfl
  rw [this]
  exact ⟨rfl, rfl, rfl, rfl⟩

/-- After pass 1 both arrays hold the sums and counts of all pixels read. -/
theorem pass1_tally (W H : Nat) (body : List Nat) (hlen : H * W ≤ body.length) :
    ∃ l2 l4, pass1 W H body = some (body.drop (H * W), l2, l4) ∧ l2.length = 64 ∧
      BinsTally l2 body coarse_index (H * W) ∧ BinsTally l4 body fine_index (H * W) := by
  obtain ⟨s1, hs1, hI⟩ := loop_rows_inv W H pass1_body body
    (fun m s => s.1.length = 64 ∧ s.2.length = 4096 ∧
      BinsTally s.1 body coarse_index m ∧ BinsTally s.2 body fine_index m)
    hlen
    (by
      intro r c _ _ t ht
      obtain ⟨hl2, hl4, ht2, ht4⟩ := ht
      refine ⟨by simp only [pass1_body, accumulate_length]; exact hl2,
        by simp only [pass1_body, accumulate_length]; exact hl4, ?_, ?_⟩
      · exact accumulate_tally t.1 body coarse_index _
          (by rw [hl2]; exact coarse_index_lt _) ht2
      · exact accumulate_tally t.2 body fine_index _
          (by rw [hl4]; exact fine_index_lt _) ht4)
    H (List.replicate 64 octree_zero, List.replicate 4096 octree_zero) (le_refl H)
    (by
      simp only [Nat.sub_self, Nat.zero_mul]
      exact ⟨List.length_replicate _ _, List.length_replicate _ _,
        binsTally_replicate _ _ _, binsTally_replicate _ _ _⟩)
  simp only [Nat.sub_self, Nat.zero_mul, List.drop_zero] at hs1
  exact ⟨s1.1, s1.2, hs1, hI.1, hI.2.2.1, hI.2.2.2⟩


theorem subtract_getD (l : List octree_arr_t) (i r g b j : Nat) :
    (subtract l i r g b).getD j octree_zero =
      if i = j ∧ i < l.length then
        { red := (l.getD i octree_zero).red - r, green := (l.getD i octree_zero).green - g,
          blue := (l.getD i octree_zero).blue - b, index := (l.getD i octree_zero).index,
          counter := (l.getD i octree_zero).counter - 1 }
      else l.getD j octree_zero := by
  simp only [subtract, getD_set]

theorem subtract_length (l : List octree_arr_t) (i r g b : Nat) :
    (subtract l i r g b).length = l.length := by
  simp [subtract]

/-- The coarse array after the body of pass 2 has handled one pixel. -/
theorem pass2_body_level_two (W : Nat) (l4 : List octree_arr_t) (y x px : Nat)
    (hpx : px < 65536) (s : List octree_arr_t × List Nat) :
    (pass2_body W l4 y x px s).1 =
      if fine_mapped l4 px then
        subtract s.1 (coarse_index px) (red1 px) (green_of px) (blue_of px)
      else s.1 := by
  simp only [pass2_body, fine_mapped, red2_eq_red1 px hpx, fine_index, coarse_index]
  cases search l4 (four_index_of (red1 px) (green_of px) (blue_of px)) 128 0 <;> simp

theorem residual_step (bins : List octree_arr_t) (body : List Nat) (l4 : List octree_arr_t)
    (n m : Nat) (hlen : bins.length = 64) (h : Residual bins body l4 n m) :
    Residual
      (if fine_mapped l4 (pixel_at body m) then
        subtract bins (coarse_index (pixel_at body m)) (red1 (pixel_at body m))
          (green_of (pixel_at body m)) (blue_of (pixel_at body m))
      else bins) body l4 n (m + 1) := by
  intro c
  obtain ⟨h1, h2, h3, h4⟩ := h c
  have hc := coarse_index_lt (pixel_at body m)
  by_cases hf : fine_mapped l4 (pixel_at body m) = true
  · simp only [hf, if_true, subtract_getD, tally_succ, Bool.and_true]
    by_cases hg : coarse_index (pixel_at body m) = c
    · subst hg
      have hl : coarse_index (pixel_at body m) < bins.length := by omega
      simp only [hl, and_self, if_true, beq_self_eq_true, h1, h2, h3, h4]
      refine ⟨?_, ?_, ?_, ?_⟩ <;> omega
    · have hb : (coarse_index (pixel_at body m) == c) = false := by simpa using hg
      simp only [hg, false_and, if_false, hb, Bool.false_eq_true, add_zero, h1, h2, h3, h4]
      exact ⟨trivial, trivial, trivial, trivial⟩
  · have hf' : fine_mapped l4 (pixel_at body m) = false := by simpa using hf
    simp only [hf', Bool.false_eq_true, if_false, tally_succ, Bool.and_false, add_zero,
      h1, h2, h3, h4]
    exact ⟨trivial, trivial, trivial, trivial⟩

/-- After pass 2 the coarse array holds the sums and counts of the pixels
that were not mapped to a fine slot. -/
theorem pass2_residual (W H : Nat) (l4 : List octree_arr_t) (body : List Nat)
    (hlen : H * W ≤ body.length) (l2 : List octree_arr_t) (img0 : List Nat)
    (hl2 : l2.length = 64) (h2 : BinsTally l2 body coarse_index (H * W)) :
    ∃ l2' img, loop_rows W (pass2_body W l4) H body (l2, img0) =
        some (body.drop (H * W), l2', img) ∧ l2'.length = 64 ∧
      Residual l2' body l4 (H * W) (H * W) := by
  obtain ⟨s1, hs1, hI⟩ := loop_rows_inv W H (pass2_body W l4) body
    (fun m s => s.1.length = 64 ∧ Residual s.1 body l4 (H * W) m)
    hlen
    (by
      intro r c _ _ t ht
      rw [pass2_body_level_two W l4 _ _ _ (pixel_at_lt _ _)]
      refine ⟨?_, residual_step t.1 body l4 _ _ ht.1 ht.2⟩
      split_ifs
      · rw [subtract_length]; exact ht.1
      · exact ht.1)
    H (l2, img0) (le_refl H)
    (by
      simp only [Nat.sub_self, Nat.zero_mul]
      refine ⟨hl2, fun c => ?_⟩
      obtain ⟨h1, h2, h3, h4⟩ := h2 c
      simp only [tally, sub_zero]
      exact ⟨h1, h2, h3, h4⟩)
  simp only [Nat.sub_self, Nat.zero_mul, List.drop_zero] at hs1
  exact ⟨s1.1, s1.2, hs1, hI.1, hI.2⟩

theorem palette_entry_length (pal : List (Nat × Nat × Nat)) (slot : Nat) (b : octree_arr_t) :
    (palette_entry pal slot b).length = pal.length := by
  unfold palette_entry
  split_ifs <;> simp

theorem palette_entry_get (pal : List (Nat × Nat × Nat)) (slot : Nat) (b : octree_arr_t)
    (j : Nat) :
    (palette_entry pal slot b)[j]? =
      if slot = j ∧ b.counter ≠ 0 ∧ j < pal.length then some (palette_triple b)
      else pal[j]? := by
  unfold palette_entry palette_triple
  by_cases hc : b.counter ≠ 0
  · rw [if_pos hc, List.getElem?_set]
    by_cases hs : slot = j
    · subst hs
      by_cases hl : slot < pal.length
      · simp [hc, hl]
      · simp [hl, List.getElem?_eq_none (Nat.le_of_not_lt hl)]
    · simp [hs]
  · rw [if_neg hc]
    simp [hc]

/-- A palette loop over `n` bins with slot offset `off`. -/
theorem palette_loop_get (bins : List octree_arr_t) (off : Nat) :
    ∀ (n : Nat) (pal : List (Nat × Nat × Nat)) (j : Nat),
      ((List.range n).foldl
          (fun pal i => palette_entry pal (i + off) (bins.getD i octree_zero)) pal).length =
        pal.length ∧
      ((List.range n).foldl
          (fun pal i => palette_entry pal (i + off) (bins.getD i octree_zero)) pal)[j]? =
        if off ≤ j ∧ j < off + n ∧ (bins.getD (j - off) octree_zero).counter ≠ 0 ∧
            j < pal.length then
          some (palette_triple (bins.getD (j - off) octree_zero))
        else pal[j]? := by
  intro n
  induction n with
  | zero =>
    intro pal j
    refine ⟨rfl, ?_⟩
    have : ¬ (off ≤ j ∧ j < off + 0 ∧ (bins.getD (j - off) octree_zero).counter ≠ 0 ∧
        j < pal.length) := by
      rintro ⟨h1, h2, -⟩; omega
    rw [if_neg this]; rfl
  | succ n ih =>
    intro pal j
    rw [List.range_succ, List.foldl_append]
    simp only [List.foldl_cons, List.foldl_nil]
    obtain ⟨ihl, ihg⟩ := ih pal j
    refine ⟨by rw [palette_entry_length, ihl], ?_⟩
    rw [palette_entry_get, ihl, ihg]
    by_cases hj : n + off = j
    · subst hj
      have e : n + off - off = n := by omega
      rw [e]
      have hin : ¬ (off ≤ n + off ∧ n + off < off + n ∧
          (bins.getD n octree_zero).counter ≠ 0 ∧ n + off < pal.length) := by
        rintro ⟨-, h, -⟩; omega
      rw [if_neg hin]
      by_cases hc : (bins.getD n octree_zero).counter ≠ 0 ∧ n + off < pal.length
      · rw [if_pos ⟨rfl, hc.1, hc.2⟩, if_pos ⟨by omega, by omega, hc.1, hc.2⟩]
      · rw [if_neg (fun h => hc ⟨h.2.1, h.2.2⟩), if_neg (fun h => hc ⟨h.2.2.1, h.2.2.2⟩)]
    · simp only [hj, false_and, if_false]
      by_cases hcond : off ≤ j ∧ j < off + n ∧
          (bins.getD (j - off) octree_zero).counter ≠ 0 ∧ j < pal.length
      · rw [if_pos hcond, if_pos ⟨hcond.1, by omega, hcond.2.2.1, hcond.2.2.2⟩]
      · rw [if_neg hcond, if_neg]
        rintro ⟨h1, h2, h3, h4⟩
        exact hcond ⟨h1, by omega, h3, h4⟩

/-- The palette after both loops: slot `i < 128` holds the triple of fine
bin `i`, slot `128 + c` with `c < 64` the triple of coarse bin `c`, whenever
the bin's counter is not zero. -/
theorem fill_palette_get (l2 l4 : List octree_arr_t) (pal : List (Nat × Nat × Nat))
    (hpal : pal.length = 192) :
    (∀ i, i < 128 → (l4.getD i octree_zero).counter ≠ 0 →
      (fill_palette l2 l4 pal)[i]? = some (palette_triple (l4.getD i octree_zero))) ∧
    (∀ c, c < 64 → (l2.getD c octree_zero).counter ≠ 0 →
      (fill_palette l2 l4 pal)[128 + c]? = some (palette_triple (l2.getD c octree_zero))) := by
  have h1 := palette_loop_get l4 0 128 pal
  have h2 := palette_loop_get l2 128 64
    ((List.range 128).foldl (fun pal i => palette_entry pal i (l4.getD i octree_zero)) pal)
  simp only [Nat.add_zero] at h1
  constructor
  · intro i hi hc
    have := (h2 i).2
    simp only [fill_palette]
    rw [this, if_neg (by rintro ⟨h, -⟩; omega), (h1 i).2]
    rw [if_pos ⟨Nat.zero_le _, by omega, by simpa using hc, by omega⟩]
    simp
  · intro c hc hcount
    have := (h2 (128 + c)).2
    simp only [fill_palette]
    rw [this, if_pos ⟨by omega, by omega, by simpa using hcount, by rw [(h1 0).1]; omega⟩]
    simp


/-- Everything the later theorems use about an accepted file, in one place:
the arrays after pass 1, the coarse array and the image after pass 2, and the
photo returned. -/
theorem read_photo_spec (k : Consts) (qsort : List octree_arr_t → List octree_arr_t)
    (sys : Sys) (W H : Nat) (body : List Nat)
    (hfile : sys.file = some (W :: H :: body))
    (hmp : sys.malloc_photo = true) (hmi : sys.malloc_img = true)
    (hW16 : W < 65536) (hH16 : H < 65536)
    (hW : W ≤ k.MAX_PHOTO_WIDTH) (hH : H ≤ k.MAX_PHOTO_HEIGHT)
    (hlen : H * W ≤ body.length) :
    ∃ l2 l4 l2' p,
      pass1 W H body = some (body.drop (H * W), l2, l4) ∧
      FineBinsOk l4 ∧
      (∀ j, j < H * W → Populated l4 (fine_index (pixel_at body j))) ∧
      BinsTally l4 body fine_index (H * W) ∧
      loop_rows W (pass2_body W (qsort l4)) H body
          (l2, (List.range (W * H)).map sys.img_junk) =
        some (body.drop (H * W), l2', p.img) ∧
      l2'.length = 64 ∧
      Residual l2' body (qsort l4) (H * W) (H * W) ∧
      (read_photo k qsort sys).ret = some p ∧
      p.hdr = { width := W, height := H } ∧
      p.palette = fill_palette l2' (qsort l4) ((List.range 192).map sys.palette_junk) ∧
      p.img.length = W * H ∧
      ∀ r c, r < H → c < W →
        p.img[W * (H - 1 - r) + c]? = some (emit (qsort l4) (pixel_at body (r * W + c))) := by
  obtain ⟨l2, l4, h1, hok, hpop⟩ := pass1_spec W H body hlen
  obtain ⟨l2a, l4a, h1a, hl2, ht2, ht4⟩ := pass1_tally W H body hlen
  rw [h1] at h1a
  have e2 : l2a = l2 := by
    have := Option.some.inj h1a; simp only [Prod.mk.injEq] at this; exact this.2.1.symm
  have e4 : l4a = l4 := by
    have := Option.some.inj h1a; simp only [Prod.mk.injEq] at this; exact this.2.2.symm
  subst e2; subst e4
  obtain ⟨l2', img, h2, hl, himg⟩ := pass2_spec W H (qsort l4a) body hlen l2a
    ((List.range (W * H)).map sys.img_junk) (by simp)
  obtain ⟨l2b, imgb, h2b, hl2', hres⟩ := pass2_residual W H (qsort l4a) body hlen l2a
    ((List.range (W * H)).map sys.img_junk) hl2 ht2
  rw [h2] at h2b
  have e2' : l2b = l2' := by
    have := Option.some.inj h2b; simp only [Prod.mk.injEq] at this; exact this.2.1.symm
  subst e2'
  refine ⟨l2a, l4a, l2b,
    { hdr := { width := W, height := H },
      palette := fill_palette l2b (qsort l4a) ((List.range 192).map sys.palette_junk),
      img := img }, h1, hok, hpop, ht4, h2, hl2', hres, ?_, rfl, rfl, hl, himg⟩
  have e1 : W % 65536 = W := Nat.mod_eq_of_lt hW16
  have e2 : H % 65536 = H := Nat.mod_eq_of_lt hH16
  have hb : ¬ (k.MAX_PHOTO_WIDTH < W ∨ k.MAX_PHOTO_HEIGHT < H) := by omega
  simp only [read_photo, hfile, hmp, hmi, e1, e2, hb, if_false, h1, h2, Bool.true_eq_false]

/-- The row and column loops visit the pixels in the order `scan_fold`
spells out. -/
theorem loop_rows_eq_scan_fold {σ : Type} (W H : Nat) (f : Nat → Nat → Nat → σ → σ)
    (body : List Nat) (s : σ) (hlen : H * W ≤ body.length) :
    loop_rows W f H body s = some (body.drop (H * W), scan_fold W H body f s) := by
  obtain ⟨s1, hs1, hI⟩ := loop_rows_inv W H f body
    (fun m t => t = (List.range m).foldl
      (fun t n => f (H - 1 - n / W) (n % W) (pixel_at body n) t) s)
    hlen
    (by
      intro r c hr hc t ht
      have hW : 0 < W := by omega
      have hdiv : (r * W + c) / W = r := by
        rw [Nat.mul_comm, Nat.mul_add_div hW, Nat.div_eq_of_lt hc, Nat.add_zero]
      have hmod : (r * W + c) % W = c := by
        rw [Nat.mul_comm, Nat.mul_add_mod, Nat.mod_eq_of_lt hc]
      rw [List.range_succ, List.foldl_append, ← ht]
      simp only [List.foldl_cons, List.foldl_nil, hdiv, hmod])
    H s (le_refl H)
    (by simp only [Nat.sub_self, Nat.zero_mul, List.range_zero, List.foldl_nil])
  simp only [Nat.sub_self, Nat.zero_mul, List.drop_zero] at hs1
  rw [hs1, hI]
  rfl


/-- The bin of a fine index has a rank in the sorted array. -/
theorem exists_rank (l4 sorted : List octree_arr_t) (hok : FineBinsOk l4)
    (hperm : sorted.Perm l4) (f : Nat) (hf : f < 4096) :
    ∃ i : Nat, sorted[i]? = some (l4.getD f octree_zero) := by
  have hlt : f < l4.length := by rw [hok.1]; exact hf
  have hmem : l4.getD f octree_zero ∈ sorted := by
    apply hperm.symm.subset
    rw [List.getD_eq_getElem?_getD, List.getElem?_eq_getElem hlt, Option.getD_some]
    exact List.getElem_mem _
  obtain ⟨i, hi, hie⟩ := List.getElem_of_mem hmem
  exact ⟨i, by rw [List.getElem?_eq_getElem hi, hie]⟩

theorem index_lt_of_range (W H r c : Nat) (hr : r < H) (hc : c < W) : r * W + c < H * W := by
  have : (r + 1) * W ≤ H * W := Nat.mul_le_mul_right W (by omega)
  rw [Nat.add_mul, Nat.one_mul] at this
  omega

theorem not_fine_mapped_of_emit (sorted : List octree_arr_t) (px : Nat) (hpx : px < 65536)
    (h : 192 ≤ emit sorted px) : fine_mapped sorted px = false := by
  rw [emit_eq sorted px hpx] at h
  unfold fine_mapped
  cases hs : search sorted (fine_index px) 128 0 with
  | none => rfl
  | some i =>
    rw [hs] at h
    obtain ⟨-, h2, -, -⟩ := search_some _ _ _ _ _ hs
    have h' : 192 ≤ (i + 64) % 256 := h
    rw [Nat.mod_eq_of_lt (by omega)] at h'
    omega

/-- C13: for a photo file that `read_photo` accepts and a `qsort` that meets
its contract, no pixel byte refers to a palette slot that was left unwritten.
If the byte of a pixel is `i + 64` with `i < 128`, the fine bin at rank `i` of
the sorted array has a positive counter and `palette[i]` holds the triple
computed from that bin; if the byte is `c + 192` with `c < 64`, coarse bin `c`
has a counter of at least 1 after pass 2 and `palette[128 + c]` holds the
triple computed from it.  Pixels of fine index 0 are included. -/
theorem emitted_slots_are_assigned (k : Consts)
    (qsort : List octree_arr_t → List octree_arr_t)
    (sys : Sys) (W H : Nat) (body : List Nat)
    (hq : IsQsort qsort)
    (hfile : sys.file = some (W :: H :: body))
    (hmp : sys.malloc_photo = true) (hmi : sys.malloc_img = true)
    (hW16 : W < 65536) (hH16 : H < 65536)
    (hW : W ≤ k.MAX_PHOTO_WIDTH) (hH : H ≤ k.MAX_PHOTO_HEIGHT)
    (hlen : H * W ≤ body.length) :
    ∃ l2 l4 l2' p,
      pass1 W H body = some (body.drop (H * W), l2, l4) ∧
      loop_rows W (pass2_body W (qsort l4)) H body
          (l2, (List.range (W * H)).map sys.img_junk) =
        some (body.drop (H * W), l2', p.img) ∧
      (read_photo k qsort sys).ret = some p ∧
      ∀ r c, r < H → c < W →
        (∀ i, i < 128 → p.img[W * (H - 1 - r) + c]? = some (i + 64) →
          0 < ((qsort l4).getD i octree_zero).counter ∧
          p.palette[i]? = some (palette_triple ((qsort l4).getD i octree_zero))) ∧
        (∀ c', c' < 64 → p.img[W * (H - 1 - r) + c]? = some (c' + 192) →
          1 ≤ (l2'.getD c' octree_zero).counter ∧
          p.palette[128 + c']? = some (palette_triple (l2'.getD c' octree_zero))) := by
  obtain ⟨l2, l4, l2', p, h1, hok, hpop, -, h2, hl2', hres, hret, -, hpal, -, himg⟩ :=
    read_photo_spec k qsort sys W H body hfile hmp hmi hW16 hH16 hW hH hlen
  obtain ⟨hperm, hsorted⟩ := hq l4
  have hfp := fill_palette_get l2' (qsort l4) ((List.range 192).map sys.palette_junk)
    (by simp)
  rw [← hpal] at hfp
  refine ⟨l2, l4, l2', p, h1, h2, hret, fun r c hr hc => ?_⟩
  have hn := index_lt_of_range W H r c hr hc
  have hpx := pixel_at_lt body (r * W + c)
  obtain ⟨r0, hr0⟩ := exists_rank l4 (qsort l4) hok hperm _
    (fine_index_lt (pixel_at body (r * W + c)))
  have he := emit_of_rank l4 (qsort l4) hok hperm hsorted _ hpx (hpop _ hn) r0 hr0
  have hcl := coarse_index_lt (pixel_at body (r * W + c))
  rw [himg r c hr hc]
  constructor
  · intro i hi hb
    have hb' : emit (qsort l4) (pixel_at body (r * W + c)) = i + 64 := Option.some.inj hb
    have hri : r0 = i := by
      rcases Nat.lt_or_ge r0 128 with h | h
      · have := he.1 h; omega
      · have := he.2 h; omega
    subst hri
    have hcount : 0 < ((qsort l4).getD r0 octree_zero).counter := by
      rw [getD_of_getElem_some _ _ _ hr0]; exact (hpop _ hn).2
    exact ⟨hcount, hfp.1 r0 hi (ne_of_gt hcount)⟩
  · intro c' hc' hb
    have hb' : emit (qsort l4) (pixel_at body (r * W + c)) = c' + 192 := Option.some.inj hb
    have hcc : coarse_index (pixel_at body (r * W + c)) = c' := by
      rcases Nat.lt_or_ge r0 128 with h | h
      · have := he.1 h; omega
      · have := he.2 h; omega
    have hnf := not_fine_mapped_of_emit (qsort l4) _ hpx (by omega)
    have hcount : 1 ≤ (l2'.getD c' octree_zero).counter := by
      rw [(hres c').2.2.2,
        tally_split body (fun p => coarse_index p == c') (fine_mapped (qsort l4))
          (fun _ => 1) (H * W)]
      have := tally_count_pos body
        (fun p => coarse_index p == c' && !fine_mapped (qsort l4) p) (H * W) (r * W + c) hn
        (by simp [hcc, hnf])
      omega
    exact ⟨hcount, hfp.2 c' hc' (by omega)⟩

/-- C13 at the two-pixel photo file, sorted by insertion sort. -/
theorem emitted_slots_are_assigned_witness :
    ∃ l2 l4 l2' p,
      pass1 2 1 [0xFFFF, 0x0000] = some (([0xFFFF, 0x0000] : List Nat).drop (1 * 2), l2, l4) ∧
      loop_rows 2 (pass2_body 2 (qsort_insertion l4)) 1 [0xFFFF, 0x0000]
          (l2, (List.range (2 * 1)).map sys_two_pixels.img_junk) =
        some (([0xFFFF, 0x0000] : List Nat).drop (1 * 2), l2', p.img) ∧
      (read_photo consts_h qsort_insertion sys_two_pixels).ret = some p ∧
      ∀ r c, r < 1 → c < 2 →
        (∀ i, i < 128 → p.img[2 * (1 - 1 - r) + c]? = some (i + 64) →
          0 < ((qsort_insertion l4).getD i octree_zero).counter ∧
          p.palette[i]? = some (palette_triple ((qsort_insertion l4).getD i octree_zero))) ∧
        (∀ c', c' < 64 → p.img[2 * (1 - 1 - r) + c]? = some (c' + 192) →
          1 ≤ (l2'.getD c' octree_zero).counter ∧
          p.palette[128 + c']? = some (palette_triple (l2'.getD c' octree_zero))) :=
  emitted_slots_are_assigned consts_h qsort_insertion sys_two_pixels 2 1 [0xFFFF, 0x0000]
    qsort_insertion_isQsort rfl rfl rfl (by decide) (by decide) (by decide) (by decide)
    (by decide)

/-- C14: `read_photo` flips rows.  For a photo file that it accepts, both
passes take the pixels in file order and hand the pixel read `n`-th (file row
`n / W`, column `n % W`) to their body with `y = H - 1 - n / W` and
`x = n % W`; the byte that pass 2 computes for that pixel is stored at
`img[W * (H - 1 - n / W) + n % W]`, so file row 0 is the last row in
memory. -/
theorem read_photo_flips_rows (k : Consts) (qsort : List octree_arr_t → List octree_arr_t)
    (sys : Sys) (W H : Nat) (body : List Nat)
    (hfile : sys.file = some (W :: H :: body))
    (hmp : sys.malloc_photo = true) (hmi : sys.malloc_img = true)
    (hW16 : W < 65536) (hH16 : H < 65536)
    (hW : W ≤ k.MAX_PHOTO_WIDTH) (hH : H ≤ k.MAX_PHOTO_HEIGHT)
    (hlen : H * W ≤ body.length) :
    ∃ l2 l4 p,
      pass1 W H body = some (body.drop (H * W), l2, l4) ∧
      (l2, l4) = scan_fold W H body pass1_body
        (List.replicate 64 octree_zero, List.replicate 4096 octree_zero) ∧
      loop_rows W (pass2_body W (qsort l4)) H body
          (l2, (List.range (W * H)).map sys.img_junk) =
        some (body.drop (H * W),
          scan_fold W H body (pass2_body W (qsort l4))
            (l2, (List.range (W * H)).map sys.img_junk)) ∧
      (read_photo k qsort sys).ret = some p ∧
      p.hdr = { width := W, height := H } ∧
      p.img = (scan_fold W H body (pass2_body W (qsort l4))
            (l2, (List.range (W * H)).map sys.img_junk)).2 ∧
      ∀ n, n < H * W →
        p.img[W * (H - 1 - n / W) + n % W]? = some (emit (qsort l4) (pixel_at body n)) := by
  obtain ⟨l2, l4, l2', p, h1, -, -, -, h2, -, -, hret, hhdr, -, -, himg⟩ :=
    read_photo_spec k qsort sys W H body hfile hmp hmi hW16 hH16 hW hH hlen
  have hs1 := loop_rows_eq_scan_fold W H pass1_body body
    (List.replicate 64 octree_zero, List.replicate 4096 octree_zero) hlen
  have hs2 := loop_rows_eq_scan_fold W H (pass2_body W (qsort l4)) body
    (l2, (List.range (W * H)).map sys.img_junk) hlen
  have e1 : (l2, l4) = scan_fold W H body pass1_body
      (List.replicate 64 octree_zero, List.replicate 4096 octree_zero) := by
    have h1' := h1
    unfold pass1 at h1'
    rw [hs1] at h1'
    have := Option.some.inj h1'
    simp only [Prod.mk.injEq] at this
    rw [← this.2]
  have e2 : p.img = (scan_fold W H body (pass2_body W (qsort l4))
      (l2, (List.range (W * H)).map sys.img_junk)).2 := by
    rw [hs2] at h2
    have := Option.some.inj h2
    simp only [Prod.mk.injEq] at this
    rw [this.2]
  refine ⟨l2, l4, p, h1, e1, hs2, hret, hhdr, e2, fun n hn => ?_⟩
  have hWpos : 0 < W := by
    rcases Nat.eq_zero_or_pos W with h0 | h0
    · rw [h0, Nat.mul_zero] at hn; omega
    · exact h0
  have hdiv : n / W < H := Nat.div_lt_of_lt_mul (by rw [Nat.mul_comm]; exact hn)
  have hmod : n % W < W := Nat.mod_lt _ hWpos
  have hdm : n / W * W + n % W = n := by rw [Nat.mul_comm]; exact Nat.div_add_mod n W
  have := himg (n / W) (n % W) hdiv hmod
  rw [hdm] at this
  exact this

/-- Every byte of the image is the byte of one of the pixels read. -/
theorem img_mem_index (W H : Nat) (img : List Nat) (g : Nat → Nat)
    (hl : img.length = W * H)
    (himg : ∀ r c, r < H → c < W → img[W * (H - 1 - r) + c]? = some (g (r * W + c))) :
    ∀ b ∈ img, ∃ n, n < H * W ∧ b = g n := by
  intro b hb
  obtain ⟨j, hj, hjb⟩ := List.getElem_of_mem hb
  rw [hl] at hj
  have hWpos : 0 < W := by
    rcases Nat.eq_zero_or_pos W with h0 | h0
    · rw [h0, Nat.zero_mul] at hj; omega
    · exact h0
  have hdiv : j / W < H := Nat.div_lt_of_lt_mul hj
  have hmod : j % W < W := Nat.mod_lt _ hWpos
  have hdm : W * (j / W) + j % W = j := Nat.div_add_mod j W
  generalize j / W = q at hdiv hdm
  generalize j % W = m at hmod hdm
  have hsub : H - 1 - (H - 1 - q) = q := by omega
  have h := himg (H - 1 - q) m (by omega) hmod
  rw [hsub, hdm, List.getElem?_eq_getElem (by rw [hl]; exact hj), hjb] at h
  exact ⟨(H - 1 - q) * W + m, index_lt_of_range W H _ _ (by omega) hmod, Option.some.inj h⟩

theorem to_uint8_small (n : Nat) (h : n < 256) : to_uint8 (n : Int) = n := by
  unfold to_uint8
  omega

theorem palette_triple_of_sums (b : octree_arr_t) (n R G B : Nat) (hn : 0 < n)
    (hR : R < 32) (hG : G < 64) (hB : B < 32)
    (hc : b.counter = n) (hr : b.red = (n : Int) * R) (hg : b.green = (n : Int) * G)
    (hb : b.blue = (n : Int) * B) :
    palette_triple b = (R <<< 1, G, B <<< 1) := by
  have hn0 : (n : Int) ≠ 0 := by omega
  unfold palette_triple
  rw [hc, hr, hg, hb, Int.mul_tdiv_cancel_left _ hn0, Int.mul_tdiv_cancel_left _ hn0,
    Int.mul_tdiv_cancel_left _ hn0]
  have e1 : ((R : Int) * 2) = ((R * 2 : Nat) : Int) := by push_cast; ring
  have e2 : ((B : Int) * 2) = ((B * 2 : Nat) : Int) := by push_cast; ring
  rw [e1, e2, to_uint8_small _ (by omega), to_uint8_small _ (by omega),
    to_uint8_small _ (by omega)]
  simp [Nat.shiftLeft_eq]

/-- In the sorted array of a uniform photo the one populated bin has rank 0. -/
theorem uniform_rank_zero (l4 sorted : List octree_arr_t) (hok : FineBinsOk l4)
    (hperm : sorted.Perm l4) (hsorted : sorted.Pairwise (fun a b => compare a b ≤ 0))
    (f : Nat) (hf : f < 4096) (hpos : 0 < (l4.getD f octree_zero).counter)
    (hothers : ∀ g, g ≠ f → (l4.getD g octree_zero).counter = 0) :
    sorted[0]? = some (l4.getD f octree_zero) := by
  obtain ⟨i, hi⟩ := exists_rank l4 sorted hok hperm f hf
  rcases Nat.eq_zero_or_pos i with h0 | h0
  · rw [← h0]; exact hi
  · obtain ⟨hil, hie⟩ := List.getElem?_eq_some.1 hi
    have h0l : 0 < sorted.length := by omega
    rw [List.pairwise_iff_getElem] at hsorted
    have hc := compare_le_zero _ _ (hsorted 0 i h0l hil h0)
    rw [hie] at hc
    have hE : 0 < sorted[0].counter := lt_of_lt_of_le hpos hc
    have hmem : sorted[0] ∈ l4 := hperm.subset (List.getElem_mem _)
    obtain ⟨g, hg, hge⟩ := List.getElem_of_mem hmem
    have eg : l4.getD g octree_zero = sorted[0] := by
      simp [List.getD_eq_getElem?_getD, List.getElem?_eq_getElem hg, hge]
    have hgf : g = f := by
      by_contra hne
      have := hothers g hne
      rw [eg] at this
      omega
    rw [List.getElem?_eq_getElem h0l, ← eg, hgf]

/-- The three channels that the extraction of pass 1 finds in the 5:6:5 word
with red field `R5` (bits 15-11), green field `G6` (bits 10-5) and blue field
`B5` (bits 4-0). -/
theorem channels_of_fields (R5 G6 B5 : Nat) (hR : R5 < 32) (hG : G6 < 64) (hB : B5 < 32) :
    R5 * 2048 + G6 * 32 + B5 < 65536 ∧
    red1 (R5 * 2048 + G6 * 32 + B5) = R5 ∧
    green_of (R5 * 2048 + G6 * 32 + B5) = G6 ∧
    blue_of (R5 * 2048 + G6 * 32 + B5) = B5 := by
  unfold red1 green_of blue_of
  rw [and_31, and_63, and_31, Nat.shiftRight_eq_div_pow, Nat.shiftRight_eq_div_pow]
  refine ⟨by omega, by omega, by omega, by omega⟩

/-- The word read as pixel `j` when the file holds the 16-bit word `C` there. -/
theorem pixel_at_of_get (body : List Nat) (j C : Nat) (hC : C < 65536)
    (h : body[j]? = some C) : pixel_at body j = C := by
  unfold pixel_at
  rw [List.getD_eq_getElem?_getD, h, Option.getD_some]
  exact Nat.mod_eq_of_lt hC

/-- C15: for a non-empty photo file that `read_photo` accepts, all of whose
pixels are the same 16-bit word with red field `R5` in bits 15-11, green field
`G6` in bits 10-5 and blue field `B5` in bits 4-0, and a `qsort` that meets
its contract, every byte of the image is 64 and palette slot 0 holds
`(R5 << 1, G6, B5 << 1)`. -/
theorem uniform_photo (k : Consts) (qsort : List octree_arr_t → List octree_arr_t)
    (sys : Sys) (W H : Nat) (body : List Nat) (R5 G6 B5 : Nat)
    (hq : IsQsort qsort)
    (hfile : sys.file = some (W :: H :: body))
    (hmp : sys.malloc_photo = true) (hmi : sys.malloc_img = true)
    (hW16 : W < 65536) (hH16 : H < 65536)
    (hW : W ≤ k.MAX_PHOTO_WIDTH) (hH : H ≤ k.MAX_PHOTO_HEIGHT)
    (hlen : H * W ≤ body.length)
    (hne : 0 < H * W) (hR : R5 < 32) (hG : G6 < 64) (hB : B5 < 32)
    (hunif : ∀ j, j < H * W → body[j]? = some (R5 * 2048 + G6 * 32 + B5)) :
    ∃ p, (read_photo k qsort sys).ret = some p ∧ p.img.length = W * H ∧
      (∀ b ∈ p.img, b = 64) ∧
      p.palette[0]? = some (R5 <<< 1, G6, B5 <<< 1) := by
  obtain ⟨hC, cR, cG, cB⟩ := channels_of_fields R5 G6 B5 hR hG hB
  generalize R5 * 2048 + G6 * 32 + B5 = C at hunif hC cR cG cB
  have hunif : ∀ j, j < H * W → pixel_at body j = C :=
    fun j hj => pixel_at_of_get body j C hC (hunif j hj)
  obtain ⟨l2, l4, l2', p, h1, hok, hpop, ht4, h2, hl2', hres, hret, -, hpal, hl, himg⟩ :=
    read_photo_spec k qsort sys W H body hfile hmp hmi hW16 hH16 hW hH hlen
  obtain ⟨hperm, hsorted⟩ := hq l4
  have hpopC : Populated l4 (fine_index C) := by
    have := hpop 0 hne; rwa [hunif 0 hne] at this
  obtain ⟨hred, hgreen, hblue, hcount⟩ := ht4 (fine_index C)
  have hsel : (fun p => fine_index p == fine_index C) C = true := by simp
  rw [tally_uniform body _ _ C (H * W) hunif hsel] at hred hgreen hblue hcount
  have hothers : ∀ g, g ≠ fine_index C → (l4.getD g octree_zero).counter = 0 := by
    intro g hg
    rw [(ht4 g).2.2.2]
    apply tally_eq_zero
    intro j hj
    rw [hunif j hj]
    simpa using Ne.symm hg
  have hrank := uniform_rank_zero l4 (qsort l4) hok hperm hsorted (fine_index C)
    (fine_index_lt C) hpopC.2 hothers
  have he := (emit_of_rank l4 (qsort l4) hok hperm hsorted C hC hpopC 0 hrank).1 (by decide)
  refine ⟨p, hret, hl, fun b hb => ?_, ?_⟩
  · obtain ⟨n, hn, hbn⟩ := img_mem_index W H p.img
      (fun n => emit (qsort l4) (pixel_at body n)) hl himg b hb
    rw [hbn]
    simp only [hunif n hn, he]
  · have hfp := fill_palette_get l2' (qsort l4) ((List.range 192).map sys.palette_junk)
      (by simp)
    rw [← hpal] at hfp
    have hB := getD_of_getElem_some _ _ _ hrank
    have hc0 : ((qsort l4).getD 0 octree_zero).counter ≠ 0 := by
      rw [hB]; exact ne_of_gt hpopC.2
    rw [hfp.1 0 (by decide) hc0, hB]
    rw [palette_triple_of_sums (l4.getD (fine_index C) octree_zero) (H * W) (red1 C)
      (green_of C) (blue_of C) hne (red1_lt C) (green_lt C) (blue_lt C)
      (by rw [hcount]; simp) (by rw [hred]) (by rw [hgreen]) (by rw [hblue]), cR, cG, cB]

/-- C15 at the uniform two-pixel photo file of colour `0x1234`, whose fields
are red 2, green 17 and blue 20: both bytes of the image are 64 and palette
slot 0 holds `(4, 17, 40)`. -/
theorem uniform_photo_witness :
    (0x1234 : Nat) = 2 * 2048 + 17 * 32 + 20 ∧
    ∃ p, (read_photo consts_h qsort_insertion sys_uniform).ret = some p ∧
      p.img.length = 2 * 1 ∧ (∀ b ∈ p.img, b = 64) ∧
      p.palette[0]? = some (4, 17, 40) :=
  ⟨by decide,
   uniform_photo consts_h qsort_insertion sys_uniform 2 1 [0x1234, 0x1234] 2 17 20
    qsort_insertion_isQsort rfl rfl rfl (by decide) (by decide) (by decide) (by decide)
    (by decide) (by decide) (by decide) (by decide) (by decide) (by decide)⟩


/-- A bin that has strictly more pixels than another one ranks before it. -/
theorem rank_lt_of_counter_lt (l4 sorted : List octree_arr_t)
    (hsorted : sorted.Pairwise (fun a b => compare a b ≤ 0)) (f g i j : Nat)
    (hi : sorted[i]? = some (l4.getD f octree_zero))
    (hj : sorted[j]? = some (l4.getD g octree_zero))
    (hlt : (l4.getD f octree_zero).counter < (l4.getD g octree_zero).counter) : j < i := by
  obtain ⟨hil, hie⟩ := List.getElem?_eq_some.1 hi
  obtain ⟨hjl, hje⟩ := List.getElem?_eq_some.1 hj
  rw [List.pairwise_iff_getElem] at hsorted
  rcases Nat.lt_trichotomy j i with h | h | h
  · exact h
  · subst h
    rw [hie] at hje
    rw [hje] at hlt
    exact absurd hlt (lt_irrefl _)
  · have := compare_le_zero _ _ (hsorted i j hil hjl h)
    rw [hie, hje] at this
    omega

end Photo

/-! ## TuxCore: the request dispatcher and the state before `init` -/

namespace Tux

/-- C21 fails as stated: `tuxctl_ioctl` answers the request codes
`TUX_LED_ACK`, `TUX_LED_REQUEST` and `TUX_READ_LED` with 0, not with
`-EINVAL`. -/
theorem ioctl_led_ack_returns_zero :
    (tuxctl_ioctl mtcp_h ioctl_h Session.initial ioctl_h.TUX_LED_ACK 0 (fun _ => 0)).2.1 = 0 ∧
    (tuxctl_ioctl mtcp_h ioctl_h Session.initial ioctl_h.TUX_LED_REQUEST 0 (fun _ => 0)).2.1 = 0 ∧
    (tuxctl_ioctl mtcp_h ioctl_h Session.initial ioctl_h.TUX_READ_LED 0 (fun _ => 0)).2.1 = 0 ∧
    (tuxctl_ioctl mtcp_h ioctl_h Session.initial ioctl_h.TUX_LED_ACK 0 (fun _ => 0)).2.1 ≠
      -EINVAL := by
  decide

/-- C21, amended: `tuxctl_ioctl` has six case labels.  It forwards `TUX_INIT`
to `tux_init`, `TUX_BUTTONS` to `tux_buttons` and `TUX_SET_LED` to
`tux_set_led`, returning what the handler returns; it answers `TUX_LED_ACK`,
`TUX_LED_REQUEST` and `TUX_READ_LED` with 0, and every request code other than
the six with `-EINVAL`; in the last two cases the session is unchanged and
nothing is stored through the user pointer. -/
theorem ioctl_other_requests (k : Mtcp) (io : Ioctl) (s : Session) (cmd arg : Nat)
    (junk : Nat → Nat) :
    (cmd = io.TUX_INIT →
      tuxctl_ioctl k io s cmd arg junk = ((tux_init k s).1, (tux_init k s).2, none)) ∧
    (cmd = io.TUX_BUTTONS →
      tuxctl_ioctl k io s cmd arg junk = (s, (tux_buttons s arg).1, (tux_buttons s arg).2)) ∧
    (cmd = io.TUX_SET_LED →
      tuxctl_ioctl k io s cmd arg junk =
        ((tux_set_led k s arg junk).1, (tux_set_led k s arg junk).2, none)) ∧
    (cmd ∈ [io.TUX_LED_ACK, io.TUX_LED_REQUEST, io.TUX_READ_LED] →
      tuxctl_ioctl k io s cmd arg junk = (s, 0, none)) ∧
    (cmd ∉ [io.TUX_INIT, io.TUX_BUTTONS, io.TUX_SET_LED, io.TUX_LED_ACK,
        io.TUX_LED_REQUEST, io.TUX_READ_LED] →
      tuxctl_ioctl k io s cmd arg junk = (s, -EINVAL, none)) := by
  have hd := io.case_labels_distinct
  simp only [List.nodup_cons, List.mem_cons, List.mem_singleton, not_or, List.not_mem_nil,
    not_false_eq_true, and_true, List.nodup_nil] at hd
  obtain ⟨⟨i1, i2, a1, a2, a3⟩, ⟨i3, b1, b2, b3⟩, ⟨c1, c2, c3⟩, -, -⟩ := hd
  refine ⟨?_, ?_, ?_, ?_, ?_⟩
  · intro h
    subst h
    simp only [tuxctl_ioctl, if_true]
  · intro h
    subst h
    simp only [tuxctl_ioctl, Ne.symm i1, if_false, if_true]
  · intro h
    subst h
    simp only [tuxctl_ioctl, Ne.symm i2, Ne.symm i3, if_false, if_true]
  · intro h
    simp only [List.mem_cons, List.mem_singleton, List.not_mem_nil, or_false] at h
    rcases h with h | h | h
    · subst h
      simp only [tuxctl_ioctl, Ne.symm a1, Ne.symm b1, Ne.symm c1, if_false, if_true]
    · subst h
      simp [tuxctl_ioctl, Ne.symm a2, Ne.symm b2, Ne.symm c2]
    · subst h
      simp [tuxctl_ioctl, Ne.symm a3, Ne.symm b3, Ne.symm c3]
  · intro h
    simp only [List.mem_cons, List.mem_singleton, not_or, List.not_mem_nil,
      not_false_eq_true, and_true] at h
    obtain ⟨h1, h2, h3, h4, h5, h6⟩ := h
    simp only [tuxctl_ioctl, h1, h2, h3, h4, h5, h6, if_false]

/-- C21, amended, on the session before `init`: `TUX_INIT` transmits
`BIOC_ON`, `LED_USR` and returns 0, `TUX_BUTTONS` with a null pointer returns
`-EINVAL`, `TUX_SET_LED` with the word `0x00010001` transmits an LED packet
and returns 0, `TUX_LED_ACK` returns 0 and the request code `0x99`, which is
none of the six, returns `-EINVAL`. -/
theorem ioctl_other_requests_witness :
    tuxctl_ioctl mtcp_h ioctl_h Session.initial ioctl_h.TUX_INIT 0 (fun _ => 0) =
      ({ ack := 0, buttoons := 0xFF, led_backup := 0,
         tx := [mtcp_h.MTCP_BIOC_ON, mtcp_h.MTCP_LED_USR] }, 0, none) ∧
    tuxctl_ioctl mtcp_h ioctl_h Session.initial ioctl_h.TUX_BUTTONS 0 (fun _ => 0) =
      (Session.initial, -EINVAL, none) ∧
    tuxctl_ioctl mtcp_h ioctl_h Session.initial ioctl_h.TUX_SET_LED 0x00010001 (fun _ => 0) =
      ({ ack := 1, buttoons := 0, led_backup := 0x00010001,
         tx := [mtcp_h.MTCP_LED_SET, 0x0F, 0x06, 0, 0, 0] }, 0, none) ∧
    tuxctl_ioctl mtcp_h ioctl_h Session.initial ioctl_h.TUX_LED_ACK 0 (fun _ => 0) =
      (Session.initial, 0, none) ∧
    tuxctl_ioctl mtcp_h ioctl_h Session.initial 0x99 0 (fun _ => 0) =
      (Session.initial, -EINVAL, none) :=
  ⟨(ioctl_other_requests mtcp_h ioctl_h Session.initial ioctl_h.TUX_INIT 0
      (fun _ => 0)).1 rfl,
   (ioctl_other_requests mtcp_h ioctl_h Session.initial ioctl_h.TUX_BUTTONS 0
      (fun _ => 0)).2.1 rfl,
   (ioctl_other_requests mtcp_h ioctl_h Session.initial ioctl_h.TUX_SET_LED 0x00010001
      (fun _ => 0)).2.2.1 rfl,
   (ioctl_other_requests mtcp_h ioctl_h Session.initial ioctl_h.TUX_LED_ACK 0
      (fun _ => 0)).2.2.2.1 (by decide),
   (ioctl_other_requests mtcp_h ioctl_h Session.initial 0x99 0 (fun _ => 0)).2.2.2.2
      (by decide)⟩

/-- C22 fails as stated: in the state at module load, before any `init` or
packet, `tux_buttons` delivers 0 (every active-low button bit clear), not
`0xFF`. -/
theorem read_buttons_before_init :
    tux_buttons Session.initial 1 = (0, some 0) ∧
    tux_buttons Session.initial 1 ≠ (0, some 0xFF) := by
  decide

/-- C22, amended: in the state at module load the three globals are zero:
`tux_buttons` with a non-null pointer delivers 0 and the LED shadow is 0,
so its digit-enable bits `[19:16]` are all clear; after `init` the snapshot
delivered is `0xFF`. -/
theorem session_before_init (k : Mtcp) (arg : Nat) (harg : arg ≠ 0) :
    tux_buttons Session.initial arg = (0, some 0) ∧
    Session.initial.led_backup = 0 ∧
    (Session.initial.led_backup >>> 16) &&& 0x0F = 0 ∧
    tux_buttons (tux_init k Session.initial).1 arg = (0, some 0xFF) := by
  refine ⟨?_, rfl, by decide, ?_⟩
  · simp [tux_buttons, harg, Session.initial]
  · simp [tux_buttons, harg, Session.initial, tux_init, tuxctl_ldisc_put]

/-- C22, amended, with the user pointer 1. -/
theorem session_before_init_witness :
    (1 : Nat) ≠ 0 ∧
    tux_buttons Session.initial 1 = (0, some 0) ∧
    Session.initial.led_backup = 0 ∧
    (Session.initial.led_backup >>> 16) &&& 0x0F = 0 ∧
    tux_buttons (tux_init mtcp_h Session.initial).1 1 = (0, some 0xFF) :=
  ⟨by decide, session_before_init mtcp_h 1 (by decide)⟩

end Tux

/-! ## PaletteCore: extraction, cleanup, residual sums, quantisation error -/

namespace Photo

/-- C26: for every 16-bit pixel the extraction of pass 1 (red masked with
`0x1F`) and that of pass 2 (red masked with `0x3F`) give the same red, hence,
green and blue being extracted alike, the same coarse index, which is below
64, and the same fine index, which is below 4096. -/
theorem passes_extract_alike (p : Nat) (hp : p < 65536) :
    red2 p = red1 p ∧ red1 p < 32 ∧ green_of p < 64 ∧ blue_of p < 32 ∧
    two_index_of (red2 p) (green_of p) (blue_of p) =
      two_index_of (red1 p) (green_of p) (blue_of p) ∧
    four_index_of (red2 p) (green_of p) (blue_of p) =
      four_index_of (red1 p) (green_of p) (blue_of p) ∧
    two_index_of (red1 p) (green_of p) (blue_of p) < 64 ∧
    four_index_of (red1 p) (green_of p) (blue_of p) < 4096 := by
  have h := red2_eq_red1 p hp
  exact ⟨h, red1_lt p, green_lt p, blue_lt p, by rw [h], by rw [h],
    two_index_lt _ _ _ (red1_lt p) (green_lt p) (blue_lt p),
    four_index_lt _ _ _ (red1_lt p) (green_lt p) (blue_lt p)⟩

/-- C26 at the pixel `0xFFFF`: both passes find red 31, coarse index 63 and
fine index 4095. -/
theorem passes_extract_alike_witness :
    (0xFFFF : Nat) < 65536 ∧ red2 0xFFFF = 31 ∧
    (red2 0xFFFF = red1 0xFFFF ∧ red1 0xFFFF < 32 ∧ green_of 0xFFFF < 64 ∧
      blue_of 0xFFFF < 32 ∧
      two_index_of (red2 0xFFFF) (green_of 0xFFFF) (blue_of 0xFFFF) =
        two_index_of (red1 0xFFFF) (green_of 0xFFFF) (blue_of 0xFFFF) ∧
      four_index_of (red2 0xFFFF) (green_of 0xFFFF) (blue_of 0xFFFF) =
        four_index_of (red1 0xFFFF) (green_of 0xFFFF) (blue_of 0xFFFF) ∧
      two_index_of (red1 0xFFFF) (green_of 0xFFFF) (blue_of 0xFFFF) < 64 ∧
      four_index_of (red1 0xFFFF) (green_of 0xFFFF) (blue_of 0xFFFF) < 4096) :=
  ⟨by decide, by decide, passes_extract_alike 0xFFFF (by decide)⟩

/-- A header within bounds followed by too few pixels: `read_photo` returns
`NULL` from the short-read branch of pass 1 and the two scratch arrays are
still allocated. -/
theorem read_photo_short (k : Consts) (qsort : List octree_arr_t → List octree_arr_t)
    (sys : Sys) (W H : Nat) (body : List Nat)
    (hfile : sys.file = some (W :: H :: body))
    (hmp : sys.malloc_photo = true) (hmi : sys.malloc_img = true)
    (hW16 : W < 65536) (hH16 : H < 65536)
    (hW : W ≤ k.MAX_PHOTO_WIDTH) (hH : H ≤ k.MAX_PHOTO_HEIGHT)
    (hlen : body.length < H * W) :
    (read_photo k qsort sys).ret = none ∧
      (read_photo k qsort sys).live = [Res.level_four, Res.level_two] := by
  have e1 : W % 65536 = W := Nat.mod_eq_of_lt hW16
  have e2 : H % 65536 = H := Nat.mod_eq_of_lt hH16
  have hb : ¬ (k.MAX_PHOTO_WIDTH < W ∨ k.MAX_PHOTO_HEIGHT < H) := by omega
  have h1 : pass1 W H body = none := by
    have := loop_rows_short W pass1_body body H 0
      (List.replicate 64 octree_zero, List.replicate 4096 octree_zero) (Nat.zero_le _)
      (by omega)
    rw [List.drop_zero] at this
    exact this
  simp only [read_photo, hfile, hmp, hmi, e1, e2, hb, if_false, h1, Bool.true_eq_false,
    and_self]

/-- C23, evaluated at the failing input: for the file with header 2 x 1 and a
single pixel, `read_photo` returns `NULL` on the short read of pass 1, having
freed the photo structure and the pixel buffer and closed the file, while the
4096-entry and the 64-entry scratch arrays are still allocated. -/
theorem read_photo_short_read_leaks :
    (read_photo consts_h qsort_insertion sys_short).ret = none ∧
      (read_photo consts_h qsort_insertion sys_short).live =
        [Res.level_four, Res.level_two] ∧
      (read_photo consts_h qsort_insertion sys_short).live ≠ [] :=
  ⟨(read_photo_short consts_h qsort_insertion sys_short 2 1 [0xFFFF] rfl rfl rfl
      (by decide) (by decide) (by decide) (by decide) (by decide)).1,
   (read_photo_short consts_h qsort_insertion sys_short 2 1 [0xFFFF] rfl rfl rfl
      (by decide) (by decide) (by decide) (by decide) (by decide)).2,
   by
    rw [(read_photo_short consts_h qsort_insertion sys_short 2 1 [0xFFFF] rfl rfl rfl
      (by decide) (by decide) (by decide) (by decide) (by decide)).2]
    decide⟩


theorem tally_congr (body : List Nat) (sel sel' : Nat → Bool) (val : Nat → Int) (m : Nat)
    (h : ∀ j, j < m → sel (pixel_at body j) = sel' (pixel_at body j)) :
    tally body sel val m = tally body sel' val m := by
  induction m with
  | zero => rfl
  | succ m ih =>
    rw [tally_succ, tally_succ, ih (fun j hj => h j (by omega)), h m (by omega)]

/-- A pixel gets the byte `c + 192` exactly when its coarse index is `c` and
it is not mapped to a fine slot. -/
theorem emit_eq_coarse_iff (sorted : List octree_arr_t) (px : Nat) (hpx : px < 65536)
    (c : Nat) :
    (emit sorted px == c + 192) = (coarse_index px == c && !fine_mapped sorted px) := by
  rw [emit_eq sorted px hpx]
  unfold fine_mapped
  cases hs : search sorted (fine_index px) 128 0 with
  | none =>
    have hc := coarse_index_lt px
    simp only [Option.isSome_none, Bool.not_false, Bool.and_true]
    rw [Nat.mod_eq_of_lt (by omega)]
    by_cases h : coarse_index px = c
    · simp [h]
    · have h' : ¬ coarse_index px + 192 = c + 192 := by omega
      simp [h, h']
  | some i =>
    obtain ⟨-, h2, -, -⟩ := search_some _ _ _ _ _ hs
    simp only [Option.isSome_some, Bool.not_true, Bool.and_false]
    rw [Nat.mod_eq_of_lt (by omega)]
    have h' : ¬ i + 64 = c + 192 := by omega
    simp only [beq_eq_false_iff_ne, ne_eq]
    exact h'

/-- The residual sums and counts are never negative, at any stage `m` of
pass 2. -/
theorem residual_nonneg (bins : List octree_arr_t) (body : List Nat) (l4 : List octree_arr_t)
    (n m : Nat) (hm : m ≤ n) (h : Residual bins body l4 n m) (c : Nat) :
    0 ≤ (bins.getD c octree_zero).red ∧ 0 ≤ (bins.getD c octree_zero).green ∧
      0 ≤ (bins.getD c octree_zero).blue ∧ 0 ≤ (bins.getD c octree_zero).counter := by
  obtain ⟨h1, h2, h3, h4⟩ := h c
  have key : ∀ val : Nat → Int, (∀ p, 0 ≤ val p) →
      0 ≤ tally body (fun p => coarse_index p == c) val n -
        tally body (fun p => coarse_index p == c && fine_mapped l4 p) val m := by
    intro val hval
    have hs := tally_split body (fun p => coarse_index p == c) (fine_mapped l4) val n
    have hmono := tally_mono body (fun p => coarse_index p == c && fine_mapped l4 p) val hval
      m n hm
    have hnn := tally_nonneg body (fun p => coarse_index p == c && !fine_mapped l4 p) val
      hval n
    omega
  rw [h1, h2, h3, h4]
  exact ⟨key _ (fun p => Int.ofNat_nonneg _), key _ (fun p => Int.ofNat_nonneg _),
    key _ (fun p => Int.ofNat_nonneg _), key _ (fun _ => by decide)⟩

/-- The coarse array after the first `m` pixels of pass 2. -/
theorem scan_upto_residual (W H : Nat) (l4 : List octree_arr_t) (body : List Nat)
    (n : Nat) (l2 : List octree_arr_t) (img0 : List Nat)
    (hl2 : l2.length = 64) (h2 : BinsTally l2 body coarse_index n) :
    ∀ m, (scan_upto W H body (pass2_body W l4) (l2, img0) m).1.length = 64 ∧
      Residual (scan_upto W H body (pass2_body W l4) (l2, img0) m).1 body l4 n m := by
  intro m
  induction m with
  | zero =>
    refine ⟨hl2, fun c => ?_⟩
    obtain ⟨h1, h2, h3, h4⟩ := h2 c
    simp only [scan_upto, List.range_zero, List.foldl_nil, tally, sub_zero]
    exact ⟨h1, h2, h3, h4⟩
  | succ m ih =>
    have e : scan_upto W H body (pass2_body W l4) (l2, img0) (m + 1) =
        pass2_body W l4 (H - 1 - m / W) (m % W) (pixel_at body m)
          (scan_upto W H body (pass2_body W l4) (l2, img0) m) := by
      simp only [scan_upto, List.range_succ, List.foldl_append, List.foldl_cons,
        List.foldl_nil]
    rw [e, pass2_body_level_two W l4 _ _ _ (pixel_at_lt _ _)]
    refine ⟨?_, residual_step _ body l4 n m ih.1 ih.2⟩
    split_ifs
    · rw [subtract_length]; exact ih.1
    · exact ih.1


/-- The position of the pixel read `n`-th, from the row and column form. -/
theorem img_of_index (W H : Nat) (img : List Nat) (g : Nat → Nat)
    (himg : ∀ r c, r < H → c < W → img[W * (H - 1 - r) + c]? = some (g (r * W + c)))
    (n : Nat) (hn : n < H * W) :
    img[W * (H - 1 - n / W) + n % W]? = some (g n) := by
  have hWpos : 0 < W := by
    rcases Nat.eq_zero_or_pos W with h0 | h0
    · rw [h0, Nat.mul_zero] at hn; omega
    · exact h0
  have hdiv : n / W < H := Nat.div_lt_of_lt_mul (by rw [Nat.mul_comm]; exact hn)
  have hmod : n % W < W := Nat.mod_lt _ hWpos
  have hdm : n / W * W + n % W = n := by rw [Nat.mul_comm]; exact Nat.div_add_mod n W
  have := himg (n / W) (n % W) hdiv hmod
  rw [hdm] at this
  exact this

/-- C24: for a photo file that `read_photo` accepts, after pass 2 the counter
of every coarse bin `c` is the number of pixels whose byte is `c + 192`, and
its red, green and blue sums are the sums, over exactly those pixels, of the
channel values that pass 1 added.  At every stage of pass 2 (after any number
`m` of pixels) every coarse counter and sum is non-negative. -/
theorem residual_sums (k : Consts) (qsort : List octree_arr_t → List octree_arr_t)
    (sys : Sys) (W H : Nat) (body : List Nat)
    (hfile : sys.file = some (W :: H :: body))
    (hmp : sys.malloc_photo = true) (hmi : sys.malloc_img = true)
    (hW16 : W < 65536) (hH16 : H < 65536)
    (hW : W ≤ k.MAX_PHOTO_WIDTH) (hH : H ≤ k.MAX_PHOTO_HEIGHT)
    (hlen : H * W ≤ body.length) :
    ∃ l2 l4 l2' p,
      pass1 W H body = some (body.drop (H * W), l2, l4) ∧
      loop_rows W (pass2_body W (qsort l4)) H body
          (l2, (List.range (W * H)).map sys.img_junk) =
        some (body.drop (H * W), l2', p.img) ∧
      (read_photo k qsort sys).ret = some p ∧
      (∀ n, n < H * W →
        p.img[W * (H - 1 - n / W) + n % W]? = some (emit (qsort l4) (pixel_at body n))) ∧
      (∀ c,
        (l2'.getD c octree_zero).counter =
          tally body (fun px => emit (qsort l4) px == c + 192) (fun _ => 1) (H * W) ∧
        (l2'.getD c octree_zero).red =
          tally body (fun px => emit (qsort l4) px == c + 192) (fun px => red1 px) (H * W) ∧
        (l2'.getD c octree_zero).green =
          tally body (fun px => emit (qsort l4) px == c + 192) (fun px => green_of px)
            (H * W) ∧
        (l2'.getD c octree_zero).blue =
          tally body (fun px => emit (qsort l4) px == c + 192) (fun px => blue_of px)
            (H * W)) ∧
      l2' = (scan_upto W H body (pass2_body W (qsort l4))
        (l2, (List.range (W * H)).map sys.img_junk) (H * W)).1 ∧
      (∀ m, m ≤ H * W → ∀ c,
        0 ≤ ((scan_upto W H body (pass2_body W (qsort l4))
          (l2, (List.range (W * H)).map sys.img_junk) m).1.getD c octree_zero).red ∧
        0 ≤ ((scan_upto W H body (pass2_body W (qsort l4))
          (l2, (List.range (W * H)).map sys.img_junk) m).1.getD c octree_zero).green ∧
        0 ≤ ((scan_upto W H body (pass2_body W (qsort l4))
          (l2, (List.range (W * H)).map sys.img_junk) m).1.getD c octree_zero).blue ∧
        0 ≤ ((scan_upto W H body (pass2_body W (qsort l4))
          (l2, (List.range (W * H)).map sys.img_junk) m).1.getD c octree_zero).counter) := by
  obtain ⟨l2, l4, l2', p, h1, -, -, -, h2, -, hres, hret, -, -, -, himg⟩ :=
    read_photo_spec k qsort sys W H body hfile hmp hmi hW16 hH16 hW hH hlen
  obtain ⟨l2a, l4a, h1a, hl2, ht2, -⟩ := pass1_tally W H body hlen
  rw [h1] at h1a
  have e2 : l2a = l2 := by
    have := Option.some.inj h1a; simp only [Prod.mk.injEq] at this; exact this.2.1.symm
  subst e2
  have hfinal : l2' = (scan_upto W H body (pass2_body W (qsort l4))
      (l2a, (List.range (W * H)).map sys.img_junk) (H * W)).1 := by
    have hs2 := loop_rows_eq_scan_fold W H (pass2_body W (qsort l4)) body
      (l2a, (List.range (W * H)).map sys.img_junk) hlen
    rw [hs2] at h2
    have := Option.some.inj h2
    simp only [Prod.mk.injEq, true_and] at this
    have e : scan_upto W H body (pass2_body W (qsort l4))
        (l2a, (List.range (W * H)).map sys.img_junk) (H * W) = (l2', p.img) := this
    rw [e]
  refine ⟨l2a, l4, l2', p, h1, h2, hret,
    fun n hn => img_of_index W H p.img (fun n => emit (qsort l4) (pixel_at body n)) himg n hn,
    fun c => ?_, hfinal, fun m hm c => ?_⟩
  · obtain ⟨r1, r2, r3, r4⟩ := hres c
    have hsel : ∀ j, j < H * W →
        (fun px => emit (qsort l4) px == c + 192) (pixel_at body j) =
          (fun p => coarse_index p == c && !fine_mapped (qsort l4) p) (pixel_at body j) :=
      fun j _ => emit_eq_coarse_iff (qsort l4) _ (pixel_at_lt body j) c
    have key : ∀ val : Nat → Int,
        tally body (fun p => coarse_index p == c) val (H * W) -
            tally body (fun p => coarse_index p == c && fine_mapped (qsort l4) p) val (H * W) =
          tally body (fun px => emit (qsort l4) px == c + 192) val (H * W) := by
      intro val
      rw [tally_congr body (fun px => emit (qsort l4) px == c + 192)
          (fun p => coarse_index p == c && !fine_mapped (qsort l4) p) val (H * W) hsel,
        tally_split body (fun p => coarse_index p == c) (fine_mapped (qsort l4)) val (H * W)]
      omega
    rw [r1, r2, r3, r4]
    exact ⟨key _, key _, key _, key _⟩
  · exact residual_nonneg _ body (qsort l4) (H * W) m hm
      (scan_upto_residual W H (qsort l4) body (H * W) l2a _ hl2 ht2 m).2 c

/-- C24 at the two-pixel photo file. -/
theorem residual_sums_witness :
    ∃ l2 l4 l2' p,
      pass1 2 1 [0xFFFF, 0x0000] = some (([0xFFFF, 0x0000] : List Nat).drop (1 * 2), l2, l4) ∧
      loop_rows 2 (pass2_body 2 (qsort_insertion l4)) 1 [0xFFFF, 0x0000]
          (l2, (List.range (2 * 1)).map sys_two_pixels.img_junk) =
        some (([0xFFFF, 0x0000] : List Nat).drop (1 * 2), l2', p.img) ∧
      (read_photo consts_h qsort_insertion sys_two_pixels).ret = some p ∧
      (∀ n, n < 1 * 2 →
        p.img[2 * (1 - 1 - n / 2) + n % 2]? =
          some (emit (qsort_insertion l4) (pixel_at [0xFFFF, 0x0000] n))) ∧
      (∀ c,
        (l2'.getD c octree_zero).counter =
          tally [0xFFFF, 0x0000] (fun px => emit (qsort_insertion l4) px == c + 192)
            (fun _ => 1) (1 * 2) ∧
        (l2'.getD c octree_zero).red =
          tally [0xFFFF, 0x0000] (fun px => emit (qsort_insertion l4) px == c + 192)
            (fun px => red1 px) (1 * 2) ∧
        (l2'.getD c octree_zero).green =
          tally [0xFFFF, 0x0000] (fun px => emit (qsort_insertion l4) px == c + 192)
            (fun px => green_of px) (1 * 2) ∧
        (l2'.getD c octree_zero).blue =
          tally [0xFFFF, 0x0000] (fun px => emit (qsort_insertion l4) px == c + 192)
            (fun px => blue_of px) (1 * 2)) ∧
      l2' = (scan_upto 2 1 [0xFFFF, 0x0000] (pass2_body 2 (qsort_insertion l4))
        (l2, (List.range (2 * 1)).map sys_two_pixels.img_junk) (1 * 2)).1 ∧
      (∀ m, m ≤ 1 * 2 → ∀ c,
        0 ≤ ((scan_upto 2 1 [0xFFFF, 0x0000] (pass2_body 2 (qsort_insertion l4))
          (l2, (List.range (2 * 1)).map sys_two_pixels.img_junk) m).1.getD c octree_zero).red ∧
        0 ≤ ((scan_upto 2 1 [0xFFFF, 0x0000] (pass2_body 2 (qsort_insertion l4))
          (l2, (List.range (2 * 1)).map sys_two_pixels.img_junk) m).1.getD c
            octree_zero).green ∧
        0 ≤ ((scan_upto 2 1 [0xFFFF, 0x0000] (pass2_body 2 (qsort_insertion l4))
          (l2, (List.range (2 * 1)).map sys_two_pixels.img_junk) m).1.getD c octree_zero).blue ∧
        0 ≤ ((scan_upto 2 1 [0xFFFF, 0x0000] (pass2_body 2 (qsort_insertion l4))
          (l2, (List.range (2 * 1)).map sys_two_pixels.img_junk) m).1.getD c
            octree_zero).counter) :=
  residual_sums consts_h qsort_insertion sys_two_pixels 2 1 [0xFFFF, 0x0000]
    rfl rfl rfl (by decide) (by decide) (by decide) (by decide) (by decide)


/-- Sums over selected pixels lie between `lo` and `hi` times their number
when every selected value lies between `lo` and `hi`. -/
theorem tally_bounds (body : List Nat) (sel : Nat → Bool) (val : Nat → Int) (lo hi : Int) :
    ∀ m, (∀ j, j < m → sel (pixel_at body j) = true →
        lo ≤ val (pixel_at body j) ∧ val (pixel_at body j) ≤ hi) →
      lo * tally body sel (fun _ => 1) m ≤ tally body sel val m ∧
        tally body sel val m ≤ hi * tally body sel (fun _ => 1) m := by
  intro m
  induction m with
  | zero => intro _; simp [tally]
  | succ m ih =>
    intro h
    obtain ⟨h1, h2⟩ := ih (fun j hj => h j (by omega))
    simp only [tally_succ]
    by_cases hs : sel (pixel_at body m) = true
    · obtain ⟨h3, h4⟩ := h m (by omega) hs
      simp only [hs, if_true, Int.mul_add, Int.mul_one]
      constructor <;> omega
    · simp only [hs, Bool.false_eq_true, if_false, add_zero]
      exact ⟨h1, h2⟩

theorem tdiv_between (s n lo hi : Int) (hn : 0 < n) (hlo : 0 ≤ lo) (h1 : lo * n ≤ s)
    (h2 : s ≤ hi * n) : lo ≤ Int.tdiv s n ∧ Int.tdiv s n ≤ hi := by
  have hs : 0 ≤ s := le_trans (Int.mul_nonneg hlo (le_of_lt hn)) h1
  rw [Int.tdiv_eq_ediv hs (le_of_lt hn)]
  exact ⟨Int.le_ediv_of_mul_le hn h1, Int.ediv_le_of_le_mul hn h2⟩

/-- The average of a channel over the selected pixels lies between `lo` and
`hi` when every selected value does and at least one pixel is selected. -/
theorem average_between (body : List Nat) (sel : Nat → Bool) (val : Nat → Int)
    (lo hi : Int) (m : Nat) (hlo : 0 ≤ lo)
    (h : ∀ j, j < m → sel (pixel_at body j) = true →
      lo ≤ val (pixel_at body j) ∧ val (pixel_at body j) ≤ hi)
    (hcnt : 0 < tally body sel (fun _ => 1) m) :
    lo ≤ Int.tdiv (tally body sel val m) (tally body sel (fun _ => 1) m) ∧
      Int.tdiv (tally body sel val m) (tally body sel (fun _ => 1) m) ≤ hi := by
  obtain ⟨h1, h2⟩ := tally_bounds body sel val lo hi m h
  exact tdiv_between _ _ lo hi hcnt hlo h1 h2

/-- Pixels of one fine bin agree in the top 4 bits of every channel. -/
theorem same_fine_channels (p q : Nat) (h : fine_index p = fine_index q) :
    red1 p / 2 = red1 q / 2 ∧ green_of p / 4 = green_of q / 4 ∧
      blue_of p / 2 = blue_of q / 2 := by
  unfold fine_index at h
  rw [four_index_eq _ _ _ (green_lt p) (blue_lt p),
    four_index_eq _ _ _ (green_lt q) (blue_lt q)] at h
  have := green_lt p
  have := blue_lt p
  have := green_lt q
  have := blue_lt q
  omega

/-- Pixels of one coarse bin agree in the top 2 bits of every channel. -/
theorem same_coarse_channels (p q : Nat) (h : coarse_index p = coarse_index q) :
    red1 p / 8 = red1 q / 8 ∧ green_of p / 16 = green_of q / 16 ∧
      blue_of p / 8 = blue_of q / 8 := by
  unfold coarse_index at h
  rw [two_index_eq _ _ _ (green_lt p) (blue_lt p),
    two_index_eq _ _ _ (green_lt q) (blue_lt q)] at h
  have := green_lt p
  have := blue_lt p
  have := green_lt q
  have := blue_lt q
  omega

/-- The palette triple of a bin whose selected pixels all share the fine
index of `px` agrees with the colour of `px` in the top 4 bits. -/
theorem palette_triple_fine (b : octree_arr_t) (body : List Nat) (sel : Nat → Bool)
    (m px : Nat)
    (hsel : ∀ j, j < m → sel (pixel_at body j) = true →
      fine_index (pixel_at body j) = fine_index px)
    (hc : b.counter = tally body sel (fun _ => 1) m) (hpos : 0 < b.counter)
    (hr : b.red = tally body sel (fun p => red1 p) m)
    (hg : b.green = tally body sel (fun p => green_of p) m)
    (hb : b.blue = tally body sel (fun p => blue_of p) m) :
    (palette_triple b).1 >>> 2 = (red1 px <<< 1) >>> 2 ∧
      (palette_triple b).2.1 >>> 2 = green_of px >>> 2 ∧
      (palette_triple b).2.2 >>> 2 = (blue_of px <<< 1) >>> 2 := by
  rw [hc] at hpos
  have hR := red1_lt px
  have hG := green_lt px
  have hB := blue_lt px
  have ar := average_between body sel (fun p => red1 p) (2 * (red1 px / 2 : Nat))
    (2 * (red1 px / 2 : Nat) + 1) m (by omega)
    (fun j hj hs => by
      dsimp only
      have := (same_fine_channels _ _ (hsel j hj hs)).1
      have := red1_lt (pixel_at body j)
      constructor <;> omega) hpos
  have ag := average_between body sel (fun p => green_of p) (4 * (green_of px / 4 : Nat))
    (4 * (green_of px / 4 : Nat) + 3) m (by omega)
    (fun j hj hs => by
      dsimp only
      have := (same_fine_channels _ _ (hsel j hj hs)).2.1
      have := green_lt (pixel_at body j)
      constructor <;> omega) hpos
  have ab := average_between body sel (fun p => blue_of p) (2 * (blue_of px / 2 : Nat))
    (2 * (blue_of px / 2 : Nat) + 1) m (by omega)
    (fun j hj hs => by
      dsimp only
      have := (same_fine_channels _ _ (hsel j hj hs)).2.2
      have := blue_lt (pixel_at body j)
      constructor <;> omega) hpos
  unfold palette_triple to_uint8
  simp only [hc, hr, hg, hb, Nat.shiftRight_eq_div_pow, Nat.shiftLeft_eq]
  generalize Int.tdiv (tally body sel (fun p => (red1 p : Int)) m)
    (tally body sel (fun _ => 1) m) = qr at ar
  generalize Int.tdiv (tally body sel (fun p => (green_of p : Int)) m)
    (tally body sel (fun _ => 1) m) = qg at ag
  generalize Int.tdiv (tally body sel (fun p => (blue_of p : Int)) m)
    (tally body sel (fun _ => 1) m) = qb at ab
  refine ⟨?_, ?_, ?_⟩ <;> omega

/-- The palette triple of a bin whose selected pixels all share the coarse
index of `px` agrees with the colour of `px` in the top 2 bits. -/
theorem palette_triple_coarse (b : octree_arr_t) (body : List Nat) (sel : Nat → Bool)
    (m px : Nat)
    (hsel : ∀ j, j < m → sel (pixel_at body j) = true →
      coarse_index (pixel_at body j) = coarse_index px)
    (hc : b.counter = tally body sel (fun _ => 1) m) (hpos : 0 < b.counter)
    (hr : b.red = tally body sel (fun p => red1 p) m)
    (hg : b.green = tally body sel (fun p => green_of p) m)
    (hb : b.blue = tally body sel (fun p => blue_of p) m) :
    (palette_triple b).1 >>> 4 = (red1 px <<< 1) >>> 4 ∧
      (palette_triple b).2.1 >>> 4 = green_of px >>> 4 ∧
      (palette_triple b).2.2 >>> 4 = (blue_of px <<< 1) >>> 4 := by
  rw [hc] at hpos
  have hR := red1_lt px
  have hG := green_lt px
  have hB := blue_lt px
  have ar := average_between body sel (fun p => red1 p) (8 * (red1 px / 8 : Nat))
    (8 * (red1 px / 8 : Nat) + 7) m (by omega)
    (fun j hj hs => by
      dsimp only
      have := (same_coarse_channels _ _ (hsel j hj hs)).1
      have := red1_lt (pixel_at body j)
      constructor <;> omega) hpos
  have ag := average_between body sel (fun p => green_of p) (16 * (green_of px / 16 : Nat))
    (16 * (green_of px / 16 : Nat) + 15) m (by omega)
    (fun j hj hs => by
      dsimp only
      have := (same_coarse_channels _ _ (hsel j hj hs)).2.1
      have := green_lt (pixel_at body j)
      constructor <;> omega) hpos
  have ab := average_between body sel (fun p => blue_of p) (8 * (blue_of px / 8 : Nat))
    (8 * (blue_of px / 8 : Nat) + 7) m (by omega)
    (fun j hj hs => by
      dsimp only
      have := (same_coarse_channels _ _ (hsel j hj hs)).2.2
      have := blue_lt (pixel_at body j)
      constructor <;> omega) hpos
  unfold palette_triple to_uint8
  simp only [hc, hr, hg, hb, Nat.shiftRight_eq_div_pow, Nat.shiftLeft_eq]
  generalize Int.tdiv (tally body sel (fun p => (red1 p : Int)) m)
    (tally body sel (fun _ => 1) m) = qr at ar
  generalize Int.tdiv (tally body sel (fun p => (green_of p : Int)) m)
    (tally body sel (fun _ => 1) m) = qg at ag
  generalize Int.tdiv (tally body sel (fun p => (blue_of p : Int)) m)
    (tally body sel (fun _ => 1) m) = qb at ab
  refine ⟨?_, ?_, ?_⟩ <;> omega


/-- The palette triple addressed by a pixel's byte, compared with the channels
that pass 1 extracts from the pixel: the top 4 bits of each 6-bit channel agree
for a fine byte, the top 2 bits for a coarse byte. -/
theorem palette_bits_of_channels (k : Consts) (qsort : List octree_arr_t → List octree_arr_t)
    (sys : Sys) (W H : Nat) (body : List Nat)
    (hq : IsQsort qsort)
    (hfile : sys.file = some (W :: H :: body))
    (hmp : sys.malloc_photo = true) (hmi : sys.malloc_img = true)
    (hW16 : W < 65536) (hH16 : H < 65536)
    (hW : W ≤ k.MAX_PHOTO_WIDTH) (hH : H ≤ k.MAX_PHOTO_HEIGHT)
    (hlen : H * W ≤ body.length) :
    ∃ p, (read_photo k qsort sys).ret = some p ∧
      ∀ r c, r < H → c < W →
        ∃ b t, p.img[W * (H - 1 - r) + c]? = some b ∧ 64 ≤ b ∧ b < 256 ∧
          p.palette[b - 64]? = some t ∧
          (b < 192 →
            t.1 >>> 2 = (red1 (pixel_at body (r * W + c)) <<< 1) >>> 2 ∧
            t.2.1 >>> 2 = green_of (pixel_at body (r * W + c)) >>> 2 ∧
            t.2.2 >>> 2 = (blue_of (pixel_at body (r * W + c)) <<< 1) >>> 2) ∧
          (192 ≤ b →
            t.1 >>> 4 = (red1 (pixel_at body (r * W + c)) <<< 1) >>> 4 ∧
            t.2.1 >>> 4 = green_of (pixel_at body (r * W + c)) >>> 4 ∧
            t.2.2 >>> 4 = (blue_of (pixel_at body (r * W + c)) <<< 1) >>> 4) := by
  obtain ⟨l2, l4, l2', p, h1, hok, hpop, ht4, h2, hl2', hres, hret, -, hpal, -, himg⟩ :=
    read_photo_spec k qsort sys W H body hfile hmp hmi hW16 hH16 hW hH hlen
  obtain ⟨hperm, hsorted⟩ := hq l4
  have hfp := fill_palette_get l2' (qsort l4) ((List.range 192).map sys.palette_junk)
    (by simp)
  rw [← hpal] at hfp
  refine ⟨p, hret, fun r c hr hc => ?_⟩
  have hn := index_lt_of_range W H r c hr hc
  have hpx := pixel_at_lt body (r * W + c)
  obtain ⟨r0, hr0⟩ := exists_rank l4 (qsort l4) hok hperm _
    (fine_index_lt (pixel_at body (r * W + c)))
  have he := emit_of_rank l4 (qsort l4) hok hperm hsorted _ hpx (hpop _ hn) r0 hr0
  have hcl := coarse_index_lt (pixel_at body (r * W + c))
  rcases Nat.lt_or_ge r0 128 with h | h
  · -- fine byte
    have hB := getD_of_getElem_some _ _ _ hr0
    have hpos : 0 < (l4.getD (fine_index (pixel_at body (r * W + c))) octree_zero).counter :=
      (hpop _ hn).2
    have hc0 : ((qsort l4).getD r0 octree_zero).counter ≠ 0 := by
      rw [hB]; exact ne_of_gt hpos
    obtain ⟨tr, tg, tb, tc⟩ := ht4 (fine_index (pixel_at body (r * W + c)))
    have hbits := palette_triple_fine
      (l4.getD (fine_index (pixel_at body (r * W + c))) octree_zero) body
      (fun p => fine_index p == fine_index (pixel_at body (r * W + c))) (H * W)
      (pixel_at body (r * W + c))
      (fun j _ hs => by simpa using hs) tc hpos tr tg tb
    refine ⟨r0 + 64, palette_triple (l4.getD (fine_index (pixel_at body (r * W + c)))
      octree_zero), by rw [himg r c hr hc, he.1 h], by omega, by omega, ?_,
      fun _ => hbits, fun h192 => by omega⟩
    rw [show r0 + 64 - 64 = r0 by omega, hfp.1 r0 h hc0, hB]
  · -- coarse byte
    have hemit := he.2 h
    have hnf := not_fine_mapped_of_emit (qsort l4) _ hpx (by omega)
    obtain ⟨r1, r2, r3, r4⟩ := hres (coarse_index (pixel_at body (r * W + c)))
    have key : ∀ val : Nat → Int,
        tally body (fun p => coarse_index p == coarse_index (pixel_at body (r * W + c))) val
            (H * W) -
          tally body (fun p => coarse_index p == coarse_index (pixel_at body (r * W + c)) &&
            fine_mapped (qsort l4) p) val (H * W) =
          tally body (fun p => coarse_index p == coarse_index (pixel_at body (r * W + c)) &&
            !fine_mapped (qsort l4) p) val (H * W) := by
      intro val
      rw [tally_split body
        (fun p => coarse_index p == coarse_index (pixel_at body (r * W + c)))
        (fine_mapped (qsort l4)) val (H * W)]
      omega
    rw [key] at r1 r2 r3 r4
    have hcount : 0 < (l2'.getD (coarse_index (pixel_at body (r * W + c))) octree_zero).counter := by
      rw [r4]
      have := tally_count_pos body
        (fun p => coarse_index p == coarse_index (pixel_at body (r * W + c)) &&
          !fine_mapped (qsort l4) p) (H * W) (r * W + c) hn (by simp [hnf])
      omega
    have hbits := palette_triple_coarse
      (l2'.getD (coarse_index (pixel_at body (r * W + c))) octree_zero) body
      (fun p => coarse_index p == coarse_index (pixel_at body (r * W + c)) &&
        !fine_mapped (qsort l4) p) (H * W) (pixel_at body (r * W + c))
      (fun j _ hs => by
        simp only [Bool.and_eq_true, beq_iff_eq] at hs
        exact hs.1) r4 hcount r1 r2 r3
    refine ⟨coarse_index (pixel_at body (r * W + c)) + 192,
      palette_triple (l2'.getD (coarse_index (pixel_at body (r * W + c))) octree_zero),
      by rw [himg r c hr hc, hemit], by omega, by omega, ?_,
      fun hlt => by omega, fun _ => hbits⟩
    rw [show coarse_index (pixel_at body (r * W + c)) + 192 - 64 =
        128 + coarse_index (pixel_at body (r * W + c)) by omega,
      hfp.2 _ hcl (ne_of_gt hcount)]

/-- C25: for a photo file that `read_photo` accepts and a `qsort` that meets
its contract, every pixel has a byte `b` in `[64, 256)`, and for the pixel
whose 16-bit word has red field `R5` in bits 15-11, green field `G6` in bits
10-5 and blue field `B5` in bits 4-0, palette slot `b - 64` holds a triple
which agrees with the 6-bit colour `(R5 << 1, G6, B5 << 1)` in the top 4 bits
of every channel when `b` is a fine byte (below 192), and in the top 2 bits of
every channel when `b` is a coarse byte (192 or more). -/
theorem quantisation_error (k : Consts) (qsort : List octree_arr_t → List octree_arr_t)
    (sys : Sys) (W H : Nat) (body : List Nat)
    (hq : IsQsort qsort)
    (hfile : sys.file = some (W :: H :: body))
    (hmp : sys.malloc_photo = true) (hmi : sys.malloc_img = true)
    (hW16 : W < 65536) (hH16 : H < 65536)
    (hW : W ≤ k.MAX_PHOTO_WIDTH) (hH : H ≤ k.MAX_PHOTO_HEIGHT)
    (hlen : H * W ≤ body.length) :
    ∃ p, (read_photo k qsort sys).ret = some p ∧
      ∀ r c R5 G6 B5, r < H → c < W → R5 < 32 → G6 < 64 → B5 < 32 →
        body[r * W + c]? = some (R5 * 2048 + G6 * 32 + B5) →
        ∃ b t, p.img[W * (H - 1 - r) + c]? = some b ∧ 64 ≤ b ∧ b < 256 ∧
          p.palette[b - 64]? = some t ∧
          (b < 192 →
            t.1 >>> 2 = (R5 <<< 1) >>> 2 ∧ t.2.1 >>> 2 = G6 >>> 2 ∧
            t.2.2 >>> 2 = (B5 <<< 1) >>> 2) ∧
          (192 ≤ b →
            t.1 >>> 4 = (R5 <<< 1) >>> 4 ∧ t.2.1 >>> 4 = G6 >>> 4 ∧
            t.2.2 >>> 4 = (B5 <<< 1) >>> 4) := by
  obtain ⟨p, hret, h⟩ := palette_bits_of_channels k qsort sys W H body hq hfile hmp hmi
    hW16 hH16 hW hH hlen
  refine ⟨p, hret, fun r c R5 G6 B5 hr hc hR hG hB hpx => ?_⟩
  obtain ⟨hC, cR, cG, cB⟩ := channels_of_fields R5 G6 B5 hR hG hB
  have e := pixel_at_of_get body (r * W + c) _ hC hpx
  have := h r c hr hc
  rw [e, cR, cG, cB] at this
  exact this

/-- C25 at the two-pixel photo file `0xFFFF` (fields 31, 63, 31), `0x0000`
(fields 0, 0, 0), sorted by insertion sort: the triple of the first pixel has
15 in the top 4 bits of every channel if its byte is fine and 3 in the top 2
bits if it is coarse; the triple of the second pixel has 0 there. -/
theorem quantisation_error_witness :
    (0xFFFF : Nat) = 31 * 2048 + 63 * 32 + 31 ∧
    ∃ p, (read_photo consts_h qsort_insertion sys_two_pixels).ret = some p ∧
      (∃ b t, p.img[0]? = some b ∧ 64 ≤ b ∧ b < 256 ∧
          p.palette[b - 64]? = some t ∧
          (b < 192 → t.1 >>> 2 = 15 ∧ t.2.1 >>> 2 = 15 ∧ t.2.2 >>> 2 = 15) ∧
          (192 ≤ b → t.1 >>> 4 = 3 ∧ t.2.1 >>> 4 = 3 ∧ t.2.2 >>> 4 = 3)) ∧
      (∃ b t, p.img[1]? = some b ∧ 64 ≤ b ∧ b < 256 ∧
          p.palette[b - 64]? = some t ∧
          (b < 192 → t.1 >>> 2 = 0 ∧ t.2.1 >>> 2 = 0 ∧ t.2.2 >>> 2 = 0) ∧
          (192 ≤ b → t.1 >>> 4 = 0 ∧ t.2.1 >>> 4 = 0 ∧ t.2.2 >>> 4 = 0)) :=
  ⟨by decide,
   Exists.elim
    (quantisation_error consts_h qsort_insertion sys_two_pixels 2 1 [0xFFFF, 0x0000]
      qsort_insertion_isQsort rfl rfl rfl (by decide) (by decide) (by decide) (by decide)
      (by decide))
    (fun p h => ⟨p, h.1,
      h.2 0 0 31 63 31 (by decide) (by decide) (by decide) (by decide) (by decide) rfl,
      h.2 0 1 0 0 0 (by decide) (by decide) (by decide) (by decide) (by decide) rfl⟩)⟩

end Photo

/-! ## PaletteCore: a photo of two rows -/

namespace Photo

/-- When two fine bins are populated, one with strictly more pixels than the
other, and no other bin is, the sorted array starts with these two. -/
theorem two_bins_ranks (l4 sorted : List octree_arr_t) (hok : FineBinsOk l4)
    (hperm : sorted.Perm l4) (hsorted : sorted.Pairwise (fun a b => compare a b ≤ 0))
    (f g : Nat) (hf : f < 4096) (hg : g < 4096)
    (hgpos : 0 < (l4.getD g octree_zero).counter)
    (hlt : (l4.getD g octree_zero).counter < (l4.getD f octree_zero).counter)
    (hothers : ∀ h, h ≠ f → h ≠ g → (l4.getD h octree_zero).counter = 0) :
    sorted[0]? = some (l4.getD f octree_zero) ∧
      sorted[1]? = some (l4.getD g octree_zero) := by
  obtain ⟨i, hi⟩ := exists_rank l4 sorted hok hperm f hf
  obtain ⟨j, hj⟩ := exists_rank l4 sorted hok hperm g hg
  have hfpos : 0 < (l4.getD f octree_zero).counter := lt_trans hgpos hlt
  have hij : i < j := rank_lt_of_counter_lt l4 sorted hsorted g f j i hj hi hlt
  obtain ⟨hil, hie⟩ := List.getElem?_eq_some.1 hi
  obtain ⟨hjl, hje⟩ := List.getElem?_eq_some.1 hj
  have hcases : ∀ n (hn : n < sorted.length), 0 < sorted[n].counter →
      sorted[n] = l4.getD f octree_zero ∨ sorted[n] = l4.getD g octree_zero := by
    intro n hn hpos
    have hmem : sorted[n] ∈ l4 := hperm.subset (List.getElem_mem _)
    obtain ⟨h, hh, hhe⟩ := List.getElem_of_mem hmem
    have eh : l4.getD h octree_zero = sorted[n] := by
      simp [List.getD_eq_getElem?_getD, List.getElem?_eq_getElem hh, hhe]
    by_cases h1 : h = f
    · left; rw [← eh, h1]
    · by_cases h2 : h = g
      · right; rw [← eh, h2]
      · have := hothers h h1 h2
        rw [eh] at this
        omega
  have hpw := hsorted
  rw [List.pairwise_iff_getElem] at hpw
  have hi0 : i = 0 := by
    by_contra hne
    have h0l : 0 < sorted.length := by omega
    have hc := compare_le_zero _ _ (hpw 0 i h0l hil (by omega))
    rw [hie] at hc
    rcases hcases 0 h0l (lt_of_lt_of_le hfpos hc) with h | h
    · have := sorted_rank_unique l4 sorted hok hperm _ hfpos 0 i
        (by rw [List.getElem?_eq_getElem h0l, h]) hi
      omega
    · rw [h] at hc
      omega
  have hj1 : j = 1 := by
    by_contra hne
    have h1l : 1 < sorted.length := by omega
    have hc := compare_le_zero _ _ (hpw 1 j h1l hjl (by omega))
    rw [hje] at hc
    rcases hcases 1 h1l (lt_of_lt_of_le hgpos hc) with h | h
    · have := sorted_rank_unique l4 sorted hok hperm _ hfpos 1 i
        (by rw [List.getElem?_eq_getElem h1l, h]) hi
      omega
    · have := sorted_rank_unique l4 sorted hok hperm _ hgpos 1 j
        (by rw [List.getElem?_eq_getElem h1l, h]) hj
      omega
  rw [hi0] at hi
  rw [hj1] at hj
  exact ⟨hi, hj⟩

/-- A photo of two colours `A` and `B`, `A` having strictly more pixels: the
fine bins that pass 1 leaves give the byte 64 to `A` and the byte 65 to `B`. -/
theorem two_colour_bytes (qsort : List octree_arr_t → List octree_arr_t)
    (W H : Nat) (body : List Nat) (A B : Nat) (hq : IsQsort qsort)
    (hlen : H * W ≤ body.length) (hA : A < 65536) (hB : B < 65536)
    (hpix : ∀ j, j < H * W → pixel_at body j = A ∨ pixel_at body j = B)
    (hBpos : 0 < tally body (fun p => fine_index p == fine_index B) (fun _ => 1) (H * W))
    (hlt : tally body (fun p => fine_index p == fine_index B) (fun _ => 1) (H * W) <
      tally body (fun p => fine_index p == fine_index A) (fun _ => 1) (H * W))
    (rest : List Nat) (l2 l4 : List octree_arr_t)
    (h1 : pass1 W H body = some (rest, l2, l4)) :
    emit (qsort l4) A = 64 ∧ emit (qsort l4) B = 65 := by
  obtain ⟨l2a, l4a, ha, hok, -⟩ := pass1_spec W H body hlen
  obtain ⟨l2b, l4b, hb, -, -, ht4⟩ := pass1_tally W H body hlen
  rw [h1] at ha hb
  have ea : l4a = l4 := by
    have := Option.some.inj ha
    simp only [Prod.mk.injEq] at this
    exact this.2.2.symm
  have eb : l4b = l4 := by
    have := Option.some.inj hb
    simp only [Prod.mk.injEq] at this
    exact this.2.2.symm
  rw [ea] at hok
  rw [eb] at ht4
  obtain ⟨hperm, hsorted⟩ := hq l4
  have cB : 0 < (l4.getD (fine_index B) octree_zero).counter := by
    rw [(ht4 (fine_index B)).2.2.2]; exact hBpos
  have cAB : (l4.getD (fine_index B) octree_zero).counter <
      (l4.getD (fine_index A) octree_zero).counter := by
    rw [(ht4 (fine_index B)).2.2.2, (ht4 (fine_index A)).2.2.2]; exact hlt
  have hothers : ∀ h, h ≠ fine_index A → h ≠ fine_index B →
      (l4.getD h octree_zero).counter = 0 := by
    intro h hn1 hn2
    rw [(ht4 h).2.2.2]
    apply tally_eq_zero
    intro j hj
    rcases hpix j hj with e | e
    · rw [e]; simpa using Ne.symm hn1
    · rw [e]; simpa using Ne.symm hn2
  obtain ⟨r0, r1⟩ := two_bins_ranks l4 (qsort l4) hok hperm hsorted (fine_index A)
    (fine_index B) (fine_index_lt A) (fine_index_lt B) cB cAB hothers
  have pA := populated_of_counter_pos l4 hok (fine_index A) (lt_trans cB cAB)
  have pB := populated_of_counter_pos l4 hok (fine_index B) cB
  exact ⟨(emit_of_rank l4 (qsort l4) hok hperm hsorted A hA pA 0 r0).1 (by decide),
    (emit_of_rank l4 (qsort l4) hok hperm hsorted B hB pB 1 r1).1 (by decide)⟩

/-- C14 at the 2 x 2 photo file whose file row 0 is `0x0000`, `0xFFFF` and whose
file row 1 is `0xFFFF`, `0xFFFF`, sorted by insertion sort: the colour
`0xFFFF` gets the byte 64 and `0x0000` the byte 65, and the image in memory is
`64, 64` (file row 1) followed by `65, 64` (file row 0). -/
theorem read_photo_flips_rows_witness :
    ∃ p, (read_photo consts_h qsort_insertion sys_two_rows).ret = some p ∧
      p.hdr = { width := 2, height := 2 } ∧
      p.img[0]? = some 64 ∧ p.img[1]? = some 64 ∧
      p.img[2]? = some 65 ∧ p.img[3]? = some 64 := by
  obtain ⟨l2, l4, p, h1, -, -, hret, hhdr, -, himg⟩ :=
    read_photo_flips_rows consts_h qsort_insertion sys_two_rows 2 2
      [0x0000, 0xFFFF, 0xFFFF, 0xFFFF] rfl rfl rfl (by decide) (by decide) (by decide)
      (by decide) (by decide)
  obtain ⟨eA, eB⟩ := two_colour_bytes qsort_insertion 2 2 [0x0000, 0xFFFF, 0xFFFF, 0xFFFF]
    0xFFFF 0x0000 qsort_insertion_isQsort (by decide) (by decide) (by decide) (by decide)
    (by decide) (by decide) _ l2 l4 h1
  have e0 : pixel_at [0x0000, 0xFFFF, 0xFFFF, 0xFFFF] 0 = 0x0000 := by decide
  have e1 : pixel_at [0x0000, 0xFFFF, 0xFFFF, 0xFFFF] 1 = 0xFFFF := by decide
  have e2 : pixel_at [0x0000, 0xFFFF, 0xFFFF, 0xFFFF] 2 = 0xFFFF := by decide
  have e3 : pixel_at [0x0000, 0xFFFF, 0xFFFF, 0xFFFF] 3 = 0xFFFF := by decide
  have g0 := himg 0 (by decide)
  have g1 := himg 1 (by decide)
  have g2 := himg 2 (by decide)
  have g3 := himg 3 (by decide)
  rw [e0, eB] at g0
  rw [e1, eA] at g1
  rw [e2, eA] at g2
  rw [e3, eA] at g3
  exact ⟨p, hret, hhdr, g2, g3, g0, g1⟩

end Photo
